import Mathlib

set_option maxRecDepth 4000

/-!
# Verification of the Micro25519 prime-field and MPI arithmetic core

A shallow embedding of the GF(p) arithmetic (`gfparith.c`) and the
multi-precision integer arithmetic (`mpiarith.c`) of Micro25519, for the
pseudo-Mersenne prime p = 2^255 - 19, together with proofs of the
specification's claims about these routines.

Conventions of the embedding:
* `Word` (`uint32_t`) values are natural numbers; a word store
  `r[i] = (Word) sum` becomes `sum % W` with `W = 2^32`.
* `DWord` (`uint64_t`) accumulators are natural numbers; the accumulators of
  the C code provably never exceed 2^64 (see the range comments in the C
  source), so no `% 2^64` is inserted.
* `SDWord` (`int64_t`) accumulators are integers; the arithmetic right shift
  `sum >>= WSIZE` of the C code is floor division, i.e. `Int.ediv` (which
  `/` denotes on `Int`).
* A `Word` array is a `List Nat` in little-endian word order; its value is
  `mval`.
-/

namespace Micro25519

/-- Word base 2^32: a `Word` (`uint32_t`) is a natural number below `W`. -/
def W : Nat := 4294967296

/-- The field prime p = 2^255 - 19 (`CONSTK = 255`, `CONSTC = 19`). -/
def P : Nat := 2 ^ 255 - 19

/-- Little-endian value of a word array (`Σ a_i · 2^(32·i)`). -/
def mval : List Nat → Nat
  | [] => 0
  | w :: ws => w + W * mval ws

/-- Value of a list of signed double-word summands. -/
def ival : List Int → Int
  | [] => 0
  | d :: ds => d + W * ival ds

/-- Every entry of the list is a word, i.e. below 2^32. -/
def valid (l : List Nat) : Prop := ∀ w ∈ l, w < W

instance validDec (l : List Nat) : Decidable (valid l) :=
  inferInstanceAs (Decidable (∀ w ∈ l, w < W))

/-- Unsigned carry-propagating loop shared by `mpi_add`, `mpi_cadd`,
`mpi_sub` (after complementing `b`) and the inner loop of `gfp_add`:
each step executes `sum += x + y; r[i] = (Word) sum; sum >>= WSIZE`
on a `DWord` accumulator `sum` seeded with `c`.  Returns the stored
words and the final accumulator. -/
def addChain (c : Nat) : List Nat → List Nat → List Nat × Nat
  | x :: xs, y :: ys =>
    let s := c + x + y
    let t := addChain (s / W) xs ys
    (s % W :: t.1, t.2)
  | _, _ => ([], c)

/-- Signed carry-propagating loop shared by `gfp_sub`, `gfp_cneg` and
`gfp_hlv`: each step executes `sum += d; r[i] = (Word) sum;
sum >>= WSIZE` on an `SDWord` accumulator (arithmetic right shift =
floor division). -/
def sdwChain (s : Int) : List Int → List Nat × Int
  | [] => ([], s)
  | d :: ds =>
    let t := s + d
    let u := sdwChain (t / (W : Int)) ds
    ((t % (W : Int)).toNat :: u.1, u.2)

/-- Multiply-accumulate loop of the peeled first row of the schoolbook
multiplication: `prod += a[j]*b0; t[j] = (Word) prod; prod >>= WSIZE`. -/
def mulChain (c b0 : Nat) : List Nat → List Nat × Nat
  | [] => ([], c)
  | aj :: as' =>
    let s := c + aj * b0
    let t := mulChain (s / W) b0 as'
    (s % W :: t.1, t.2)

/-- Multiply-accumulate loop of a non-first row of the schoolbook
multiplication (and of the first reduction pass of `gfp_mul`):
`prod += a[j]*bi; prod += t[i+j]; t[i+j] = (Word) prod; prod >>= WSIZE`. -/
def mulAddChain (c bi : Nat) : List Nat → List Nat → List Nat × Nat
  | aj :: as', tj :: ts =>
    let s := c + aj * bi + tj
    let u := mulAddChain (s / W) bi as' ts
    (s % W :: u.1, u.2)
  | _, _ => ([], c)

/-- Plain carry propagation (second reduction pass of `gfp_mul`):
`prod += t[i]; r[i] = (Word) prod; prod >>= WSIZE`. -/
def carryChain (c : Nat) : List Nat → List Nat × Nat
  | [] => ([], c)
  | tj :: ts =>
    let s := c + tj
    let u := carryChain (s / W) ts
    (s % W :: u.1, u.2)

/-- `mpi_setw(r, a, len)` from mpiarith.c: `r = [0, ..., 0, a]`
(index 0 is least significant, so word 0 is `a` and the rest are 0). -/
def mpi_setw (a len : Nat) : List Nat := a :: List.replicate (len - 1) 0

/-- `mpi_copy(r, a, len)` from mpiarith.c: copies the `len` words of `a`. -/
def mpi_copy (a : List Nat) (len : Nat) : List Nat := a.take len

/-- `mpi_add(r, a, b, len)` from mpiarith.c: `r = a + b`, returns the carry
bit.  The length parameter is implicit in the lengths of the operand lists. -/
def mpi_add (a b : List Nat) : List Nat × Nat := addChain 0 a b

/-- `mpi_cadd(r, a, b, add, len)` from mpiarith.c: `r = a + b` or `r = a`,
branch-free via the mask `0 - (add & 1)`; each `b[i]` is AND-masked.
Returns the carry bit. -/
def mpi_cadd (a b : List Nat) (add : Nat) : List Nat × Nat :=
  let mask := (W - (add &&& 1)) % W
  addChain 0 a (b.map (fun y => y &&& mask))

/-- `mpi_sub(r, a, b, len)` from mpiarith.c: `dif` starts at 1 and each step
executes `dif += a[i] + (~b[i])`; the bitwise complement `~b[i]` of a word
`b[i] < 2^32` is `2^32 - 1 - b[i]`.  Returns `(r, borrow)` with
`borrow = 1 - dif`. -/
def mpi_sub (a b : List Nat) : List Nat × Nat :=
  let t := addChain 1 a (b.map (fun y => W - 1 - y))
  (t.1, 1 - t.2)

/-- The loop body of `mpi_shr`:
`r[i] = (a[i+1] << (WSIZE-1)) | (a[i] >> 1)` for consecutive words. -/
def pairShift : List Nat → List Nat
  | x :: y :: rest => (((y <<< 31) % W) ||| (x >>> 1)) :: pairShift (y :: rest)
  | _ => []

/-- `mpi_shr(r, a, len)` from mpiarith.c: 1-bit logical right shift of the
first `len` words; `r[len-1] = a[len-1] >> 1`; returns `(r, a[0] & 1)`. -/
def mpi_shr (a : List Nat) (len : Nat) : List Nat × Nat :=
  let t := a.take len
  (pairShift t ++ [(t.getLast?.getD 0) >>> 1], a.getD 0 0 &&& 1)

/-- The loop of `mpi_cmp` from mpiarith.c, processing word indices from
`len-1` down to `0`:
`lt = (lt << 1) | (a[i] < b[i]); gt = (gt << 1) | (a[i] > b[i])`
on `Word` (i.e. modulo 2^32) accumulators. -/
def cmpLoop (a b : List Nat) : Nat → Nat × Nat → Nat × Nat
  | 0, lg => lg
  | i + 1, lg =>
    cmpLoop a b i
      (((lg.1 <<< 1) % W) ||| (if a.getD i 0 < b.getD i 0 then 1 else 0),
       ((lg.2 <<< 1) % W) ||| (if a.getD i 0 > b.getD i 0 then 1 else 0))

/-- `mpi_cmp(a, b, len)` from mpiarith.c: constant-time three-way compare;
`r += (gt > lt); r -= (lt > gt)`. -/
def mpi_cmp (a b : List Nat) (len : Nat) : Int :=
  let lg := cmpLoop a b len (0, 0)
  (if lg.2 > lg.1 then 1 else 0) - (if lg.1 > lg.2 then 1 else 0)

/-- The accumulator loop of `mpi_cmpw` from mpiarith.c, processing word
indices from `len-1` down to `1`: `is0 |= a[i]`. -/
def is0Loop (a : List Nat) : Nat → Nat
  | 0 => 0
  | i + 1 => is0Loop a i ||| a.getD (i + 1) 0

/-- `mpi_cmpw(a, b, len)` from mpiarith.c: compare an MPI with the single
word `b`:
`r += ((b > a[0]) | (is0 != 0)); r -= ((b < a[0]) & (is0 == 0))`. -/
def mpi_cmpw (a : List Nat) (b : Nat) (len : Nat) : Int :=
  let is0 := is0Loop a (len - 1)
  (if b > a.getD 0 0 ∨ is0 ≠ 0 then 1 else 0)
    - (if b < a.getD 0 0 ∧ is0 = 0 then 1 else 0)

/-- `gfp_setp(r)` from gfparith.c: `r = p`, i.e.
`r[7] = 0x7FFFFFFF`, `r[6..1] = 0xFFFFFFFF`, `r[0] = (Word)(0 - 19)`. -/
def gfp_setp : List Nat :=
  [W - 19, W - 1, W - 1, W - 1, W - 1, W - 1, W - 1, 2 ^ 31 - 1]

/-- `gfp_add(r, a, b)` from gfparith.c.  The top-word sum is split into a
31-bit `msw` and an upper part that is multiplied by `c = 19` and injected
as the initial carry of the word loop over indices 0..6;
`r[7] = msw + carry` in `Word` arithmetic. -/
def gfp_add (a b : List Nat) : List Nat :=
  let s := a.getD 7 0 + b.getD 7 0
  let msw := (s % W) &&& (2 ^ 31 - 1)
  let c0 := 19 * ((s / 2 ^ 31) % W)
  let t := addChain c0 (a.take 7) (b.take 7)
  t.1 ++ [(msw + t.2 % W) % W]

/-- `gfp_sub(r, a, b)` from gfparith.c: computes `r = 4p + a - b mod p`
with a signed (`SDWord`) accumulator.  The top word starts from
`0x1FFFFFFFC + a[7] - b[7]`; `msw` is its low 31 bits; the initial loop
accumulator is `19 * ((sum >> 31) as Word) - 76`; the loop adds
`a[i] - b[i]` with arithmetic shifts; finally
`r[7] = msw + (Word) sum + 4` in `Word` arithmetic. -/
def gfp_sub (a b : List Nat) : List Nat :=
  let s : Int := 8589934588 + (a.getD 7 0 : Int) - (b.getD 7 0 : Int)
  let msw := ((s % (W : Int)).toNat) &&& (2 ^ 31 - 1)
  let c0 : Int := 19 * ((s / 2 ^ 31) % (W : Int)) - 76
  let ds := (List.zip (a.take 7) (b.take 7)).map (fun q => (q.1 : Int) - (q.2 : Int))
  let t := sdwChain c0 ds
  t.1 ++ [(msw + (t.2 % (W : Int)).toNat + 4) % W]

/-- `gfp_sub_v2(r, a, b)` from gfparith.c (the alternative formulation in
the comment block at the bottom of the file): unsigned `DWord` accumulator
with the pre-biased `4p` constants `0x3FFFFFFB4` (word 0) and
`0x3FFFFFFFC` (words 1..6); top word as in `gfp_sub` but without the
final `+ 4`. -/
def gfp_sub_v2 (a b : List Nat) : List Nat :=
  let s : Nat := 8589934588 + a.getD 7 0 - b.getD 7 0
  let msw := (s % W) &&& (2 ^ 31 - 1)
  let c0 := 19 * ((s / 2 ^ 31) % W)
  let us := (17179869108 + a.getD 0 0 - b.getD 0 0)
    :: (List.range 6).map (fun i => 17179869180 + a.getD (i + 1) 0 - b.getD (i + 1) 0)
  let t := carryChain c0 us
  t.1 ++ [(msw + t.2 % W) % W]

/-- `gfp_hlv(r, a)` from gfparith.c: masked addition of `p` (subtract
`19 & mask` from `a[0]`, add `0x80000000 & mask` into the top word),
fused with a 1-bit right shift.  The words written to `tmp` by the loop
are exactly the words of the signed carry chain over
`[a[0] - (19 & mask), a[1], ..., a[6]]`; the last loop iteration and the
final stores combine consecutive words as in `mpi_shr` and set
`r[7] = (Word)(sum >> 1)`. -/
def gfp_hlv (a : List Nat) : List Nat :=
  let mask := (W - (a.getD 0 0 &&& 1)) % W
  let ds : List Int := ((a.getD 0 0 : Int) - ((19 &&& mask : Nat) : Int))
    :: (List.range 6).map (fun i => (a.getD (i + 1) 0 : Int))
  let t := sdwChain 0 ds
  let s7 : Int := t.2 + (a.getD 7 0 : Int) + (((2147483648 &&& mask : Nat)) : Int)
  pairShift (t.1 ++ [(s7 % (W : Int)).toNat]) ++ [((s7 / 2) % (W : Int)).toNat]

/-- The row loop of the schoolbook multiplication in `gfp_mul`
(`for i = 1 .. LEN-1`): row `i` multiply-accumulates `a` by `b[i]` into
`t[i..i+LEN-1]` and stores the final carry in `t[i+LEN]`. -/
def mulRows (a : List Nat) : List Nat → Nat → List Nat → List Nat
  | [], _, t => t
  | bi :: bs, i, t =>
    let u := mulAddChain 0 bi a (t.drop i)
    mulRows a bs (i + 1) (t.take i ++ u.1 ++ [u.2 % W])

/-- `gfp_mul(r, a, b)` from gfparith.c: operand-scanning schoolbook
product (first row peeled) into a 16-word `t`, then two reduction passes:
fold the high half times `2c = 38` into the low half, then split the top
double word into a 31-bit `msw` and an upper part times `c = 19` that is
carried through `r[0..6]`; `r[7] = msw + (Word) prod`. -/
def gfp_mul (a b : List Nat) : List Nat :=
  let t0 := mulChain 0 (b.getD 0 0) a
  let t := mulRows a (b.drop 1) 1 (t0.1 ++ [t0.2 % W])
  let tlo := t.take 8
  let thi := t.drop 8
  let u := mulAddChain 0 38 (thi.take 7) (tlo.take 7)
  let pbig := u.2 + 38 * thi.getD 7 0 + tlo.getD 7 0
  let msw := (pbig % W) &&& (2 ^ 31 - 1)
  let c2 := 19 * (pbig / 2 ^ 31)
  let v := carryChain c2 u.1
  v.1 ++ [(msw + v.2 % W) % W]

/-- `gfp_fred(r, a)` from gfparith.c: two rounds of subtract `p`
(`mpi_sub`) and conditionally re-add it (`mpi_cadd` keyed on the
borrow). -/
def gfp_fred (a : List Nat) : List Nat :=
  let p := gfp_setp
  let t1 := mpi_sub a p
  let r1 := (mpi_cadd t1.1 p t1.2).1
  let t2 := mpi_sub r1 p
  (mpi_cadd t2.1 p t2.2).1

/-- `gfp_cmp(a, b)` from gfparith.c: both operands are fully reduced with
the same two-round subtract/conditional-re-add pattern as `gfp_fred`
(inlined in the C code), then compared with `mpi_cmp` at `len = LEN = 8`. -/
def gfp_cmp (a b : List Nat) : Int :=
  mpi_cmp (gfp_fred a) (gfp_fred b) 8

/-- The field element 1 = [1, 0, 0, 0, 0, 0, 0, 0]. -/
def oneFE : List Nat := [1, 0, 0, 0, 0, 0, 0, 0]

/-- Binary modular exponentiation `a ^ e mod m`, with explicit fuel
(`fuel` bounds the bit-length of `e`).  Used to check the Fermat/Lucas
conditions in the primality certificates below. -/
def powModAux (m : Nat) : Nat → Nat → Nat → Nat
  | _, 0, _ => 1 % m
  | a, fuel + 1, e =>
    if e = 0 then 1 % m
    else
      let h := powModAux m ((a * a) % m) fuel (e / 2)
      if e % 2 = 1 then (a * h) % m else h

/-- Error code `M25519_ERR_INVERS` (= 2) from config.h. -/
def M25519_ERR_INVERS : Nat := 2

/-- Error code `M25519_NO_ERROR` (= 0) from config.h. -/
def M25519_NO_ERROR : Nat := 0

/-- The state of `gfp_inv`'s extended-Euclid loop: the four working
field-element buffers (`x2` aliases the output buffer `r`), the current
active length `uvlen`, and (for the verification of the call-site length
bound) the `uvlen` value of each executed loop iteration. -/
structure InvState where
  ux : List Nat
  vx : List Nat
  x1 : List Nat
  x2 : List Nat
  uvlen : Nat
  log : List Nat

/-- An inner loop of `gfp_inv`:
`while ((u[0] & 1) == 0) { mpi_shr(u, u, uvlen); gfp_hlv(x, x); }`.
`mpi_shr` rewrites only the first `uvlen` words of the buffer.
Fuel-based; `none` models non-termination (the proofs below show fuel
`mval u + 1` always suffices when `u`'s value is nonzero). -/
def invShrLoop (uvlen : Nat) : Nat → List Nat → List Nat → Option (List Nat × List Nat)
  | 0, _, _ => none
  | fuel + 1, u, x =>
    if u.getD 0 0 &&& 1 = 0 then
      invShrLoop uvlen fuel ((mpi_shr u uvlen).1 ++ u.drop uvlen) (gfp_hlv x)
    else
      some (u, x)

/-- The main loop of `gfp_inv`:
`while (mpi_cmpw(ux,1,uvlen) && mpi_cmpw(vx,1,uvlen)) { ... }`, with the
two inner halving loops, the comparison-directed subtraction step and
the conditional `uvlen--`.  `mpi_sub` at length `uvlen` rewrites only the
first `uvlen` words of the target buffer.  Each iteration appends the
`uvlen` passed to `mpi_cmp`/`mpi_cmpw` to the log. -/
def invLoop : Nat → InvState → Option InvState
  | 0, _ => none
  | fuel + 1, s =>
    if mpi_cmpw s.ux 1 s.uvlen ≠ 0 ∧ mpi_cmpw s.vx 1 s.uvlen ≠ 0 then
      match invShrLoop s.uvlen (mval s.ux + 1) s.ux s.x1 with
      | none => none
      | some (u, y1) =>
        match invShrLoop s.uvlen (mval s.vx + 1) s.vx s.x2 with
        | none => none
        | some (v, y2) =>
          let c := mpi_cmp u v s.uvlen
          let u2 := if c ≥ 0 then (mpi_sub (u.take s.uvlen) (v.take s.uvlen)).1 ++ u.drop s.uvlen else u
          let v2 := if c ≥ 0 then v else (mpi_sub (v.take s.uvlen) (u.take s.uvlen)).1 ++ v.drop s.uvlen
          let y12 := if c ≥ 0 then gfp_sub y1 y2 else y1
          let y22 := if c ≥ 0 then y2 else gfp_sub y2 y1
          let newlen := if u2.getD (s.uvlen - 1) 0 = 0 ∧ v2.getD (s.uvlen - 1) 0 = 0
                        then s.uvlen - 1 else s.uvlen
          invLoop fuel ⟨u2, v2, y12, y22, newlen, s.log ++ [s.uvlen]⟩
    else
      some s

/-- The reduction loop at the top of `gfp_inv`:
`while (mpi_cmp(ux, vx, LEN) >= 0) mpi_sub(ux, ux, vx, LEN);`
(`vx` holds `p`; the borrow returned by `mpi_sub` is discarded). -/
def invPre : Nat → List Nat → List Nat → Option (List Nat)
  | 0, _, _ => none
  | fuel + 1, ux, vx =>
    if mpi_cmp ux vx 8 ≥ 0 then
      invPre fuel (mpi_sub ux vx).1 vx
    else
      some ux

/-- `gfp_inv(r, a)` from gfparith.c.  `r0` is the content of the output
buffer `r` before the call; since `x2` is an alias of `r`, the call
`mpi_setw(x2, 0, LEN)` overwrites it before any other use.  Returns
`some (error code, final content of r, logged uvlen values)`; `none`
models non-termination of a fuel-bounded loop.  On the zero-input path
the function returns `M25519_ERR_INVERS` right after the four
initializations, so the returned buffer is the zeroed `x2`.  On the
success path the C code copies `x1` to `r` only when `ux` ended at 1;
otherwise `r` already holds `x2` (the alias). -/
def gfp_inv (r0 a : List Nat) : Option (Nat × List Nat × List Nat) :=
  let ux0 := mpi_copy a 8
  let vx0 := gfp_setp
  let x1 := mpi_setw 1 8
  let x2 := mpi_setw 0 8
  match invPre 4 ux0 vx0 with
  | none => none
  | some ux1 =>
    if mpi_cmpw ux1 0 8 = 0 then
      some (M25519_ERR_INVERS, x2, [])
    else
      match invLoop (mval ux1 + mval vx0 + 1) ⟨ux1, vx0, x1, x2, 8, []⟩ with
      | none => none
      | some s =>
        let r := if mpi_cmpw s.ux 1 8 = 0 then mpi_copy s.x1 8 else s.x2
        some (M25519_NO_ERROR, r, s.log)

/-- Invariant of `gfp_inv`'s main loop, for original (reduced) input value
`A`: buffer shapes, the active-length bookkeeping (`uvlen` in `[1,8]`, all
words from `uvlen` upward zero), positivity, coprimality of the working
values, the extended-Euclid congruences `A·x1 ≡ ux` and `A·x2 ≡ vx`
(mod p), and the range of all logged lengths. -/
def InvGood (A : Nat) (s : InvState) : Prop :=
  s.ux.length = 8 ∧ s.vx.length = 8 ∧ s.x1.length = 8 ∧ s.x2.length = 8 ∧
  valid s.ux ∧ valid s.vx ∧ valid s.x1 ∧ valid s.x2 ∧
  1 ≤ s.uvlen ∧ s.uvlen ≤ 8 ∧
  mval (s.ux.drop s.uvlen) = 0 ∧ mval (s.vx.drop s.uvlen) = 0 ∧
  1 ≤ mval s.ux ∧ 1 ≤ mval s.vx ∧
  Nat.gcd (mval s.ux) (mval s.vx) = 1 ∧
  ((A * mval s.x1 : Nat) : ZMod P) = ((mval s.ux : Nat) : ZMod P) ∧
  ((A * mval s.x2 : Nat) : ZMod P) = ((mval s.vx : Nat) : ZMod P) ∧
  (∀ m ∈ s.log, 1 ≤ m ∧ m ≤ 8)

/-- A memory access event: `ld arr i` / `st arr i` is a load/store of word
`i` of array number `arr`.  Array numbering per operation:
0 = output `r`, 1 = operand `a`, 2 = operand `b`, 3 = local temporary
(`p`/`t`/`tmp`), 4 = `ar` and 5 = `br` inside `gfp_cmp`. -/
inductive Acc where
  | ld : Nat → Nat → Acc
  | st : Nat → Nat → Acc

/-- The access trace of a C loop `for (i = lo; ...; i++)` running `n`
iterations whose body performs the accesses `evs i` in iteration `i`. -/
def ctFor (lo : Nat) (evs : Nat → List Acc) : Nat → List Acc
  | 0 => []
  | n + 1 => evs lo ++ ctFor (lo + 1) evs n

/-- The access trace of a C loop `for (i = hi; ...; i--)` running `n`
iterations whose body performs the accesses `evs i` in iteration `i`. -/
def ctForDown (hi : Nat) (evs : Nat → List Acc) : Nat → List Acc
  | 0 => []
  | n + 1 => evs hi ++ ctForDown (hi - 1) evs n

/-- Access trace of `mpi_setw(r, a, len)`:
`for (i = len-1; i > 0; i--) r[i] = 0; r[0] = a;`. -/
def mpi_setw_acc (a : Nat) (len : Nat) : List Acc :=
  ctForDown (len - 1) (fun i => [Acc.st 0 i]) (len - 1) ++ [Acc.st 0 0]

/-- Access trace of `mpi_cmpw(a, b, len)`:
`for (i = len-1; i > 0; i--) is0 |= a[i];` then the two reads of `a[0]`
in the branch-free verdict lines. -/
def mpi_cmpw_acc (a : List Nat) (b : Nat) (len : Nat) : List Acc :=
  ctForDown (len - 1) (fun i => [Acc.ld 1 i]) (len - 1) ++ [Acc.ld 1 0, Acc.ld 1 0]

/-- Access trace of `mpi_cmp(a, b, len)`: the downward loop reads `a[i]`
and `b[i]` in each of the `lt` and `gt` update lines; no early exit. -/
def mpi_cmp_acc (a b : List Nat) (len : Nat) : List Acc :=
  ctForDown (len - 1) (fun i => [Acc.ld 1 i, Acc.ld 2 i, Acc.ld 1 i, Acc.ld 2 i]) len

/-- Access trace of `mpi_copy(r, a, len)`. -/
def mpi_copy_acc (a : List Nat) (len : Nat) : List Acc :=
  ctForDown (len - 1) (fun i => [Acc.ld 1 i, Acc.st 0 i]) len

/-- Access trace of `mpi_add(r, a, b, len)`. -/
def mpi_add_acc (a b : List Nat) (len : Nat) : List Acc :=
  ctFor 0 (fun i => [Acc.ld 1 i, Acc.ld 2 i, Acc.st 0 i]) len

/-- Access trace of `mpi_cadd(r, a, b, add, len)`: the conditional addition
is realized by AND-masking `b[i]`, so the accesses are those of `mpi_add`
regardless of `add`. -/
def mpi_cadd_acc (a b : List Nat) (add : Nat) (len : Nat) : List Acc :=
  ctFor 0 (fun i => [Acc.ld 1 i, Acc.ld 2 i, Acc.st 0 i]) len

/-- Access trace of `mpi_sub(r, a, b, len)`. -/
def mpi_sub_acc (a b : List Nat) (len : Nat) : List Acc :=
  ctFor 0 (fun i => [Acc.ld 1 i, Acc.ld 2 i, Acc.st 0 i]) len

/-- Access trace of `mpi_shr(r, a, len)`: the read of `a[0]` for the
return value, the word-pair loop, and the top-word shift. -/
def mpi_shr_acc (a : List Nat) (len : Nat) : List Acc :=
  [Acc.ld 1 0] ++ ctFor 0 (fun i => [Acc.ld 1 (i + 1), Acc.ld 1 i, Acc.st 0 i]) (len - 1)
    ++ [Acc.ld 1 (len - 1), Acc.st 0 (len - 1)]

/-- Access trace of `gfp_add(r, a, b)` (`LEN = 8`): top words first, then
the carry loop over words 0..6, then the top-word store. -/
def gfp_add_acc (a b : List Nat) : List Acc :=
  [Acc.ld 1 7, Acc.ld 2 7] ++ ctFor 0 (fun i => [Acc.ld 1 i, Acc.ld 2 i, Acc.st 0 i]) 7
    ++ [Acc.st 0 7]

/-- Access trace of `gfp_sub(r, a, b)`: identical pattern to `gfp_add`. -/
def gfp_sub_acc (a b : List Nat) : List Acc :=
  [Acc.ld 1 7, Acc.ld 2 7] ++ ctFor 0 (fun i => [Acc.ld 1 i, Acc.ld 2 i, Acc.st 0 i]) 7
    ++ [Acc.st 0 7]

/-- Access trace of `gfp_cneg(r, a, neg)`: the negation condition enters
only through the XOR mask, never the access pattern. -/
def gfp_cneg_acc (a : List Nat) (neg : Nat) : List Acc :=
  [Acc.ld 1 7] ++ ctFor 0 (fun i => [Acc.ld 1 i, Acc.st 0 i]) 7 ++ [Acc.st 0 7]

/-- Access trace of `gfp_hlv(r, a)`: `a[0]` is read for the mask and for
the first sum, then the shift loop over words 1..6, then the top word. -/
def gfp_hlv_acc (a : List Nat) : List Acc :=
  [Acc.ld 1 0, Acc.ld 1 0] ++ ctFor 1 (fun i => [Acc.ld 1 i, Acc.st 0 (i - 1)]) 6
    ++ [Acc.ld 1 7, Acc.st 0 6, Acc.st 0 7]

/-- Access trace of `gfp_mul(r, a, b)`: the `b[0]` row, the rows for
`b[1..7]` (reading and rewriting the running sum in `t`), and the two
reduction passes. -/
def gfp_mul_acc (a b : List Nat) : List Acc :=
  ctFor 0 (fun j => [Acc.ld 1 j, Acc.ld 2 0, Acc.st 3 j]) 8 ++ [Acc.st 3 8]
    ++ ctFor 1 (fun i =>
         ctFor 0 (fun j => [Acc.ld 1 j, Acc.ld 2 i, Acc.ld 3 (i + j), Acc.st 3 (i + j)]) 8
           ++ [Acc.st 3 (i + 8)]) 7
    ++ ctFor 0 (fun i => [Acc.ld 3 (i + 8), Acc.ld 3 i, Acc.st 3 i]) 7
    ++ [Acc.ld 3 15, Acc.ld 3 7]
    ++ ctFor 0 (fun i => [Acc.ld 3 i, Acc.st 0 i]) 7 ++ [Acc.st 0 7]

/-- Access trace of `gfp_sqr(r, a)`: the triangular product rows, the
doubling/diagonal pass, and the two reduction passes. -/
def gfp_sqr_acc (a : List Nat) : List Acc :=
  [Acc.st 3 0] ++ ctFor 1 (fun j => [Acc.ld 1 j, Acc.ld 1 0, Acc.st 3 j]) 7 ++ [Acc.st 3 8]
    ++ ctFor 1 (fun i =>
         ctFor (i + 1) (fun j => [Acc.ld 1 j, Acc.ld 1 i, Acc.ld 3 (i + j), Acc.st 3 (i + j)])
             (7 - i)
           ++ [Acc.st 3 (i + 8)]) 7
    ++ ctFor 0 (fun i => [Acc.ld 1 i, Acc.ld 1 i, Acc.ld 3 (2 * i), Acc.ld 3 (2 * i),
         Acc.st 3 (2 * i), Acc.ld 3 (2 * i + 1), Acc.ld 3 (2 * i + 1),
         Acc.st 3 (2 * i + 1)]) 8
    ++ ctFor 0 (fun i => [Acc.ld 3 (i + 8), Acc.ld 3 i, Acc.st 3 i]) 7
    ++ [Acc.ld 3 15, Acc.ld 3 7]
    ++ ctFor 0 (fun i => [Acc.ld 3 i, Acc.st 0 i]) 7 ++ [Acc.st 0 7]

/-- Access trace of `gfp_mul32(r, a, b)`: the `b[0]` row into `t`, the two
reads of `t[LEN-1]` for the reduction constants, the first reduced word,
the carry-propagation loop and the top word. -/
def gfp_mul32_acc (a b : List Nat) : List Acc :=
  ctFor 0 (fun j => [Acc.ld 1 j, Acc.ld 2 0, Acc.st 3 j]) 8 ++ [Acc.st 3 8]
    ++ [Acc.ld 3 7, Acc.ld 3 7]
    ++ [Acc.ld 3 8, Acc.ld 3 0, Acc.st 0 0]
    ++ ctFor 1 (fun i => [Acc.ld 3 i, Acc.st 0 i]) 6
    ++ [Acc.st 0 7]

/-- Access trace of `gfp_cmpp(a)` (compare against the constant `p`):
`a[7]` twice, the downward loop over words 6..1, then `a[0]` twice. -/
def gfp_cmpp_acc (a : List Nat) : List Acc :=
  [Acc.ld 1 7, Acc.ld 1 7] ++ ctForDown 6 (fun i => [Acc.ld 1 i]) 6
    ++ [Acc.ld 1 0, Acc.ld 1 0]

/-- Access trace of `gfp_setp(r)` (writes to the temporary that holds `p`,
array 3). -/
def gfp_setp_acc : List Acc :=
  [Acc.st 3 7] ++ ctForDown 6 (fun i => [Acc.st 3 i]) 6 ++ [Acc.st 3 0]

/-- Access trace of `gfp_fred(r, a)`: `gfp_setp` into the local `p`, then
the fixed sequence sub / cadd / sub / cadd at `len = 8` (the second and
later passes read back `r`). -/
def gfp_fred_acc (a : List Nat) : List Acc :=
  gfp_setp_acc
    ++ ctFor 0 (fun i => [Acc.ld 1 i, Acc.ld 3 i, Acc.st 0 i]) 8
    ++ ctFor 0 (fun i => [Acc.ld 0 i, Acc.ld 3 i, Acc.st 0 i]) 8
    ++ ctFor 0 (fun i => [Acc.ld 0 i, Acc.ld 3 i, Acc.st 0 i]) 8
    ++ ctFor 0 (fun i => [Acc.ld 0 i, Acc.ld 3 i, Acc.st 0 i]) 8

/-- Access trace of `gfp_cmp(a, b)`: `gfp_setp`, the two full reductions
into `ar` (4) and `br` (5), then the constant-time `mpi_cmp` at 8. -/
def gfp_cmp_acc (a b : List Nat) : List Acc :=
  gfp_setp_acc
    ++ ctFor 0 (fun i => [Acc.ld 1 i, Acc.ld 3 i, Acc.st 4 i]) 8
    ++ ctFor 0 (fun i => [Acc.ld 4 i, Acc.ld 3 i, Acc.st 4 i]) 8
    ++ ctFor 0 (fun i => [Acc.ld 4 i, Acc.ld 3 i, Acc.st 4 i]) 8
    ++ ctFor 0 (fun i => [Acc.ld 4 i, Acc.ld 3 i, Acc.st 4 i]) 8
    ++ ctFor 0 (fun i => [Acc.ld 2 i, Acc.ld 3 i, Acc.st 5 i]) 8
    ++ ctFor 0 (fun i => [Acc.ld 5 i, Acc.ld 3 i, Acc.st 5 i]) 8
    ++ ctFor 0 (fun i => [Acc.ld 5 i, Acc.ld 3 i, Acc.st 5 i]) 8
    ++ ctFor 0 (fun i => [Acc.ld 5 i, Acc.ld 3 i, Acc.st 5 i]) 8
    ++ ctForDown 7 (fun i => [Acc.ld 4 i, Acc.ld 5 i, Acc.ld 4 i, Acc.ld 5 i]) 8

/-- The field element 0 = [0, 0, 0, 0, 0, 0, 0, 0]. -/
def zeroFE : List Nat := [0, 0, 0, 0, 0, 0, 0, 0]

end Micro25519

namespace Micro25519

theorem mval_nil : mval [] = 0 := rfl

theorem mval_cons (w : Nat) (ws : List Nat) : mval (w :: ws) = w + W * mval ws := rfl

theorem mval_append (xs ys : List Nat) :
    mval (xs ++ ys) = mval xs + W ^ xs.length * mval ys := by
  induction xs with
  | nil => simp [mval]
  | cons x xs ih =>
    rw [List.cons_append]
    simp only [mval, List.length_cons]
    rw [ih, pow_succ]
    ring

theorem mval_lt (l : List Nat) (h : valid l) : mval l < W ^ l.length := by
  induction l with
  | nil => simp [mval]
  | cons x xs ih =>
    have hx : x < W := h x (by simp)
    have hxs : mval xs < W ^ xs.length := ih (fun w hw => h w (by simp [hw]))
    simp only [mval, List.length_cons, pow_succ]
    calc x + W * mval xs < W + W * mval xs := by omega
    _ = W * (mval xs + 1) := by ring
    _ ≤ W * W ^ xs.length := by
        have : mval xs + 1 ≤ W ^ xs.length := hxs
        exact Nat.mul_le_mul_left W this
    _ = W ^ xs.length * W := by ring

theorem addChain_length (c : Nat) (xs ys : List Nat) (h : xs.length = ys.length) :
    (addChain c xs ys).1.length = xs.length := by
  induction xs generalizing c ys with
  | nil => cases ys <;> simp [addChain] at h ⊢
  | cons x xs ih =>
    cases ys with
    | nil => simp at h
    | cons y ys =>
      simp only [addChain, List.length_cons] at h ⊢
      rw [ih _ _ (by omega)]

theorem addChain_valid (c : Nat) (xs ys : List Nat) :
    valid (addChain c xs ys).1 := by
  induction xs generalizing c ys with
  | nil => cases ys <;> simp [addChain, valid]
  | cons x xs ih =>
    cases ys with
    | nil => simp [addChain, valid]
    | cons y ys =>
      intro w hw
      simp only [addChain, List.mem_cons] at hw
      rcases hw with h | h
      · subst h
        have : W ≠ 0 := by simp [W]
        exact Nat.mod_lt _ (by simp [W])
      · exact ih _ _ w h

theorem addChain_spec (c : Nat) (xs ys : List Nat) (h : xs.length = ys.length) :
    mval (addChain c xs ys).1 + W ^ xs.length * (addChain c xs ys).2
      = c + mval xs + mval ys := by
  induction xs generalizing c ys with
  | nil =>
    cases ys with
    | nil => simp [addChain, mval]
    | cons y ys => simp at h
  | cons x xs ih =>
    cases ys with
    | nil => simp at h
    | cons y ys =>
      simp only [List.length_cons] at h
      have hrec := ih (((c + x + y) / W)) ys (by omega)
      simp only [addChain, mval, List.length_cons, pow_succ]
      have hdm : (c + x + y) % W + W * ((c + x + y) / W) = c + x + y :=
        Nat.mod_add_div _ _
      calc (c + x + y) % W + W * mval (addChain ((c + x + y) / W) xs ys).1
            + W ^ xs.length * W * (addChain ((c + x + y) / W) xs ys).2
          = (c + x + y) % W
            + W * (mval (addChain ((c + x + y) / W) xs ys).1
                   + W ^ xs.length * (addChain ((c + x + y) / W) xs ys).2) := by ring
        _ = (c + x + y) % W + W * ((c + x + y) / W + mval xs + mval ys) := by rw [hrec]
        _ = ((c + x + y) % W + W * ((c + x + y) / W)) + W * mval xs + W * mval ys := by ring
        _ = (c + x + y) + W * mval xs + W * mval ys := by rw [hdm]
        _ = c + (x + W * mval xs) + (y + W * mval ys) := by ring

theorem Wpos : 0 < W := by simp [W]

theorem sdwChain_length (s : Int) (ds : List Int) :
    (sdwChain s ds).1.length = ds.length := by
  induction ds generalizing s with
  | nil => simp [sdwChain]
  | cons d ds ih => simp [sdwChain, ih]

theorem sdwChain_valid (s : Int) (ds : List Int) : valid (sdwChain s ds).1 := by
  induction ds generalizing s with
  | nil => simp [sdwChain, valid]
  | cons d ds ih =>
    intro w hw
    simp only [sdwChain, List.mem_cons] at hw
    rcases hw with h | h
    · subst h
      have h1 : (s + d) % (W : Int) < (W : Int) :=
        Int.emod_lt_of_pos _ (by exact_mod_cast Wpos)
      have h2 : (0 : Int) ≤ (s + d) % (W : Int) :=
        Int.emod_nonneg _ (by simp [W])
      omega
    · exact ih _ w h

theorem sdwChain_spec (s : Int) (ds : List Int) :
    (mval (sdwChain s ds).1 : Int) + (W : Int) ^ ds.length * (sdwChain s ds).2
      = s + ival ds := by
  induction ds generalizing s with
  | nil => simp [sdwChain, mval, ival]
  | cons d ds ih =>
    have hrec := ih ((s + d) / (W : Int))
    simp only [sdwChain, mval, ival, List.length_cons, pow_succ]
    have hnn : (0 : Int) ≤ (s + d) % (W : Int) := Int.emod_nonneg _ (by simp [W])
    have htn : (((s + d) % (W : Int)).toNat : Int) = (s + d) % (W : Int) :=
      Int.toNat_of_nonneg hnn
    have hdm : (s + d) % (W : Int) + W * ((s + d) / (W : Int)) = s + d :=
      Int.emod_add_ediv _ _
    push_cast
    rw [htn]
    calc (s + d) % (W : Int) + W * (mval (sdwChain ((s + d) / W) ds).1 : Int)
          + (W : Int) ^ ds.length * W * (sdwChain ((s + d) / W) ds).2
        = (s + d) % (W : Int)
          + W * ((mval (sdwChain ((s + d) / W) ds).1 : Int)
                 + (W : Int) ^ ds.length * (sdwChain ((s + d) / W) ds).2) := by ring
      _ = (s + d) % (W : Int) + W * ((s + d) / W + ival ds) := by rw [hrec]
      _ = ((s + d) % (W : Int) + W * ((s + d) / W)) + W * ival ds := by ring
      _ = s + (d + W * ival ds) := by rw [hdm]; ring

theorem mulChain_length (c b0 : Nat) (as' : List Nat) :
    (mulChain c b0 as').1.length = as'.length := by
  induction as' generalizing c with
  | nil => simp [mulChain]
  | cons a as' ih => simp [mulChain, ih]

theorem mulChain_valid (c b0 : Nat) (as' : List Nat) : valid (mulChain c b0 as').1 := by
  induction as' generalizing c with
  | nil => simp [mulChain, valid]
  | cons a as' ih =>
    intro w hw
    simp only [mulChain, List.mem_cons] at hw
    rcases hw with h | h
    · subst h; exact Nat.mod_lt _ Wpos
    · exact ih _ w h

theorem mulChain_spec (c b0 : Nat) (as' : List Nat) :
    mval (mulChain c b0 as').1 + W ^ as'.length * (mulChain c b0 as').2
      = c + b0 * mval as' := by
  induction as' generalizing c with
  | nil => simp [mulChain, mval]
  | cons a as' ih =>
    have hrec := ih ((c + a * b0) / W)
    simp only [mulChain, mval, List.length_cons, pow_succ]
    have hdm : (c + a * b0) % W + W * ((c + a * b0) / W) = c + a * b0 :=
      Nat.mod_add_div _ _
    calc (c + a * b0) % W + W * mval (mulChain ((c + a * b0) / W) b0 as').1
          + W ^ as'.length * W * (mulChain ((c + a * b0) / W) b0 as').2
        = (c + a * b0) % W
          + W * (mval (mulChain ((c + a * b0) / W) b0 as').1
                 + W ^ as'.length * (mulChain ((c + a * b0) / W) b0 as').2) := by ring
      _ = (c + a * b0) % W + W * ((c + a * b0) / W + b0 * mval as') := by rw [hrec]
      _ = ((c + a * b0) % W + W * ((c + a * b0) / W)) + W * (b0 * mval as') := by ring
      _ = c + b0 * (a + W * mval as') := by rw [hdm]; ring

theorem mulChain_carry (c b0 : Nat) (as' : List Nat) (hc : c ≤ b0)
    (ha : valid as') : (mulChain c b0 as').2 ≤ b0 := by
  induction as' generalizing c with
  | nil => simpa [mulChain] using hc
  | cons a as' ih =>
    simp only [mulChain]
    obtain ⟨X, hX⟩ : ∃ X, W = X + 1 := ⟨W - 1, by have := Wpos; omega⟩
    have haW : a < W := ha a (by simp)
    have h1 : a * b0 ≤ X * b0 := Nat.mul_le_mul_right _ (by omega)
    have h2 : (X + 1) * (b0 + 1) = X * b0 + X + b0 + 1 := by ring
    have h4 : (c + a * b0) / W < b0 + 1 := Nat.div_lt_of_lt_mul (by rw [hX]; omega)
    exact ih _ (by omega) (fun w hw => ha w (by simp [hw]))

theorem mulAddChain_length (c bi : Nat) (as' ts : List Nat)
    (h : as'.length = ts.length) :
    (mulAddChain c bi as' ts).1.length = as'.length := by
  induction as' generalizing c ts with
  | nil => cases ts <;> simp [mulAddChain]
  | cons a as' ih =>
    cases ts with
    | nil => simp at h
    | cons t ts =>
      simp only [List.length_cons] at h
      simp only [mulAddChain, List.length_cons]
      rw [ih _ ts (by omega)]

theorem mulAddChain_valid (c bi : Nat) (as' ts : List Nat) :
    valid (mulAddChain c bi as' ts).1 := by
  induction as' generalizing c ts with
  | nil => cases ts <;> simp [mulAddChain, valid]
  | cons a as' ih =>
    cases ts with
    | nil => simp [mulAddChain, valid]
    | cons t ts =>
      intro w hw
      simp only [mulAddChain, List.mem_cons] at hw
      rcases hw with h | h
      · subst h; exact Nat.mod_lt _ Wpos
      · exact ih _ _ w h

theorem mulAddChain_spec (c bi : Nat) (as' ts : List Nat)
    (h : as'.length = ts.length) :
    mval (mulAddChain c bi as' ts).1 + W ^ as'.length * (mulAddChain c bi as' ts).2
      = c + bi * mval as' + mval ts := by
  induction as' generalizing c ts with
  | nil =>
    cases ts with
    | nil => simp [mulAddChain, mval]
    | cons t ts => simp at h
  | cons a as' ih =>
    cases ts with
    | nil => simp at h
    | cons t ts =>
      simp only [List.length_cons] at h
      have hrec := ih ((c + a * bi + t) / W) ts (by omega)
      simp only [mulAddChain, mval, List.length_cons, pow_succ]
      have hdm : (c + a * bi + t) % W + W * ((c + a * bi + t) / W) = c + a * bi + t :=
        Nat.mod_add_div _ _
      calc (c + a * bi + t) % W + W * mval (mulAddChain ((c + a * bi + t) / W) bi as' ts).1
            + W ^ as'.length * W * (mulAddChain ((c + a * bi + t) / W) bi as' ts).2
          = (c + a * bi + t) % W
            + W * (mval (mulAddChain ((c + a * bi + t) / W) bi as' ts).1
                   + W ^ as'.length * (mulAddChain ((c + a * bi + t) / W) bi as' ts).2) := by
            ring
        _ = (c + a * bi + t) % W + W * ((c + a * bi + t) / W + bi * mval as' + mval ts) := by
            rw [hrec]
        _ = ((c + a * bi + t) % W + W * ((c + a * bi + t) / W))
            + W * (bi * mval as') + W * mval ts := by ring
        _ = c + bi * (a + W * mval as') + (t + W * mval ts) := by rw [hdm]; ring

theorem mulAddChain_carry (c bi : Nat) (as' ts : List Nat) (hc : c ≤ bi)
    (ha : valid as') (ht : valid ts) : (mulAddChain c bi as' ts).2 ≤ bi := by
  induction as' generalizing c ts with
  | nil => cases ts <;> simpa [mulAddChain] using hc
  | cons a as' ih =>
    cases ts with
    | nil => simpa [mulAddChain] using hc
    | cons t ts =>
      simp only [mulAddChain]
      obtain ⟨X, hX⟩ : ∃ X, W = X + 1 := ⟨W - 1, by have := Wpos; omega⟩
      have haW : a < W := ha a (by simp)
      have htW : t < W := ht t (by simp)
      have h1 : a * bi ≤ X * bi := Nat.mul_le_mul_right _ (by omega)
      have h2 : (X + 1) * (bi + 1) = X * bi + X + bi + 1 := by ring
      have h4 : (c + a * bi + t) / W < bi + 1 :=
        Nat.div_lt_of_lt_mul (by rw [hX]; omega)
      exact ih _ ts (by omega) (fun w hw => ha w (by simp [hw]))
        (fun w hw => ht w (by simp [hw]))

theorem carryChain_length (c : Nat) (ts : List Nat) :
    (carryChain c ts).1.length = ts.length := by
  induction ts generalizing c with
  | nil => simp [carryChain]
  | cons t ts ih => simp [carryChain, ih]

theorem carryChain_valid (c : Nat) (ts : List Nat) : valid (carryChain c ts).1 := by
  induction ts generalizing c with
  | nil => simp [carryChain, valid]
  | cons t ts ih =>
    intro w hw
    simp only [carryChain, List.mem_cons] at hw
    rcases hw with h | h
    · subst h; exact Nat.mod_lt _ Wpos
    · exact ih _ w h

theorem carryChain_spec (c : Nat) (ts : List Nat) :
    mval (carryChain c ts).1 + W ^ ts.length * (carryChain c ts).2 = c + mval ts := by
  induction ts generalizing c with
  | nil => simp [carryChain, mval]
  | cons t ts ih =>
    have hrec := ih ((c + t) / W)
    simp only [carryChain, mval, List.length_cons, pow_succ]
    have hdm : (c + t) % W + W * ((c + t) / W) = c + t := Nat.mod_add_div _ _
    calc (c + t) % W + W * mval (carryChain ((c + t) / W) ts).1
          + W ^ ts.length * W * (carryChain ((c + t) / W) ts).2
        = (c + t) % W + W * (mval (carryChain ((c + t) / W) ts).1
            + W ^ ts.length * (carryChain ((c + t) / W) ts).2) := by ring
      _ = (c + t) % W + W * ((c + t) / W + mval ts) := by rw [hrec]
      _ = ((c + t) % W + W * ((c + t) / W)) + W * mval ts := by ring
      _ = c + (t + W * mval ts) := by rw [hdm]; ring

/-- Splitting the value of an 8-word array at the top word. -/
theorem mval_split8 (a : List Nat) (h : a.length = 8) :
    mval a = mval (a.take 7) + W ^ 7 * a.getD 7 0 := by
  conv_lhs => rw [← List.take_append_drop 7 a]
  rw [mval_append]
  have hlen : (a.take 7).length = 7 := by simp [List.length_take, h]
  rw [hlen]
  congr 1
  have h7 : 7 < a.length := by omega
  have hdrop : a.drop 7 = [a[7]] := by
    rw [List.drop_eq_getElem_cons h7]
    congr 1
    have : a.drop 8 = [] := List.drop_eq_nil_of_le (by omega)
    simpa using this
  rw [hdrop]
  have : a.getD 7 0 = a[7] := List.getD_eq_getElem a 0 h7
  rw [this]
  simp [mval]

theorem valid_take (l : List Nat) (n : Nat) (h : valid l) : valid (l.take n) :=
  fun w hw => h w (List.mem_of_mem_take hw)

theorem valid_drop (l : List Nat) (n : Nat) (h : valid l) : valid (l.drop n) :=
  fun w hw => h w (List.mem_of_mem_drop hw)

theorem valid_getD (l : List Nat) (n : Nat) (h : valid l) (hn : n < l.length) :
    l.getD n 0 < W := by
  rw [List.getD_eq_getElem l 0 hn]
  exact h _ (List.getElem_mem hn)

theorem addChain_carry_le (c : Nat) (xs ys : List Nat) (hx : valid xs) (hy : valid ys) :
    (addChain c xs ys).2 ≤ max c 2 := by
  induction xs generalizing c ys with
  | nil => cases ys <;> simp [addChain]
  | cons x xs ih =>
    cases ys with
    | nil => simp [addChain]
    | cons y ys =>
      have hxW : x < W := hx x (by simp)
      have hyW : y < W := hy y (by simp)
      have hW : W = 4294967296 := rfl
      have step : (c + x + y) / W ≤ max c 2 := by
        rcases le_or_lt c 2 with hc | hc
        · have h3 : c + x + y < W * 3 := by omega
          have := Nat.div_lt_of_lt_mul h3
          omega
        · obtain ⟨X, hX⟩ : ∃ X, W = X + 1 := ⟨W - 1, by omega⟩
          have h1 : 1 * X ≤ c * X := Nat.mul_le_mul_right X (by omega)
          have h2 : W * (c + 1) = c * X + c + X + 1 := by rw [hX]; ring
          have h3 : c + x + y < W * (c + 1) := by omega
          have := Nat.div_lt_of_lt_mul h3
          omega
      have := ih ((c + x + y) / W) ys (fun w hw => hx w (by simp [hw]))
        (fun w hw => hy w (by simp [hw]))
      simp only [addChain]
      omega

/-- Value of the elementwise signed difference list used by `gfp_sub`. -/
theorem ival_zip_sub (xs ys : List Nat) (h : xs.length = ys.length) :
    ival ((List.zip xs ys).map (fun q => (q.1 : Int) - (q.2 : Int)))
      = (mval xs : Int) - (mval ys : Int) := by
  induction xs generalizing ys with
  | nil =>
    cases ys with
    | nil => simp [ival, mval]
    | cons y ys => simp at h
  | cons x xs ih =>
    cases ys with
    | nil => simp at h
    | cons y ys =>
      simp only [List.length_cons] at h
      rw [List.zip_cons_cons]
      simp only [List.map_cons, ival, mval]
      rw [ih ys (by omega)]
      push_cast
      ring

theorem and_mask31 (x : Nat) : x &&& (2 ^ 31 - 1) = x % 2 ^ 31 :=
  Nat.and_pow_two_sub_one_eq_mod x 31

theorem mod_W_mod31 (x : Nat) : (x % W) % 2 ^ 31 = x % 2 ^ 31 :=
  Nat.mod_mod_of_dvd x (by norm_num [W])

/-- `gfp_add` with the word-level truncations removed: the Word stores
never wrap on the top word. -/
theorem gfp_add_unfold (a b : List Nat) (ha : valid a) (hb : valid b)
    (la : a.length = 8) (lb : b.length = 8) :
    gfp_add a b
      = (addChain (19 * ((a.getD 7 0 + b.getD 7 0) / 2 ^ 31)) (a.take 7) (b.take 7)).1
        ++ [(a.getD 7 0 + b.getD 7 0) % 2 ^ 31
            + (addChain (19 * ((a.getD 7 0 + b.getD 7 0) / 2 ^ 31))
               (a.take 7) (b.take 7)).2] := by
  have hW : W = 4294967296 := rfl
  have ha7 : a.getD 7 0 < W := valid_getD a 7 ha (by omega)
  have hb7 : b.getD 7 0 < W := valid_getD b 7 hb (by omega)
  have hq : (a.getD 7 0 + b.getD 7 0) / 2 ^ 31 < W := by omega
  have hcarry := addChain_carry_le (19 * ((a.getD 7 0 + b.getD 7 0) / 2 ^ 31))
    (a.take 7) (b.take 7) (valid_take a 7 ha) (valid_take b 7 hb)
  have hq57 : 19 * ((a.getD 7 0 + b.getD 7 0) / 2 ^ 31) ≤ 57 := by omega
  simp only [gfp_add, and_mask31, mod_W_mod31, Nat.mod_eq_of_lt hq]
  congr 1
  congr 1
  have hm : (a.getD 7 0 + b.getD 7 0) % 2 ^ 31 < 2 ^ 31 := Nat.mod_lt _ (by norm_num)
  rw [Nat.mod_eq_of_lt (show (addChain _ _ _).2 < W by omega),
    Nat.mod_eq_of_lt (by omega)]

/-- Exact value equation for `gfp_add`: with `q` the upper 2 bits of the
top-word sum, the stored result satisfies `a + b = r + q * P`. -/
theorem gfp_add_eq (a b : List Nat) (ha : valid a) (hb : valid b)
    (la : a.length = 8) (lb : b.length = 8) :
    mval a + mval b
      = mval (gfp_add a b) + ((a.getD 7 0 + b.getD 7 0) / 2 ^ 31) * P := by
  have hW : W = 4294967296 := rfl
  have ha7 : a.getD 7 0 < W := valid_getD a 7 ha (by omega)
  have hb7 : b.getD 7 0 < W := valid_getD b 7 hb (by omega)
  rw [gfp_add_unfold a b ha hb la lb]
  set s := a.getD 7 0 + b.getD 7 0 with hs
  set q := s / 2 ^ 31 with hq
  set m := s % 2 ^ 31 with hm
  set t := addChain (19 * q) (a.take 7) (b.take 7) with ht
  have hlt : (a.take 7).length = 7 := by simp [List.length_take, la]
  have hlt' : (b.take 7).length = 7 := by simp [List.length_take, lb]
  have hspec := addChain_spec (19 * q) (a.take 7) (b.take 7) (by omega)
  rw [hlt, ← ht] at hspec
  have hlen : t.1.length = 7 := by rw [ht, addChain_length _ _ _ (by omega), hlt]
  rw [mval_append, hlen]
  have hW7 : W ^ 7 = 2 ^ 224 := by norm_num [W]
  have hmv1 : mval [m + t.2] = m + t.2 := by simp [mval]
  rw [hmv1, hW7]
  have hsplit_a := mval_split8 a la
  have hsplit_b := mval_split8 b lb
  rw [hW7] at hsplit_a hsplit_b
  rw [hW7] at hspec
  have hsq : s = m + 2 ^ 31 * q := by omega
  have hP : P + 19 = 2 ^ 255 := by norm_num [P]
  have h19 : 19 * q + q * P = q * 2 ^ 255 := by
    calc 19 * q + q * P = q * (P + 19) := by ring
      _ = q * 2 ^ 255 := by rw [hP]
  have hmul : 2 ^ 224 * s = 2 ^ 224 * m + 2 ^ 255 * q := by
    calc 2 ^ 224 * s = 2 ^ 224 * (m + 2 ^ 31 * q) := by rw [← hsq]
      _ = 2 ^ 224 * m + 2 ^ 255 * q := by ring
  symm
  calc mval t.1 + 2 ^ 224 * (m + t.2) + q * P
      = (mval t.1 + 2 ^ 224 * t.2) + 2 ^ 224 * m + q * P := by ring
    _ = (19 * q + mval (a.take 7) + mval (b.take 7)) + 2 ^ 224 * m + q * P := by rw [hspec]
    _ = mval (a.take 7) + mval (b.take 7) + 2 ^ 224 * m + (19 * q + q * P) := by ring
    _ = mval (a.take 7) + mval (b.take 7) + 2 ^ 224 * m + q * 2 ^ 255 := by rw [h19]
    _ = mval (a.take 7) + mval (b.take 7) + (2 ^ 224 * m + 2 ^ 255 * q) := by ring
    _ = mval (a.take 7) + mval (b.take 7) + 2 ^ 224 * s := by rw [← hmul]
    _ = mval a + mval b := by rw [hsplit_a, hsplit_b, hs]; ring

theorem gfp_add_length (a b : List Nat) (ha : valid a) (hb : valid b)
    (la : a.length = 8) (lb : b.length = 8) : (gfp_add a b).length = 8 := by
  rw [gfp_add_unfold a b ha hb la lb]
  rw [List.length_append, addChain_length _ _ _ (by simp [la, lb])]
  simp [List.length_take, la]

theorem gfp_add_valid (a b : List Nat) (ha : valid a) (hb : valid b)
    (la : a.length = 8) (lb : b.length = 8) : valid (gfp_add a b) := by
  rw [gfp_add_unfold a b ha hb la lb]
  intro w hw
  rcases List.mem_append.1 hw with h | h
  · exact addChain_valid _ _ _ w h
  · have hW : W = 4294967296 := rfl
    have ha7 : a.getD 7 0 < W := valid_getD a 7 ha (by omega)
    have hb7 : b.getD 7 0 < W := valid_getD b 7 hb (by omega)
    have hc := addChain_carry_le (19 * ((a.getD 7 0 + b.getD 7 0) / 2 ^ 31))
      (a.take 7) (b.take 7) (valid_take a 7 ha) (valid_take b 7 hb)
    simp only [List.mem_singleton] at h
    subst h
    omega

theorem gfp_add_range (a b : List Nat) (ha : valid a) (hb : valid b)
    (la : a.length = 8) (lb : b.length = 8) : mval (gfp_add a b) ≤ 2 * P - 1 := by
  rw [gfp_add_unfold a b ha hb la lb]
  have hW : W = 4294967296 := rfl
  have ha7 : a.getD 7 0 < W := valid_getD a 7 ha (by omega)
  have hb7 : b.getD 7 0 < W := valid_getD b 7 hb (by omega)
  set c0 := 19 * ((a.getD 7 0 + b.getD 7 0) / 2 ^ 31) with hc0
  set t := addChain c0 (a.take 7) (b.take 7) with ht
  have hlen : t.1.length = 7 := by
    rw [ht, addChain_length _ _ _ (by simp [List.length_take, la, lb])]
    simp [List.length_take, la]
  have hv : mval t.1 < 2 ^ 224 := by
    have := mval_lt t.1 (by rw [ht]; exact addChain_valid _ _ _)
    rwa [hlen, show W ^ 7 = 2 ^ 224 by norm_num [W]] at this
  have hc := addChain_carry_le c0 (a.take 7) (b.take 7)
    (valid_take a 7 ha) (valid_take b 7 hb)
  have hc57 : t.2 ≤ 57 := by rw [ht]; omega
  have hm : (a.getD 7 0 + b.getD 7 0) % 2 ^ 31 < 2 ^ 31 := Nat.mod_lt _ (by norm_num)
  rw [mval_append, hlen, show W ^ 7 = 2 ^ 224 by norm_num [W],
    show P = 2 ^ 255 - 19 from rfl]
  have hmv : mval [(a.getD 7 0 + b.getD 7 0) % 2 ^ 31 + t.2]
      = (a.getD 7 0 + b.getD 7 0) % 2 ^ 31 + t.2 := by simp [mval]
  rw [hmv]
  have h2 : 2 ^ 224 * ((a.getD 7 0 + b.getD 7 0) % 2 ^ 31 + t.2)
      ≤ 2 ^ 224 * (2 ^ 31 + 56) := Nat.mul_le_mul_left _ (by omega)
  omega

/-- The bitwise complement list used by `mpi_sub` is the radix complement. -/
theorem map_not_val (b : List Nat) (hb : valid b) :
    mval (b.map (fun y => W - 1 - y)) + mval b + 1 = W ^ b.length := by
  induction b with
  | nil => simp [mval]
  | cons y ys ih =>
    have hy : y < W := hb y (by simp)
    have hys := ih (fun w hw => hb w (by simp [hw]))
    simp only [List.map_cons, mval, List.length_cons, pow_succ]
    have expand : W ^ ys.length * W
        = W * mval (ys.map (fun y => W - 1 - y)) + W * mval ys + W := by
      rw [Nat.mul_comm, ← hys]; ring
    omega

theorem mpi_sub_length (a b : List Nat) (h : a.length = b.length) :
    (mpi_sub a b).1.length = a.length := by
  simp only [mpi_sub]
  rw [addChain_length _ _ _ (by simp [h])]

theorem mpi_sub_valid (a b : List Nat) : valid (mpi_sub a b).1 :=
  addChain_valid _ _ _

/-- Exact semantics of `mpi_sub`: `r + b = a + 2^(32·len) · borrow` and the
borrow flags `a < b`. -/
theorem mpi_sub_val (a b : List Nat) (ha : valid a) (hb : valid b)
    (h : a.length = b.length) :
    mval (mpi_sub a b).1 + mval b = mval a + W ^ a.length * (mpi_sub a b).2 ∧
    (mpi_sub a b).2 = if mval a < mval b then 1 else 0 := by
  have hnb := map_not_val b hb
  have hspec := addChain_spec 1 a (b.map (fun y => W - 1 - y)) (by simp [h])
  have hrlt : mval (addChain 1 a (b.map fun y => W - 1 - y)).1 < W ^ a.length := by
    have := mval_lt _ (addChain_valid 1 a (b.map fun y => W - 1 - y))
    rwa [addChain_length _ _ _ (by simp [h])] at this
  have halt : mval a < W ^ a.length := mval_lt a ha
  have hblt : mval b < W ^ b.length := mval_lt b hb
  rw [← h] at hnb hblt
  set c := (addChain 1 a (b.map fun y => W - 1 - y)).2 with hc
  set r := (addChain 1 a (b.map fun y => W - 1 - y)).1 with hr
  -- hspec : mval r + W ^ len * c = 1 + mval a + mval nb
  have hkey : mval r + W ^ a.length * c + mval b = mval a + W ^ a.length := by
    omega
  have hc1 : c ≤ 1 := by
    rcases Nat.lt_or_ge c 2 with h2 | h2
    · omega
    · exfalso
      have : W ^ a.length * 2 ≤ W ^ a.length * c := Nat.mul_le_mul_left _ h2
      omega
  simp only [mpi_sub, ← hc, ← hr]
  rcases Nat.eq_zero_or_pos c with h0 | h1
  · -- borrow = 1, i.e. a < b
    rw [h0]
    rw [h0] at hkey
    have hab : mval a < mval b := by omega
    simp [hab]
    omega
  · have hceq : c = 1 := by omega
    rw [hceq]
    rw [hceq] at hkey
    have hab : ¬ mval a < mval b := by omega
    simp [hab]
    omega

theorem mval_map_zero (b : List Nat) : mval (b.map (fun _ => 0)) = 0 := by
  induction b with
  | nil => rfl
  | cons y ys ih =>
    have h : mval (0 :: ys.map (fun _ => 0)) = 0 := by rw [mval_cons, ih]; ring
    exact h

theorem mpi_cadd_length (a b : List Nat) (add : Nat) (h : a.length = b.length) :
    (mpi_cadd a b add).1.length = a.length := by
  simp only [mpi_cadd]
  rw [addChain_length _ _ _ (by simp [h])]

theorem mpi_cadd_valid (a b : List Nat) (add : Nat) : valid (mpi_cadd a b add).1 :=
  addChain_valid _ _ _

/-- Exact semantics of `mpi_cadd`: `r + 2^(32·len) · carry = a + lsb(add) · b`. -/
theorem mpi_cadd_val (a b : List Nat) (add : Nat) (ha : valid a) (hb : valid b)
    (h : a.length = b.length) :
    mval (mpi_cadd a b add).1 + W ^ a.length * (mpi_cadd a b add).2
      = mval a + (add % 2) * mval b := by
  have hand : add &&& 1 = add % 2 := Nat.and_one_is_mod add
  rcases Nat.mod_two_eq_zero_or_one add with h2 | h2
  · have hmask : (W - (add &&& 1)) % W = 0 := by rw [hand, h2]; simp
    have hmap : b.map (fun y => y &&& ((W - (add &&& 1)) % W)) = b.map (fun _ => 0) := by
      rw [hmask]; simp
    have hzero : mval (b.map (fun _ => 0)) = 0 := mval_map_zero b
    have hspec := addChain_spec 0 a (b.map (fun y => y &&& ((W - (add &&& 1)) % W)))
      (by simp [h])
    rw [hmap, hzero] at hspec
    simp only [mpi_cadd]
    rw [hmap, h2]
    omega
  · have hW : W = 4294967296 := rfl
    have hmask : (W - (add &&& 1)) % W = W - 1 := by
      rw [hand, h2]
      exact Nat.mod_eq_of_lt (by norm_num [W])
    have hmap : b.map (fun y => y &&& ((W - (add &&& 1)) % W)) = b := by
      rw [hmask]
      have : ∀ y ∈ b, y &&& (W - 1) = y := by
        intro y hy
        have hyW : y < W := hb y hy
        have := Nat.and_pow_two_sub_one_eq_mod y 32
        rw [show (2 : Nat) ^ 32 = W from rfl] at this
        rw [this, Nat.mod_eq_of_lt hyW]
      exact List.map_congr_left (fun y hy => this y hy) |>.trans (List.map_id b)
  -- fallthrough handled below
    have hspec := addChain_spec 0 a (b.map (fun y => y &&& ((W - (add &&& 1)) % W)))
      (by simp [h])
    rw [hmap] at hspec
    simp only [mpi_cadd]
    rw [hmap, h2]
    omega


/-- Helper: a carry multiplied by the radix is at most one. -/
theorem carry_le_one (K c x : Nat) (h : K * c ≤ x) (hx : x < 2 * K) : c ≤ 1 := by
  by_contra hc
  push_neg at hc
  have : K * 2 ≤ K * c := Nat.mul_le_mul_left _ hc
  omega

theorem gfp_setp_val : mval gfp_setp = P := by decide

theorem gfp_setp_valid : valid gfp_setp := by decide

theorem gfp_setp_length : gfp_setp.length = 8 := rfl

/-- One `subtract p / conditionally re-add p` round of `gfp_fred`
(and of `gfp_cmp`): a conditional subtraction of `p`. -/
theorem fred_round (x : List Nat) (hx : valid x) (lx : x.length = 8) :
    (mpi_cadd (mpi_sub x gfp_setp).1 gfp_setp (mpi_sub x gfp_setp).2).1.length = 8 ∧
    valid (mpi_cadd (mpi_sub x gfp_setp).1 gfp_setp (mpi_sub x gfp_setp).2).1 ∧
    mval (mpi_cadd (mpi_sub x gfp_setp).1 gfp_setp (mpi_sub x gfp_setp).2).1
      + (if P ≤ mval x then P else 0) = mval x := by
  have hlp : gfp_setp.length = 8 := rfl
  have hsub := mpi_sub_val x gfp_setp hx gfp_setp_valid (by rw [lx, hlp])
  have hsl : (mpi_sub x gfp_setp).1.length = 8 := by
    rw [mpi_sub_length x gfp_setp (by rw [lx, hlp]), lx]
  have hsv : valid (mpi_sub x gfp_setp).1 := mpi_sub_valid x gfp_setp
  have hcl : (mpi_cadd (mpi_sub x gfp_setp).1 gfp_setp (mpi_sub x gfp_setp).2).1.length = 8 := by
    rw [mpi_cadd_length _ _ _ (by rw [hsl, hlp]), hsl]
  have hcv : valid (mpi_cadd (mpi_sub x gfp_setp).1 gfp_setp (mpi_sub x gfp_setp).2).1 :=
    mpi_cadd_valid _ _ _
  refine ⟨hcl, hcv, ?_⟩
  have hcadd := mpi_cadd_val (mpi_sub x gfp_setp).1 gfp_setp (mpi_sub x gfp_setp).2
    hsv gfp_setp_valid (by rw [hsl, hlp])
  rw [hsl] at hcadd
  rw [lx] at hsub
  rw [gfp_setp_val] at hsub hcadd
  have hylt : mval (mpi_cadd (mpi_sub x gfp_setp).1 gfp_setp (mpi_sub x gfp_setp).2).1
      < W ^ 8 := by
    have := mval_lt _ hcv
    rwa [hcl] at this
  have hxlt : mval x < W ^ 8 := by
    have := mval_lt x hx
    rwa [lx] at this
  have hrlt : mval (mpi_sub x gfp_setp).1 < W ^ 8 := by
    have := mval_lt _ hsv
    rwa [hsl] at this
  have hW8 : W ^ 8 = 2 ^ 256 := by norm_num [W]
  have hPe : P = 2 ^ 255 - 19 := rfl
  rw [hW8] at hsub hcadd hylt hxlt hrlt
  rcases Nat.lt_or_ge (mval x) P with hc | hc
  · -- borrow = 1: p is re-added
    have hb : (mpi_sub x gfp_setp).2 = 1 := by rw [hsub.2]; simp [hc]
    rw [hb] at hsub hcadd hylt ⊢
    have h11 : (1 : Nat) % 2 = 1 := rfl
    rw [h11] at hcadd
    have hcy : (mpi_cadd (mpi_sub x gfp_setp).1 gfp_setp 1).2 ≤ 1 := by
      apply carry_le_one (2 ^ 256) _ (mval (mpi_sub x gfp_setp).1 + 1 * P)
      · omega
      · omega
    have : ¬ P ≤ mval x := by omega
    simp only [this, if_false]
    rcases Nat.le_one_iff_eq_zero_or_eq_one.1 hcy with h0 | h1
    · rw [h0] at hcadd; omega
    · rw [h1] at hcadd; omega
  · -- borrow = 0: no re-addition
    have hb : (mpi_sub x gfp_setp).2 = 0 := by
      rw [hsub.2]
      simp [Nat.not_lt.2 hc]
    rw [hb] at hsub hcadd hylt ⊢
    have h00 : (0 : Nat) % 2 = 0 := rfl
    rw [h00] at hcadd
    have hcy : (mpi_cadd (mpi_sub x gfp_setp).1 gfp_setp 0).2 ≤ 1 := by
      apply carry_le_one (2 ^ 256) _ (mval (mpi_sub x gfp_setp).1 + 0 * P)
      · omega
      · omega
    simp only [hc, if_true]
    rcases Nat.le_one_iff_eq_zero_or_eq_one.1 hcy with h0 | h1
    · rw [h0] at hcadd; omega
    · rw [h1] at hcadd; omega

/-- `gfp_fred` canonicalizes: the result is `a mod p`, in `[0, p-1]`. -/
theorem gfp_fred_correct (a : List Nat) (ha : valid a) (la : a.length = 8) :
    (gfp_fred a).length = 8 ∧ valid (gfp_fred a) ∧ mval (gfp_fred a) = mval a % P := by
  have h1 := fred_round a ha la
  set r1 := (mpi_cadd (mpi_sub a gfp_setp).1 gfp_setp (mpi_sub a gfp_setp).2).1 with hr1
  have h2 := fred_round r1 h1.2.1 h1.1
  have hfred : gfp_fred a
      = (mpi_cadd (mpi_sub r1 gfp_setp).1 gfp_setp (mpi_sub r1 gfp_setp).2).1 := by
    simp only [gfp_fred, hr1]
  rw [hfred]
  refine ⟨h2.1, h2.2.1, ?_⟩
  have hxlt : mval a < 2 ^ 256 := by
    have := mval_lt a ha
    rwa [la, show W ^ 8 = 2 ^ 256 by norm_num [W]] at this
  have hPe : P = 2 ^ 255 - 19 := rfl
  have e1 := h1.2.2
  have e2 := h2.2.2
  rcases Nat.lt_or_ge (mval a) P with c1 | c1
  · -- a < p: both rounds leave the value unchanged
    rw [if_neg (by omega), Nat.add_zero] at e1
    rw [e1] at e2
    rw [if_neg (by omega), Nat.add_zero] at e2
    rw [e2, hPe]
    rw [hPe] at c1
    omega
  · rcases Nat.lt_or_ge (mval a) (2 * P) with c2 | c2
    · -- p <= a < 2p: the first round subtracts p
      rw [if_pos (by omega)] at e1
      have hv1 : mval r1 = mval a - P := by omega
      rw [hv1] at e2
      rw [if_neg (by omega), Nat.add_zero] at e2
      rw [e2, hPe]
      rw [hPe] at c1 c2
      omega
    · -- 2p <= a < 2^256 < 3p: both rounds subtract p
      rw [if_pos (by omega)] at e1
      have hv1 : mval r1 = mval a - P := by omega
      rw [hv1] at e2
      rw [if_pos (by omega)] at e2
      rw [hPe] at e2 c1 c2
      rw [hPe]
      omega


/-- Eta-expansion of an 8-word array. -/
theorem list8_eta (a : List Nat) (la : a.length = 8) :
    a = [a.getD 0 0, a.getD 1 0, a.getD 2 0, a.getD 3 0, a.getD 4 0,
         a.getD 5 0, a.getD 6 0, a.getD 7 0] := by
  match a with
  | [x0, x1, x2, x3, x4, x5, x6, x7] => rfl
  | [] | [_] | [_, _] | [_, _, _] | [_, _, _, _] | [_, _, _, _, _]
  | [_, _, _, _, _, _] | [_, _, _, _, _, _, _] => simp at la
  | _ :: _ :: _ :: _ :: _ :: _ :: _ :: _ :: _ :: _ => simp at la

/-- Word arrays of equal length and equal value are equal. -/
theorem mval_inj (x y : List Nat) (hx : valid x) (hy : valid y)
    (hlen : x.length = y.length) (hval : mval x = mval y) : x = y := by
  induction x generalizing y with
  | nil => cases y <;> simp_all
  | cons a xs ih =>
    cases y with
    | nil => simp at hlen
    | cons b ys =>
      have haW : a < W := hx a (by simp)
      have hbW : b < W := hy b (by simp)
      simp only [mval] at hval
      have hW : W = 4294967296 := rfl
      rw [hW] at hval haW hbW
      have head : a = b ∧ mval xs = mval ys := by
        constructor
        · omega
        · omega
      rw [head.1, ih ys (fun w hw => hx w (by simp [hw]))
        (fun w hw => hy w (by simp [hw])) (by simpa using hlen) head.2]

/-- Value and range facts for `gfp_sub`: with `q` the (biased) upper part
of the top-word difference, `r + q*p = a - b + 4p`; the result is an
8-word array in `[0, 2p-1]`. -/
theorem gfp_sub_eq (a b : List Nat) (ha : valid a) (hb : valid b)
    (la : a.length = 8) (lb : b.length = 8) :
    (mval (gfp_sub a b) : Int)
      + ((8589934588 + (a.getD 7 0 : Int) - b.getD 7 0) / 2 ^ 31) * P
      = (mval a : Int) - mval b + 4 * P ∧
    (gfp_sub a b).length = 8 ∧ valid (gfp_sub a b) ∧
    mval (gfp_sub a b) ≤ 2 * P - 1 := by
  have hW : W = 4294967296 := rfl
  have hWi : (W : Int) = 4294967296 := rfl
  have ha7 : a.getD 7 0 < W := valid_getD a 7 ha (by omega)
  have hb7 : b.getD 7 0 < W := valid_getD b 7 hb (by omega)
  set N : Int := 8589934588 + (a.getD 7 0 : Int) - b.getD 7 0 with hN
  have hNpos : 0 < N := by rw [hN]; omega
  have hNlt : N < 2 ^ 34 := by rw [hN]; omega
  set q : Int := N / 2 ^ 31 with hq
  have hq15 : 1 ≤ q ∧ q ≤ 5 := by rw [hq]; omega
  have hqW : (N / 2 ^ 31) % (W : Int) = q := by
    rw [hWi, ← hq]; omega
  have hmsk : ((N % (W : Int)).toNat) &&& (2 ^ 31 - 1) = ((N % (W : Int)).toNat) % 2 ^ 31 :=
    and_mask31 _
  have hmswv : ((((N % (W : Int)).toNat) % 2 ^ 31 : Nat) : Int) = N % 2 ^ 31 := by
    rw [hWi]; omega
  set ds := ((a.take 7).zip (b.take 7)).map (fun p => (p.1 : Int) - (p.2 : Int)) with hds
  have hdslen : ds.length = 7 := by
    rw [hds, List.length_map, List.length_zip]
    simp [List.length_take, la, lb]
  have hival : ival ds = (mval (a.take 7) : Int) - mval (b.take 7) := by
    rw [hds]
    exact ival_zip_sub (a.take 7) (b.take 7) (by simp [List.length_take, la, lb])
  set c0 : Int := 19 * q - 76 with hc0
  have hspec := sdwChain_spec c0 ds
  rw [hdslen, hival] at hspec
  set w := (sdwChain c0 ds).1 with hw
  set co := (sdwChain c0 ds).2 with hco
  have hwlen : w.length = 7 := by rw [hw, sdwChain_length, hdslen]
  have hwval : valid w := by rw [hw]; exact sdwChain_valid _ _
  have hwlt : mval w < 2 ^ 224 := by
    have := mval_lt w hwval
    rwa [hwlen, show W ^ 7 = 2 ^ 224 by norm_num [W]] at this
  have hWi7 : (W : Int) ^ 7 = 2 ^ 224 := by rw [hWi]; norm_num
  rw [hWi7] at hspec
  have halow : mval (a.take 7) < 2 ^ 224 := by
    have := mval_lt (a.take 7) (valid_take a 7 ha)
    rwa [show (a.take 7).length = 7 by simp [List.length_take, la],
      show W ^ 7 = 2 ^ 224 by norm_num [W]] at this
  have hblow : mval (b.take 7) < 2 ^ 224 := by
    have := mval_lt (b.take 7) (valid_take b 7 hb)
    rwa [show (b.take 7).length = 7 by simp [List.length_take, lb],
      show W ^ 7 = 2 ^ 224 by norm_num [W]] at this
  -- carry bounds from the chain equation
  have hcob : -2 ≤ co ∧ co ≤ 1 := by
    constructor <;> omega
  -- the definition, with `q % W` removed
  have hbody : gfp_sub a b
      = w ++ [(((N % (W : Int)).toNat) % 2 ^ 31 + (co % (W : Int)).toNat + 4) % W] := by
    simp only [gfp_sub, hqW, hmsk, ← hN, ← hds, ← hc0, ← hw, ← hco]
  -- the top word does not wrap
  set msw := ((N % (W : Int)).toNat) % 2 ^ 31 with hmsw
  have hmswlt : msw < 2 ^ 31 := Nat.mod_lt _ (by norm_num)
  have hr7 : (((msw + (co % (W : Int)).toNat + 4) % W : Nat) : Int) = msw + 4 + co := by
    rw [hW]
    push_cast
    omega
  rw [hbody]
  have hlen8 : (w ++ [(msw + (co % (W : Int)).toNat + 4) % W]).length = 8 := by
    simp [hwlen]
  have hvalid8 : valid (w ++ [(msw + (co % (W : Int)).toNat + 4) % W]) := by
    intro x hx
    rcases List.mem_append.1 hx with h | h
    · exact hwval x h
    · simp only [List.mem_singleton] at h
      subst h
      exact Nat.mod_lt _ Wpos
  have hmvr : mval (w ++ [(msw + (co % (W : Int)).toNat + 4) % W])
      = mval w + 2 ^ 224 * ((msw + (co % (W : Int)).toNat + 4) % W) := by
    rw [mval_append, hwlen, show W ^ 7 = 2 ^ 224 by norm_num [W]]
    simp [mval]
  refine ⟨?_, hlen8, hvalid8, ?_⟩
  · -- the value equation
    rw [hmvr]
    have hsplit_a : (mval a : Int) = mval (a.take 7) + 2 ^ 224 * a.getD 7 0 := by
      have := mval_split8 a la
      rw [show W ^ 7 = 2 ^ 224 by norm_num [W]] at this
      exact_mod_cast congrArg (Nat.cast : Nat → Int) this
    have hsplit_b : (mval b : Int) = mval (b.take 7) + 2 ^ 224 * b.getD 7 0 := by
      have := mval_split8 b lb
      rw [show W ^ 7 = 2 ^ 224 by norm_num [W]] at this
      exact_mod_cast congrArg (Nat.cast : Nat → Int) this
    have hPe : (P : Int) = 2 ^ 255 - 19 := by
      rw [show P = 2 ^ 255 - 19 from rfl]
      push_cast [show (19 : Nat) ≤ 2 ^ 255 by norm_num]
    have hNsplit : N = (msw : Int) + 2 ^ 31 * q := by
      rw [hmswv, hq]
      omega
    rw [Nat.cast_add, Nat.cast_mul, hr7]
    rw [hPe, hsplit_a, hsplit_b]
    push_cast
    omega
  · -- range
    rw [hmvr]
    have hb31 : (msw + (co % (W : Int)).toNat + 4) % W ≤ 2 ^ 31 + 4 := by
      have h2 := hr7
      rw [hWi] at h2
      omega
    have h3 : 2 ^ 224 * ((msw + (co % (W : Int)).toNat + 4) % W)
        ≤ 2 ^ 224 * (2 ^ 31 + 4) := Nat.mul_le_mul_left _ hb31
    rw [show P = 2 ^ 255 - 19 from rfl]
    omega


/-- The pre-biased constant list of `gfp_sub_v2` has the value
`a_low + 4·(p mod 2^224) - b_low` (in additive form). -/
theorem mval_sub_v2_us (a b : List Nat) (hb : valid b)
    (la : a.length = 8) (lb : b.length = 8) :
    mval ((17179869108 + a.getD 0 0 - b.getD 0 0)
      :: (List.range 6).map (fun i => 17179869180 + a.getD (i + 1) 0 - b.getD (i + 1) 0))
      + mval (b.take 7) + 76 = mval (a.take 7) + 4 * 2 ^ 224 := by
  have hb0 := valid_getD b 0 hb (by omega)
  have hb1 := valid_getD b 1 hb (by omega)
  have hb2 := valid_getD b 2 hb (by omega)
  have hb3 := valid_getD b 3 hb (by omega)
  have hb4 := valid_getD b 4 hb (by omega)
  have hb5 := valid_getD b 5 hb (by omega)
  have hb6 := valid_getD b 6 hb (by omega)
  have hta : a.take 7 = [a.getD 0 0, a.getD 1 0, a.getD 2 0, a.getD 3 0,
      a.getD 4 0, a.getD 5 0, a.getD 6 0] := by
    conv_lhs => rw [list8_eta a la]
    rfl
  have htb : b.take 7 = [b.getD 0 0, b.getD 1 0, b.getD 2 0, b.getD 3 0,
      b.getD 4 0, b.getD 5 0, b.getD 6 0] := by
    conv_lhs => rw [list8_eta b lb]
    rfl
  have hrange : (List.range 6).map
        (fun i => 17179869180 + a.getD (i + 1) 0 - b.getD (i + 1) 0)
      = [17179869180 + a.getD 1 0 - b.getD 1 0, 17179869180 + a.getD 2 0 - b.getD 2 0,
         17179869180 + a.getD 3 0 - b.getD 3 0, 17179869180 + a.getD 4 0 - b.getD 4 0,
         17179869180 + a.getD 5 0 - b.getD 5 0, 17179869180 + a.getD 6 0 - b.getD 6 0] := by
    rfl
  rw [hta, htb, hrange]
  simp only [mval]
  rw [show W = 4294967296 from rfl]
  have hW : W = 4294967296 := rfl
  rw [hW] at hb0 hb1 hb2 hb3 hb4 hb5 hb6
  omega

/-- Value facts for the alternative formulation `gfp_sub_v2`: same value
equation as `gfp_sub`. -/
theorem gfp_sub_v2_eq (a b : List Nat) (ha : valid a) (hb : valid b)
    (la : a.length = 8) (lb : b.length = 8) :
    (mval (gfp_sub_v2 a b) : Int)
      + ((8589934588 + (a.getD 7 0 : Int) - b.getD 7 0) / 2 ^ 31) * P
      = (mval a : Int) - mval b + 4 * P ∧
    (gfp_sub_v2 a b).length = 8 ∧ valid (gfp_sub_v2 a b) := by
  have hW : W = 4294967296 := rfl
  have ha7 : a.getD 7 0 < W := valid_getD a 7 ha (by omega)
  have hb7 : b.getD 7 0 < W := valid_getD b 7 hb (by omega)
  set s : Nat := 8589934588 + a.getD 7 0 - b.getD 7 0 with hs
  have hsN : (s : Int) = 8589934588 + (a.getD 7 0 : Int) - b.getD 7 0 := by
    rw [hs]; omega
  have hslt : s < 2 ^ 34 := by rw [hs]; omega
  set q : Nat := s / 2 ^ 31 with hq
  have hq5 : q ≤ 5 := by rw [hq]; omega
  have hqW : (s / 2 ^ 31) % W = q := by rw [← hq]; exact Nat.mod_eq_of_lt (by omega)
  have hqInt : (q : Int) = (8589934588 + (a.getD 7 0 : Int) - b.getD 7 0) / 2 ^ 31 := by
    rw [← hsN, hq]
    push_cast [Int.ofNat_ediv]
    norm_num
  set us := (17179869108 + a.getD 0 0 - b.getD 0 0)
    :: (List.range 6).map (fun i => 17179869180 + a.getD (i + 1) 0 - b.getD (i + 1) 0)
    with hus
  have huslen : us.length = 7 := by rw [hus]; simp
  have husval := mval_sub_v2_us a b hb la lb
  rw [← hus] at husval
  have hspec := carryChain_spec (19 * q) us
  rw [huslen, show W ^ 7 = 2 ^ 224 by norm_num [W]] at hspec
  set rlo := (carryChain (19 * q) us).1 with hrlo
  set c2 := (carryChain (19 * q) us).2 with hc2
  have hrlolen : rlo.length = 7 := by rw [hrlo, carryChain_length, huslen]
  have hrlov : valid rlo := by rw [hrlo]; exact carryChain_valid _ _
  have hrlolt : mval rlo < 2 ^ 224 := by
    have := mval_lt rlo hrlov
    rwa [hrlolen, show W ^ 7 = 2 ^ 224 by norm_num [W]] at this
  have halow : mval (a.take 7) < 2 ^ 224 := by
    have := mval_lt (a.take 7) (valid_take a 7 ha)
    rwa [show (a.take 7).length = 7 by simp [List.length_take, la],
      show W ^ 7 = 2 ^ 224 by norm_num [W]] at this
  have hblow : mval (b.take 7) < 2 ^ 224 := by
    have := mval_lt (b.take 7) (valid_take b 7 hb)
    rwa [show (b.take 7).length = 7 by simp [List.length_take, lb],
      show W ^ 7 = 2 ^ 224 by norm_num [W]] at this
  have hc2le : c2 ≤ 5 := by
    by_contra hgt
    push_neg at hgt
    have h6 : 2 ^ 224 * 6 ≤ 2 ^ 224 * c2 := Nat.mul_le_mul_left _ hgt
    omega
  set msw := (s % W) &&& (2 ^ 31 - 1) with hmsw
  have hmswv : msw = s % 2 ^ 31 := by rw [hmsw, and_mask31, mod_W_mod31]
  have hmswlt : msw < 2 ^ 31 := by rw [hmswv]; exact Nat.mod_lt _ (by norm_num)
  have hbody : gfp_sub_v2 a b = rlo ++ [(msw + c2 % W) % W] := by
    simp only [gfp_sub_v2, hqW, ← hs, ← hus, ← hrlo, ← hc2, ← hmsw]
  have hnw : (msw + c2 % W) % W = msw + c2 := by
    rw [Nat.mod_eq_of_lt (show c2 < W by omega), Nat.mod_eq_of_lt (by omega)]
  rw [hbody, hnw]
  have hlen8 : (rlo ++ [msw + c2]).length = 8 := by simp [hrlolen]
  have hvalid8 : valid (rlo ++ [msw + c2]) := by
    intro x hx
    rcases List.mem_append.1 hx with h | h
    · exact hrlov x h
    · simp only [List.mem_singleton] at h
      subst h
      omega
  refine ⟨?_, hlen8, hvalid8⟩
  have hmvr : mval (rlo ++ [msw + c2]) = mval rlo + 2 ^ 224 * (msw + c2) := by
    rw [mval_append, hrlolen, show W ^ 7 = 2 ^ 224 by norm_num [W]]
    simp [mval]
  rw [hmvr, ← hqInt]
  have hsplit_a : (mval a : Int) = mval (a.take 7) + 2 ^ 224 * a.getD 7 0 := by
    have := mval_split8 a la
    rw [show W ^ 7 = 2 ^ 224 by norm_num [W]] at this
    exact_mod_cast congrArg (Nat.cast : Nat → Int) this
  have hsplit_b : (mval b : Int) = mval (b.take 7) + 2 ^ 224 * b.getD 7 0 := by
    have := mval_split8 b lb
    rw [show W ^ 7 = 2 ^ 224 by norm_num [W]] at this
    exact_mod_cast congrArg (Nat.cast : Nat → Int) this
  have hPe : (P : Int) = 2 ^ 255 - 19 := by
    rw [show P = 2 ^ 255 - 19 from rfl]
    push_cast [show (19 : Nat) ≤ 2 ^ 255 by norm_num]
  have hssplit : s = msw + 2 ^ 31 * q := by
    rw [hmswv, hq]
    omega
  rw [hPe, hsplit_a, hsplit_b]
  push_cast
  omega


/-- The shifted-word combination of `mpi_shr` and `gfp_hlv` in arithmetic
form: `(y << 31) | (x >> 1)` keeps the LSB of `y` and the top 31 bits
of `x`. -/
theorem shr_word (x y : Nat) (hx : x < W) :
    ((y <<< 31) % W) ||| (x >>> 1) = y % 2 * 2 ^ 31 + x / 2 := by
  have hW : W = 4294967296 := rfl
  have h1 : (y <<< 31) % W = y % 2 * 2 ^ 31 := by
    rw [Nat.shiftLeft_eq, hW]
    omega
  have h2 : x >>> 1 = x / 2 := by
    rw [Nat.shiftRight_eq_div_pow]
  rw [h1, h2]
  calc y % 2 * 2 ^ 31 ||| x / 2
      = 2 ^ 31 * (y % 2) ||| x / 2 := by rw [Nat.mul_comm]
    _ = 2 ^ 31 * (y % 2) + x / 2 := (Nat.mul_add_lt_is_or (by omega) (y % 2)).symm
    _ = y % 2 * 2 ^ 31 + x / 2 := by ring

theorem pairShift_length (l : List Nat) : (pairShift l).length = l.length - 1 := by
  induction l with
  | nil => rfl
  | cons x xs ih =>
    cases xs with
    | nil => rfl
    | cons y rest => simp only [pairShift, List.length_cons] at *; omega

theorem pairShift_valid (l : List Nat) (hl : valid l) : valid (pairShift l) := by
  induction l with
  | nil => simp [pairShift, valid]
  | cons x xs ih =>
    cases xs with
    | nil => simp [pairShift, valid]
    | cons y rest =>
      intro w hw
      simp only [pairShift, List.mem_cons] at hw
      rcases hw with h | h
      · subst h
        have h1 : (y <<< 31) % W < W := Nat.mod_lt _ Wpos
        have h2 : x >>> 1 < W := by
          rw [Nat.shiftRight_eq_div_pow]
          have hx : x < W := hl x (by simp)
          have hW : W = 4294967296 := rfl
          omega
        have h3 := Nat.or_lt_two_pow (n := 32)
          (by rw [show (2 : Nat) ^ 32 = W from rfl]; exact h1)
          (by rw [show (2 : Nat) ^ 32 = W from rfl]; exact h2)
        rwa [show (2 : Nat) ^ 32 = W from rfl] at h3
      · exact ih (fun w hw => hl w (by simp [hw])) w h

/-- 1-bit right shift of a word array: value semantics. -/
theorem shr_val (l : List Nat) (hl : valid l) (hne : l ≠ []) :
    mval (pairShift l ++ [(l.getLast?.getD 0) / 2]) = mval l / 2 := by
  induction l with
  | nil => simp at hne
  | cons x xs ih =>
    cases xs with
    | nil =>
      have hx : x < W := hl x (by simp)
      have hlast : ([x] : List Nat).getLast?.getD 0 = x := rfl
      rw [hlast]
      show mval [x / 2] = mval [x] / 2
      simp only [mval]
      have hW : W = 4294967296 := rfl
      omega
    | cons y rest =>
      have hx : x < W := hl x (by simp)
      have hy : y < W := hl y (by simp)
      have hrec := ih (fun w hw => hl w (by simp [hw])) (by simp)
      have hlast : (x :: y :: rest).getLast?.getD 0 = (y :: rest).getLast?.getD 0 := by
        rw [List.getLast?_cons_cons]
      rw [hlast]
      show mval ((((y <<< 31) % W) ||| (x >>> 1))
          :: (pairShift (y :: rest) ++ [(y :: rest).getLast?.getD 0 / 2]))
        = mval (x :: y :: rest) / 2
      rw [mval_cons, hrec, shr_word x y hx]
      rw [mval_cons x (y :: rest), mval_cons y rest]
      have hW : W = 4294967296 := rfl
      rw [hW]
      omega


/-- The increment list of `gfp_hlv` has the value `d0 + (a_low - a[0])`. -/
theorem ival_hlv_ds (a : List Nat) (la : a.length = 8) (d0 : Int) :
    ival (d0 :: (List.range 6).map (fun i => (a.getD (i + 1) 0 : Int)))
      + (a.getD 0 0 : Int) = d0 + mval (a.take 7) := by
  have hta : a.take 7 = [a.getD 0 0, a.getD 1 0, a.getD 2 0, a.getD 3 0,
      a.getD 4 0, a.getD 5 0, a.getD 6 0] := by
    conv_lhs => rw [list8_eta a la]
    rfl
  have hrange : (List.range 6).map (fun i => (a.getD (i + 1) 0 : Int))
      = [(a.getD 1 0 : Int), (a.getD 2 0 : Int), (a.getD 3 0 : Int),
         (a.getD 4 0 : Int), (a.getD 5 0 : Int), (a.getD 6 0 : Int)] := rfl
  rw [hta, hrange]
  simp only [ival, mval]
  push_cast
  ring

/-- Correctness of `gfp_hlv`: the result is exactly `(a + lsb(a)·p) / 2`,
an 8-word value in `[0, 2p-1]`. -/
theorem gfp_hlv_correct (a : List Nat) (ha : valid a) (la : a.length = 8) :
    (gfp_hlv a).length = 8 ∧ valid (gfp_hlv a) ∧
    mval (gfp_hlv a) = (mval a + mval a % 2 * P) / 2 ∧
    mval (gfp_hlv a) ≤ 2 * P - 1 := by
  have hW : W = 4294967296 := rfl
  have hWi : (W : Int) = 4294967296 := rfl
  have ha0 : a.getD 0 0 < W := valid_getD a 0 ha (by omega)
  have ha7 : a.getD 7 0 < W := valid_getD a 7 ha (by omega)
  have hpar : mval a % 2 = a.getD 0 0 % 2 := by
    obtain ⟨x, xs, hxx⟩ : ∃ x xs, a = x :: xs := by
      cases a with
      | nil => simp at la
      | cons x xs => exact ⟨x, xs, rfl⟩
    subst hxx
    simp only [mval, List.getD_cons_zero]
    rw [hW]
    omega
  set m := a.getD 0 0 % 2 with hm
  have hm01 : m = 0 ∨ m = 1 := by omega
  set mask := (W - (a.getD 0 0 &&& 1)) % W with hmask
  have hmaskv : mask = (W - m) % W := by rw [hmask, Nat.and_one_is_mod, hm]
  have hC19 : (19 &&& mask : Nat) = 19 * m := by
    rcases hm01 with h | h <;> rw [hmaskv, h] <;> decide
  have hC31 : (2147483648 &&& mask : Nat) = 2147483648 * m := by
    rcases hm01 with h | h <;> rw [hmaskv, h] <;> decide
  set ds : List Int := ((a.getD 0 0 : Int) - ((19 &&& mask : Nat) : Int))
    :: (List.range 6).map (fun i => (a.getD (i + 1) 0 : Int)) with hds
  have hdslen : ds.length = 7 := by rw [hds]; simp
  have hival : ival ds = (mval (a.take 7) : Int) - 19 * m := by
    have := ival_hlv_ds a la ((a.getD 0 0 : Int) - ((19 &&& mask : Nat) : Int))
    rw [← hds] at this
    rw [hC19] at this
    push_cast at this
    omega
  set t := sdwChain 0 ds with ht
  have hspec := sdwChain_spec 0 ds
  rw [← ht, hdslen, hival, show ((W : Int)) ^ 7 = 2 ^ 224 by rw [hWi]; norm_num] at hspec
  set c := t.2 with hc
  have htlen : t.1.length = 7 := by rw [ht, sdwChain_length, hdslen]
  have htv : valid t.1 := by rw [ht]; exact sdwChain_valid _ _
  have htlt : mval t.1 < 2 ^ 224 := by
    have := mval_lt t.1 htv
    rwa [htlen, show W ^ 7 = 2 ^ 224 by norm_num [W]] at this
  have halow : mval (a.take 7) < 2 ^ 224 := by
    have := mval_lt (a.take 7) (valid_take a 7 ha)
    rwa [show (a.take 7).length = 7 by simp [List.length_take, la],
      show W ^ 7 = 2 ^ 224 by norm_num [W]] at this
  have hcb : -1 ≤ c ∧ c ≤ 0 := by
    constructor <;> omega
  set s7 : Int := c + (a.getD 7 0 : Int) + (((2147483648 &&& mask : Nat)) : Int)
    with hs7
  have hs7C : s7 = c + (a.getD 7 0 : Int) + 2147483648 * m := by
    rw [hs7, hC31]
    push_cast
    ring
  have hs7b : 0 ≤ s7 ∧ s7 < 2 ^ 33 := by
    rcases hm01 with h | h
    · -- even: the chain has only nonnegative increments, so c = 0
      have hc0 : 0 ≤ c := by
        rw [h] at hival
        omega
      rw [hs7C, h]
      constructor <;> omega
    · rw [hs7C, h]
      constructor <;> omega
  set w7 := (s7 % (W : Int)).toNat with hw7
  set u := ((s7 / 2) % (W : Int)).toNat with hu
  set kn := (s7 / (W : Int)).toNat with hkn
  have hknI : (kn : Int) = s7 / (W : Int) := by
    rw [hkn]
    exact Int.toNat_of_nonneg (Int.ediv_nonneg hs7b.1 (by rw [hWi]; norm_num))
  have hw7I : (w7 : Int) = s7 % (W : Int) := by
    rw [hw7]
    exact Int.toNat_of_nonneg (Int.emod_nonneg _ (by rw [hWi]; norm_num))
  have hw7lt : w7 < W := by
    have : s7 % (W : Int) < W := Int.emod_lt_of_pos _ (by rw [hWi]; norm_num)
    rw [hW] at *
    rw [hWi] at this
    omega
  have hkn1 : kn ≤ 1 := by
    rw [hWi] at hknI
    omega
  have huval : u = w7 / 2 + 2 ^ 31 * kn := by
    have h1 : (u : Int) = s7 / 2 := by
      rw [hu]
      have : 0 ≤ s7 / 2 := Int.ediv_nonneg hs7b.1 (by norm_num)
      have h2 : s7 / 2 < (W : Int) := by rw [hWi]; omega
      rw [Int.emod_eq_of_lt this h2]
      exact Int.toNat_of_nonneg this
    rw [hWi] at hw7I hknI
    omega
  set l := t.1 ++ [w7] with hl
  have hllen : l.length = 8 := by simp [hl, htlen]
  have hlv : valid l := by
    intro x hx
    rcases List.mem_append.1 hx with hh | hh
    · exact htv x hh
    · simp only [List.mem_singleton] at hh
      subst hh
      exact hw7lt
  have hlast : l.getLast?.getD 0 = w7 := by
    rw [hl, List.getLast?_concat]
    rfl
  have hbody : gfp_hlv a = pairShift l ++ [u] := by
    simp only [gfp_hlv, ← hmask, ← hds, ← ht, ← hc, ← hs7, ← hw7, ← hu, ← hl]
  rw [hbody]
  have hpsl : (pairShift l).length = 7 := by rw [pairShift_length, hllen]
  have hlen8 : (pairShift l ++ [u]).length = 8 := by simp [hpsl]
  have hulW : u < W := by
    rw [hu]
    have h2 : (s7 / 2) % (W : Int) < W := Int.emod_lt_of_pos _ (by rw [hWi]; norm_num)
    have h3 : 0 ≤ (s7 / 2) % (W : Int) := Int.emod_nonneg _ (by rw [hWi]; norm_num)
    rw [hWi] at h2 h3 ⊢
    omega
  have hval8 : valid (pairShift l ++ [u]) := by
    intro x hx
    rcases List.mem_append.1 hx with hh | hh
    · exact pairShift_valid l hlv x hh
    · simp only [List.mem_singleton] at hh
      subst hh
      exact hulW
  have hshr := shr_val l hlv (by rw [hl]; simp)
  rw [hlast] at hshr
  rw [mval_append, hpsl, show W ^ 7 = 2 ^ 224 by norm_num [W]] at hshr
  rw [show mval [w7 / 2] = w7 / 2 by simp [mval]] at hshr
  have hlval : mval l = mval t.1 + 2 ^ 224 * w7 := by
    rw [hl, mval_append, htlen, show W ^ 7 = 2 ^ 224 by norm_num [W]]
    simp [mval]
  -- the value of l plus the shifted-out top bit is a + m*p
  have hkey : (mval l : Int) + 2 ^ 256 * kn = mval a + m * (2 ^ 255 - 19) := by
    have hsplit : (mval a : Int) = mval (a.take 7) + 2 ^ 224 * a.getD 7 0 := by
      have := mval_split8 a la
      rw [show W ^ 7 = 2 ^ 224 by norm_num [W]] at this
      exact_mod_cast congrArg (Nat.cast : Nat → Int) this
    rw [hlval]
    push_cast
    rw [hWi] at hw7I hknI
    omega
  have hPe : (P : Int) = 2 ^ 255 - 19 := by
    rw [show P = 2 ^ 255 - 19 from rfl]
    push_cast [show (19 : Nat) ≤ 2 ^ 255 by norm_num]
  have hkeyN : mval l + 2 ^ 256 * kn = mval a + m * P := by
    have hcast : ((mval l + 2 ^ 256 * kn : Nat) : Int) = ((mval a + m * P : Nat) : Int) := by
      push_cast
      rw [hPe]
      omega
    exact_mod_cast hcast
  have hfinal : mval (pairShift l ++ [u]) = (mval a + m * P) / 2 := by
    rw [mval_append, hpsl, show W ^ 7 = 2 ^ 224 by norm_num [W],
      show mval [u] = u by simp [mval]]
    rw [show P = 2 ^ 255 - 19 from rfl] at hkeyN ⊢
    omega
  refine ⟨hlen8, hval8, ?_, ?_⟩
  · rw [hfinal, hpar]
  · rw [hfinal]
    have hamax : mval a < 2 ^ 256 := by
      have := mval_lt a ha
      rwa [la, show W ^ 8 = 2 ^ 256 by norm_num [W]] at this
    rw [show P = 2 ^ 255 - 19 from rfl]
    omega


/-- The row loop of the schoolbook multiplication accumulates
`W^i · b_i · a` into the product buffer. -/
theorem mulRows_spec (a : List Nat) (ha : valid a) (la : a.length = 8) :
    ∀ (bs : List Nat) (i : Nat) (t : List Nat), valid bs → valid t →
    t.length = 8 + i →
    mval (mulRows a bs i t) = mval t + W ^ i * (mval bs * mval a) ∧
    (mulRows a bs i t).length = t.length + bs.length ∧
    valid (mulRows a bs i t) := by
  intro bs
  induction bs with
  | nil =>
    intro i t hbs ht hlen
    exact ⟨by simp [mulRows, mval], by simp [mulRows], ht⟩
  | cons bi bs ih =>
    intro i t hbs ht hlen
    have hbiW : bi < W := hbs bi (by simp)
    have hdlen : (t.drop i).length = 8 := by simp [hlen]
    have hu := mulAddChain_spec 0 bi a (t.drop i) (by rw [la, hdlen])
    rw [la] at hu
    have hulen : (mulAddChain 0 bi a (t.drop i)).1.length = 8 := by
      rw [mulAddChain_length _ _ _ _ (by rw [la, hdlen]), la]
    have huval : valid (mulAddChain 0 bi a (t.drop i)).1 := mulAddChain_valid _ _ _ _
    have hcar : (mulAddChain 0 bi a (t.drop i)).2 ≤ bi :=
      mulAddChain_carry 0 bi a (t.drop i) (by omega) ha (valid_drop t i ht)
    have hcW : (mulAddChain 0 bi a (t.drop i)).2 % W = (mulAddChain 0 bi a (t.drop i)).2 :=
      Nat.mod_eq_of_lt (by omega)
    set u := mulAddChain 0 bi a (t.drop i) with hset_u
    have htake : (t.take i).length = i := by simp [hlen]
    have hnewlen : (t.take i ++ u.1 ++ [u.2 % W]).length = 8 + (i + 1) := by
      simp only [List.length_append, List.length_cons, List.length_nil, htake, hulen]
      omega
    have hnewvalid : valid (t.take i ++ u.1 ++ [u.2 % W]) := by
      intro w hw
      rcases List.mem_append.1 hw with hh | hh
      · rcases List.mem_append.1 hh with h3 | h3
        · exact valid_take t i ht w h3
        · exact huval w h3
      · simp only [List.mem_singleton] at hh
        subst hh
        exact Nat.mod_lt _ Wpos
    have hrec := ih (i + 1) (t.take i ++ u.1 ++ [u.2 % W])
      (fun w hw => hbs w (by simp [hw])) hnewvalid hnewlen
    rw [show mulRows a (bi :: bs) i t
      = mulRows a bs (i + 1) (t.take i ++ u.1 ++ [u.2 % W]) from rfl]
    refine ⟨?_, ?_, hrec.2.2⟩
    · rw [hrec.1]
      have hmt : mval (t.take i ++ u.1 ++ [u.2 % W])
          = mval (t.take i) + W ^ i * (mval u.1 + W ^ 8 * u.2) := by
        rw [mval_append, mval_append, List.length_append, htake, hulen, hcW,
          show mval [u.2] = u.2 by simp [mval]]
        rw [pow_add]
        ring
      rw [hmt, hu]
      have hsplit : mval t = mval (t.take i) + W ^ i * mval (t.drop i) := by
        conv_lhs => rw [← List.take_append_drop i t]
        rw [mval_append, htake]
      rw [hsplit, mval_cons]
      ring
    · rw [hrec.2.1]
      simp only [List.length_append, List.length_cons, List.length_nil, htake, hulen]
      omega

/-- Full correctness package for `gfp_mul`: the result is an 8-word value
congruent to `a·b` modulo p and below `2p`. -/
theorem gfp_mul_correct (a b : List Nat) (ha : valid a) (hb : valid b)
    (la : a.length = 8) (lb : b.length = 8) :
    (∃ k, mval (gfp_mul a b) + k * P = mval a * mval b) ∧
    (gfp_mul a b).length = 8 ∧ valid (gfp_mul a b) ∧
    mval (gfp_mul a b) ≤ 2 * P - 1 := by
  have hW : W = 4294967296 := rfl
  obtain ⟨b0, bt, rfl⟩ : ∃ b0 bt, b = b0 :: bt := by
    cases b with
    | nil => simp at lb
    | cons b0 bt => exact ⟨b0, bt, rfl⟩
  have hb0W : b0 < W := hb b0 (by simp)
  have hbt : valid bt := fun w hw => hb w (by simp [hw])
  have lbt : bt.length = 7 := by simpa using lb
  -- the peeled first row
  have h0spec := mulChain_spec 0 b0 a
  rw [la] at h0spec
  have h0len : (mulChain 0 b0 a).1.length = 8 := by rw [mulChain_length, la]
  have h0valid : valid (mulChain 0 b0 a).1 := mulChain_valid _ _ _
  have h0car : (mulChain 0 b0 a).2 ≤ b0 := mulChain_carry 0 b0 a (by omega) ha
  have h0cW : (mulChain 0 b0 a).2 % W = (mulChain 0 b0 a).2 :=
    Nat.mod_eq_of_lt (by omega)
  set t0 := mulChain 0 b0 a with ht0
  have htinit_len : (t0.1 ++ [t0.2 % W]).length = 8 + 1 := by simp [h0len]
  have htinit_valid : valid (t0.1 ++ [t0.2 % W]) := by
    intro w hw
    rcases List.mem_append.1 hw with hh | hh
    · exact h0valid w hh
    · simp only [List.mem_singleton] at hh
      subst hh
      exact Nat.mod_lt _ Wpos
  have htinit_val : mval (t0.1 ++ [t0.2 % W]) = b0 * mval a := by
    rw [mval_append, h0len, h0cW, show mval [t0.2] = t0.2 by simp [mval]]
    omega
  -- all remaining rows
  have hrows := mulRows_spec a ha la bt 1 (t0.1 ++ [t0.2 % W]) hbt htinit_valid htinit_len
  set t := mulRows a bt 1 (t0.1 ++ [t0.2 % W]) with htt
  have htlen : t.length = 16 := by rw [hrows.2.1, htinit_len, lbt]
  have htvalid : valid t := hrows.2.2
  have htval : mval t = mval (b0 :: bt) * mval a := by
    rw [hrows.1, htinit_val, mval_cons, pow_one]
    ring
  -- first reduction pass
  have hthi_len : (t.drop 8).length = 8 := by simp [htlen]
  have htlo_len : (t.take 8).length = 8 := by simp [htlen]
  have hthi_valid : valid (t.drop 8) := valid_drop t 8 htvalid
  have htlo_valid : valid (t.take 8) := valid_take t 8 htvalid
  have hu := mulAddChain_spec 0 38 ((t.drop 8).take 7) ((t.take 8).take 7)
    (by simp [hthi_len, htlo_len])
  have hu7 : ((t.drop 8).take 7).length = 7 := by simp [hthi_len]
  rw [hu7] at hu
  set u := mulAddChain 0 38 ((t.drop 8).take 7) ((t.take 8).take 7) with huu
  have hulen : u.1.length = 7 := by
    rw [huu, mulAddChain_length _ _ _ _ (by simp [hthi_len, htlo_len]), hu7]
  have huvalid : valid u.1 := by rw [huu]; exact mulAddChain_valid _ _ _ _
  have hucar : u.2 ≤ 38 := by
    rw [huu]
    exact mulAddChain_carry 0 38 _ _ (by omega) (valid_take _ 7 hthi_valid)
      (valid_take _ 7 htlo_valid)
  have hthi7 : (t.drop 8).getD 7 0 < W := valid_getD _ 7 hthi_valid (by omega)
  have htlo7 : (t.take 8).getD 7 0 < W := valid_getD _ 7 htlo_valid (by omega)
  set pbig := u.2 + 38 * (t.drop 8).getD 7 0 + (t.take 8).getD 7 0 with hpbig
  have hpbig_lt : pbig < 39 * W := by rw [hpbig]; omega
  -- V1 = tlo + 38 thi
  have hsplithi := mval_split8 (t.drop 8) hthi_len
  have hsplitlo := mval_split8 (t.take 8) htlo_len
  have hV1 : mval u.1 + 2 ^ 224 * pbig = mval (t.take 8) + 38 * mval (t.drop 8) := by
    rw [show W ^ 7 = 2 ^ 224 by norm_num [W]] at hu hsplithi hsplitlo
    rw [hpbig, hsplithi, hsplitlo]
    omega
  -- second reduction pass
  set msw := (pbig % W) &&& (2 ^ 31 - 1) with hmsw
  have hmswv : msw = pbig % 2 ^ 31 := by rw [hmsw, and_mask31, mod_W_mod31]
  have hmswlt : msw < 2 ^ 31 := by rw [hmswv]; exact Nat.mod_lt _ (by norm_num)
  set c2 := 19 * (pbig / 2 ^ 31) with hc2
  have hc2lt : c2 ≤ 19 * 78 := by
    rw [hc2]
    have : pbig / 2 ^ 31 ≤ 78 := by omega
    omega
  have hv := carryChain_spec c2 u.1
  rw [hulen] at hv
  set v := carryChain c2 u.1 with hvv
  have hvlen : v.1.length = 7 := by rw [hvv, carryChain_length, hulen]
  have hvvalid : valid v.1 := by rw [hvv]; exact carryChain_valid _ _
  have hvlt : mval v.1 < 2 ^ 224 := by
    have := mval_lt v.1 hvvalid
    rwa [hvlen, show W ^ 7 = 2 ^ 224 by norm_num [W]] at this
  have hult : mval u.1 < 2 ^ 224 := by
    have := mval_lt u.1 huvalid
    rwa [hulen, show W ^ 7 = 2 ^ 224 by norm_num [W]] at this
  have hvcar : v.2 ≤ 1 := by
    have := hv
    rw [show W ^ 7 = 2 ^ 224 by norm_num [W]] at this
    by_contra hgt
    push_neg at hgt
    have h2 : 2 ^ 224 * 2 ≤ 2 ^ 224 * v.2 := Nat.mul_le_mul_left _ (by omega)
    omega
  have hnw : (msw + v.2 % W) % W = msw + v.2 := by
    rw [Nat.mod_eq_of_lt (show v.2 < W by omega), Nat.mod_eq_of_lt (by omega)]
  have hbody : gfp_mul a (b0 :: bt)
      = v.1 ++ [(msw + v.2 % W) % W] := by
    simp only [gfp_mul, List.getD_cons_zero, List.drop_succ_cons, List.drop_zero,
      ← ht0, ← htt, ← huu, ← hpbig, ← hmsw, ← hc2, ← hvv]
  rw [hbody, hnw]
  have hlen8 : (v.1 ++ [msw + v.2]).length = 8 := by simp [hvlen]
  have hvalid8 : valid (v.1 ++ [msw + v.2]) := by
    intro w hw
    rcases List.mem_append.1 hw with hh | hh
    · exact hvvalid w hh
    · simp only [List.mem_singleton] at hh
      subst hh
      omega
  have hmvr : mval (v.1 ++ [msw + v.2]) = mval v.1 + 2 ^ 224 * (msw + v.2) := by
    rw [mval_append, hvlen, show W ^ 7 = 2 ^ 224 by norm_num [W]]
    simp [mval]
  have hv224 : mval v.1 + 2 ^ 224 * v.2 = c2 + mval u.1 := by
    rw [show W ^ 7 = 2 ^ 224 by norm_num [W]] at hv
    omega
  have hAB : mval t = mval a * mval (b0 :: bt) := by rw [htval]; ring
  have htsplit : mval t = mval (t.take 8) + 2 ^ 256 * mval (t.drop 8) := by
    conv_lhs => rw [← List.take_append_drop 8 t]
    rw [mval_append, htlo_len, show W ^ 8 = 2 ^ 256 by norm_num [W]]
  have hpsplit : pbig = msw + 2 ^ 31 * (pbig / 2 ^ 31) := by
    rw [hmswv]
    omega
  refine ⟨?_, hlen8, hvalid8, ?_⟩
  · -- congruence: r + k*p = a*b
    refine ⟨pbig / 2 ^ 31 + 2 * mval (t.drop 8), ?_⟩
    rw [hmvr, show P = 2 ^ 255 - 19 from rfl]
    omega
  · rw [hmvr, show P = 2 ^ 255 - 19 from rfl]
    omega


/-- Radix comparison: the top digit dominates. -/
theorem radix_lt (K x y X Y : Nat) (hX : X < K) (hY : Y < K) :
    (X + K * x < Y + K * y) ↔ (x < y ∨ (x = y ∧ X < Y)) := by
  constructor
  · intro h
    rcases Nat.lt_trichotomy x y with h1 | h1 | h1
    · exact Or.inl h1
    · subst h1
      right
      exact ⟨rfl, by omega⟩
    · exfalso
      have h2 : K * (y + 1) ≤ K * x := Nat.mul_le_mul_left _ (by omega)
      rw [Nat.mul_succ] at h2
      omega
  · intro h
    rcases h with h1 | ⟨h1, h2⟩
    · have h2 : K * (x + 1) ≤ K * y := Nat.mul_le_mul_left _ (by omega)
      rw [Nat.mul_succ] at h2
      omega
    · subst h1
      omega

theorem radix_eq (K x y X Y : Nat) (hX : X < K) (hY : Y < K) :
    (X + K * x = Y + K * y) ↔ (x = y ∧ X = Y) := by
  constructor
  · intro h
    rcases Nat.lt_trichotomy x y with h1 | h1 | h1
    · exfalso
      have h2 : K * (x + 1) ≤ K * y := Nat.mul_le_mul_left _ (by omega)
      rw [Nat.mul_succ] at h2
      omega
    · subst h1
      exact ⟨rfl, by omega⟩
    · exfalso
      have h2 : K * (y + 1) ≤ K * x := Nat.mul_le_mul_left _ (by omega)
      rw [Nat.mul_succ] at h2
      omega
  · rintro ⟨h1, h2⟩
    subst h1
    omega

/-- `mpi_cmp`'s loop is symmetric in its operands. -/
theorem cmpLoop_swap (a b : List Nat) :
    ∀ (i : Nat) (lt gt : Nat),
    cmpLoop a b i (lt, gt) = ((cmpLoop b a i (gt, lt)).2, (cmpLoop b a i (gt, lt)).1) := by
  intro i
  induction i with
  | zero => intro lt gt; rfl
  | succ i ih =>
    intro lt gt
    show cmpLoop a b i _ = _
    rw [ih]
    rfl

theorem take_succ_getD (a : List Nat) (i : Nat) (h : i < a.length) :
    a.take (i + 1) = a.take i ++ [a.getD i 0] := by
  rw [List.take_succ]
  congr 1
  rw [List.getD_eq_getElem a 0 h]
  simp [List.getElem?_eq_getElem h]

/-- Invariant of the `mpi_cmp` loop: the accumulators decide the
lexicographic (hence numeric) comparison of the processed prefixes. -/
theorem cmpLoop_spec (a b : List Nat) (ha : valid a) (hb : valid b) :
    ∀ (i : Nat) (lt gt : Nat), i ≤ 32 → i ≤ a.length → i ≤ b.length →
    lt < 2 ^ (32 - i) → gt < 2 ^ (32 - i) →
    ((cmpLoop a b i (lt, gt)).1 > (cmpLoop a b i (lt, gt)).2
      ↔ (lt > gt ∨ (lt = gt ∧ mval (a.take i) < mval (b.take i)))) ∧
    ((cmpLoop a b i (lt, gt)).1 = (cmpLoop a b i (lt, gt)).2
      ↔ (lt = gt ∧ mval (a.take i) = mval (b.take i))) := by
  intro i
  induction i with
  | zero =>
    intro lt gt _ _ _ _ _
    simp [cmpLoop, mval]
  | succ i ih =>
    intro lt gt h32 hla hlb hlt hgt
    have haiW : a.getD i 0 < W := valid_getD a i ha (by omega)
    have hbiW : b.getD i 0 < W := valid_getD b i hb (by omega)
    have hsh : ∀ z : Nat, z < 2 ^ (32 - (i + 1)) → ∀ c : Nat, c ≤ 1 →
        ((z <<< 1) % W) ||| c = 2 * z + c := by
      intro z hz c hc
      have hW : W = 4294967296 := rfl
      have h1 : (z <<< 1) % W = 2 * z := by
        rw [Nat.shiftLeft_eq, hW]
        have : 2 ^ (32 - (i + 1)) ≤ 2 ^ 31 := Nat.pow_le_pow_right (by norm_num) (by omega)
        omega
      rw [h1]
      calc 2 * z ||| c = 2 ^ 1 * z ||| c := by norm_num
        _ = 2 ^ 1 * z + c := ((Nat.mul_add_lt_is_or (by omega) z)).symm
        _ = 2 * z + c := by norm_num
    have hcl : ∀ c : Nat, c ≤ 1 → c < 2 ^ (32 - i) := by
      intro c hc
      have : (1 : Nat) ≤ 2 ^ (32 - i) := Nat.one_le_two_pow
      have h2 : 2 ^ (32 - i) ≠ 1 → 2 ^ (32 - i) ≥ 2 := by
        intro hne
        rcases Nat.lt_or_ge (2 ^ (32 - i)) 2 with hx | hx
        · interval_cases (2 ^ (32 - i)) <;> omega
        · exact hx
      rcases Nat.eq_or_lt_of_le (show 32 - (i + 1) + 1 ≤ 32 - i by omega) with he | he
      · have : 2 ≤ 2 ^ (32 - i) := by
          calc (2 : Nat) = 2 ^ 1 := rfl
            _ ≤ 2 ^ (32 - i) := Nat.pow_le_pow_right (by norm_num) (by omega)
        omega
      · omega
    have hz2 : ∀ z : Nat, z < 2 ^ (32 - (i + 1)) → ∀ c : Nat, c ≤ 1 →
        2 * z + c < 2 ^ (32 - i) := by
      intro z hz c hc
      have he : 32 - i = (32 - (i + 1)) + 1 := by omega
      rw [he, pow_succ]
      omega
    set ca : Nat := if a.getD i 0 < b.getD i 0 then 1 else 0 with hca
    set cb : Nat := if a.getD i 0 > b.getD i 0 then 1 else 0 with hcb
    have hca1 : ca ≤ 1 := by rw [hca]; split <;> omega
    have hcb1 : cb ≤ 1 := by rw [hcb]; split <;> omega
    have hstep : cmpLoop a b (i + 1) (lt, gt)
        = cmpLoop a b i (2 * lt + ca, 2 * gt + cb) := by
      show cmpLoop a b i (((lt <<< 1) % W) ||| ca, ((gt <<< 1) % W) ||| cb) = _
      rw [hsh lt hlt ca hca1, hsh gt hgt cb hcb1]
    rw [hstep]
    have hrec := ih (2 * lt + ca) (2 * gt + cb) (by omega) (by omega) (by omega)
      (hz2 lt hlt ca hca1) (hz2 gt hgt cb hcb1)
    have htake_a := take_succ_getD a i (by omega)
    have htake_b := take_succ_getD b i (by omega)
    have hmta : mval (a.take (i + 1)) = mval (a.take i) + W ^ i * a.getD i 0 := by
      rw [htake_a, mval_append, show (a.take i).length = i by simp [List.length_take]; omega]
      simp [mval]
    have hmtb : mval (b.take (i + 1)) = mval (b.take i) + W ^ i * b.getD i 0 := by
      rw [htake_b, mval_append, show (b.take i).length = i by simp [List.length_take]; omega]
      simp [mval]
    have hmalt : mval (a.take i) < W ^ i := by
      have := mval_lt (a.take i) (valid_take a i ha)
      rwa [show (a.take i).length = i by simp [List.length_take]; omega] at this
    have hmblt : mval (b.take i) < W ^ i := by
      have := mval_lt (b.take i) (valid_take b i hb)
      rwa [show (b.take i).length = i by simp [List.length_take]; omega] at this
    have hvlt := radix_lt (W ^ i) (a.getD i 0) (b.getD i 0)
      (mval (a.take i)) (mval (b.take i)) hmalt hmblt
    have hveq := radix_eq (W ^ i) (a.getD i 0) (b.getD i 0)
      (mval (a.take i)) (mval (b.take i)) hmalt hmblt
    constructor
    · rw [hrec.1, hmta, hmtb]
      rw [Nat.mul_comm (W ^ i) (a.getD i 0), Nat.mul_comm (W ^ i) (b.getD i 0)] at hvlt ⊢
      rw [hvlt]
      rw [hca, hcb]
      rcases Nat.lt_trichotomy (a.getD i 0) (b.getD i 0) with hw | hw | hw
      · rw [if_pos hw, if_neg (Nat.lt_asymm hw)]
        omega
      · rw [if_neg (by omega : ¬ a.getD i 0 < b.getD i 0),
            if_neg (by omega : ¬ a.getD i 0 > b.getD i 0)]
        omega
      · rw [if_neg (Nat.lt_asymm hw), if_pos hw]
        omega
    · rw [hrec.2, hmta, hmtb]
      rw [Nat.mul_comm (W ^ i) (a.getD i 0), Nat.mul_comm (W ^ i) (b.getD i 0)] at hveq ⊢
      rw [hveq]
      rw [hca, hcb]
      rcases Nat.lt_trichotomy (a.getD i 0) (b.getD i 0) with hw | hw | hw
      · rw [if_pos hw, if_neg (Nat.lt_asymm hw)]
        omega
      · rw [if_neg (by omega : ¬ a.getD i 0 < b.getD i 0),
            if_neg (by omega : ¬ a.getD i 0 > b.getD i 0)]
        omega
      · rw [if_neg (Nat.lt_asymm hw), if_pos hw]
        omega

/-- Correctness of `mpi_cmp` on the first `len` words, for `len ≤ 32`:
it returns the sign of `a - b`. -/
theorem mpi_cmp_correct (a b : List Nat) (len : Nat) (ha : valid a) (hb : valid b)
    (h32 : len ≤ 32) (hla : len ≤ a.length) (hlb : len ≤ b.length) :
    mpi_cmp a b len
      = if mval (a.take len) < mval (b.take len) then -1
        else if mval (a.take len) = mval (b.take len) then 0 else 1 := by
  have hpos : (0 : Nat) < 2 ^ (32 - len) := Nat.pos_pow_of_pos _ (by norm_num)
  have hspec := cmpLoop_spec a b ha hb len 0 0 h32 hla hlb hpos hpos
  have hswap := cmpLoop_swap a b len 0 0
  have hspec2 := cmpLoop_spec b a hb ha len 0 0 h32 hlb hla hpos hpos
  simp only [mpi_cmp]
  rcases Nat.lt_trichotomy (mval (a.take len)) (mval (b.take len)) with hc | hc | hc
  · have h1 : (cmpLoop a b len (0, 0)).1 > (cmpLoop a b len (0, 0)).2 :=
      hspec.1.2 (Or.inr ⟨rfl, hc⟩)
    rw [if_pos hc]
    rw [if_neg (by omega), if_pos h1]
    rfl
  · have h1 : (cmpLoop a b len (0, 0)).1 = (cmpLoop a b len (0, 0)).2 :=
      hspec.2.2 ⟨rfl, hc⟩
    rw [if_neg (by omega), if_pos hc]
    rw [if_neg (by omega), if_neg (by omega)]
    rfl
  · have h1 : (cmpLoop b a len (0, 0)).1 > (cmpLoop b a len (0, 0)).2 :=
      hspec2.1.2 (Or.inr ⟨rfl, hc⟩)
    have h2 : (cmpLoop a b len (0, 0)).2 = (cmpLoop b a len (0, 0)).1 := by rw [hswap]
    have h3 : (cmpLoop a b len (0, 0)).1 = (cmpLoop b a len (0, 0)).2 := by rw [hswap]
    rw [if_neg (show ¬ mval (a.take len) < mval (b.take len) by omega),
        if_neg (show ¬ mval (a.take len) = mval (b.take len) by omega),
        if_pos (show (cmpLoop a b len (0, 0)).2 > (cmpLoop a b len (0, 0)).1 by omega),
        if_neg (show ¬ (cmpLoop a b len (0, 0)).1 > (cmpLoop a b len (0, 0)).2 by omega)]
    rfl


theorem getD0_le_mval_take (a : List Nat) (m : Nat) (h1 : 1 ≤ m) :
    a.getD 0 0 ≤ mval (a.take m) := by
  cases a with
  | nil => simp [List.getD]
  | cons x t =>
    obtain ⟨k, rfl⟩ : ∃ k, m = k + 1 := ⟨m - 1, by omega⟩
    show x ≤ mval (x :: t.take k)
    rw [mval_cons]
    omega

theorem mval_take_eq_head (a : List Nat) :
    ∀ len : Nat, 1 ≤ len → len ≤ a.length →
    (mval (a.take len) = a.getD 0 0 ↔ ∀ j, 1 ≤ j → j < len → a.getD j 0 = 0) := by
  intro len
  induction len with
  | zero => intro h; omega
  | succ k ih =>
    intro _ hl
    rcases Nat.eq_zero_or_pos k with hk | hk
    · subst hk
      cases a with
      | nil => simp at hl
      | cons x t =>
        show mval [x] = x ↔ _
        constructor
        · intro _ j hj1 hj2
          omega
        · intro _
          show x + W * mval [] = x
          simp [mval]
    · have hih := ih hk (by omega)
      rw [take_succ_getD a k (by omega)]
      rw [mval_append, show (a.take k).length = k by simp [List.length_take]; omega]
      have hle : a.getD 0 0 ≤ mval (a.take k) := getD0_le_mval_take a k hk
      have hmul : mval [a.getD k 0] = a.getD k 0 := by simp [mval]
      rw [hmul]
      constructor
      · intro h
        have hz : W ^ k * a.getD k 0 = 0 := by omega
        have hk0 : a.getD k 0 = 0 := by
          rcases Nat.mul_eq_zero.mp hz with h' | h'
          · have : 0 < W ^ k := Nat.pos_pow_of_pos k (by norm_num [W])
            omega
          · exact h'
        have hm : mval (a.take k) = a.getD 0 0 := by omega
        intro j hj1 hj2
        rcases Nat.lt_or_ge j k with hj | hj
        · exact (hih.mp hm) j hj1 hj
        · have : j = k := by omega
          rw [this]
          exact hk0
      · intro h
        have hk0 : a.getD k 0 = 0 := h k hk (by omega)
        have hm : mval (a.take k) = a.getD 0 0 :=
          hih.mpr (fun j hj1 hj2 => h j hj1 (by omega))
        rw [hk0, hm]
        ring

theorem lor_eq_zero_iff (x y : Nat) : x ||| y = 0 ↔ x = 0 ∧ y = 0 := by
  constructor
  · intro h
    constructor
    · apply Nat.eq_of_testBit_eq
      intro i
      have ht : (x ||| y).testBit i = false := by rw [h]; simp
      rw [Nat.testBit_or] at ht
      simp at ht ⊢
      exact ht.1
    · apply Nat.eq_of_testBit_eq
      intro i
      have ht : (x ||| y).testBit i = false := by rw [h]; simp
      rw [Nat.testBit_or] at ht
      simp at ht ⊢
      exact ht.2
  · rintro ⟨rfl, rfl⟩
    rfl

theorem is0Loop_eq_zero_iff (a : List Nat) :
    ∀ k : Nat, (is0Loop a k = 0 ↔ ∀ j, 1 ≤ j → j ≤ k → a.getD j 0 = 0) := by
  intro k
  induction k with
  | zero =>
    constructor
    · intro _ j hj1 hj2
      omega
    · intro _
      rfl
  | succ k ih =>
    show is0Loop a k ||| a.getD (k + 1) 0 = 0 ↔ _
    rw [lor_eq_zero_iff, ih]
    constructor
    · rintro ⟨hz, hk⟩ j hj1 hj2
      rcases Nat.lt_or_ge j (k + 1) with hj | hj
      · exact hz j hj1 (by omega)
      · have : j = k + 1 := by omega
        rw [this]
        exact hk
    · intro h
      exact ⟨fun j hj1 hj2 => h j hj1 (by omega), h (k + 1) (by omega) (by omega)⟩

/-- `mpi_cmpw` returns 0 exactly when the word comparison verdicts match:
`a[0] = b` and all higher words of `a` (below `len`) are zero. -/
theorem mpi_cmpw_eq_zero_iff (a : List Nat) (b len : Nat)
    (h1 : 1 ≤ len) (hl : len ≤ a.length) (hb : b < W) :
    (mpi_cmpw a b len = 0 ↔ mval (a.take len) = b) := by
  have hbr : mpi_cmpw a b len = 0 ↔ (a.getD 0 0 = b ∧ is0Loop a (len - 1) = 0) := by
    by_cases hgt : b > a.getD 0 0 <;> by_cases hlt : b < a.getD 0 0 <;>
      by_cases hz : is0Loop a (len - 1) = 0 <;>
      simp [mpi_cmpw, hgt, hlt, hz] <;> omega
  rw [hbr]
  constructor
  · rintro ⟨hab, hz⟩
    have hj := (is0Loop_eq_zero_iff a (len - 1)).mp hz
    have hm := (mval_take_eq_head a len h1 hl).mpr (fun j hj1 hj2 => hj j hj1 (by omega))
    omega
  · intro hv
    cases a with
    | nil => simp at hl; omega
    | cons x t =>
      obtain ⟨k, rfl⟩ : ∃ k, len = k + 1 := ⟨len - 1, by omega⟩
      have hx : (x :: t).getD 0 0 = x := rfl
      have hsplit : mval ((x :: t).take (k + 1)) = x + W * mval (t.take k) := by
        rw [List.take_succ_cons, mval_cons]
      rcases Nat.eq_zero_or_pos (mval (t.take k)) with h0 | hpos
      · have hxb : x = b := by
          rw [hsplit, h0, Nat.mul_zero] at hv
          omega
        have hm : mval ((x :: t).take (k + 1)) = (x :: t).getD 0 0 := by
          rw [hsplit, h0, Nat.mul_zero, hx]
          omega
        have hzero := (mval_take_eq_head (x :: t) (k + 1) h1 hl).mp hm
        refine ⟨by rw [hx, hxb], ?_⟩
        exact (is0Loop_eq_zero_iff (x :: t) k).mpr
          (fun j hj1 hj2 => hzero j hj1 (by omega))
      · exfalso
        have : W ≤ W * mval (t.take k) := Nat.le_mul_of_pos_right W hpos
        rw [hsplit] at hv
        omega


theorem getLastD_lt_W (t : List Nat) (ht : valid t) : t.getLast?.getD 0 < W := by
  rcases h : t.getLast? with _ | x
  · simp [W]
  · have hx : x ∈ t := List.mem_of_getLast?_eq_some h
    simpa using ht x hx

/-- `mpi_shr` halves the value of the `len`-word prefix and returns the
shifted-out bit; the result has `len` words, all reduced. -/
theorem mpi_shr_spec (a : List Nat) (len : Nat) (ha : valid a)
    (h1 : 1 ≤ len) (hl : len ≤ a.length) :
    mval (mpi_shr a len).1 = mval (a.take len) / 2 ∧
    (mpi_shr a len).2 = mval (a.take len) % 2 ∧
    (mpi_shr a len).1.length = len ∧ valid (mpi_shr a len).1 := by
  have hlt : (a.take len).length = len := by simp [List.length_take]; omega
  have htv : valid (a.take len) := valid_take a len ha
  have htne : a.take len ≠ [] := by
    intro h
    rw [h] at hlt
    simp at hlt
    omega
  have hshift : (a.take len).getLast?.getD 0 >>> 1 = (a.take len).getLast?.getD 0 / 2 := by
    rw [Nat.shiftRight_eq_div_pow]
  refine ⟨?_, ?_, ?_, ?_⟩
  · show mval (pairShift (a.take len) ++ [(a.take len).getLast?.getD 0 >>> 1]) = _
    rw [hshift]
    exact shr_val (a.take len) htv htne
  · show a.getD 0 0 &&& 1 = mval (a.take len) % 2
    rw [Nat.and_one_is_mod]
    cases a with
    | nil => simp at hl; omega
    | cons x t =>
      obtain ⟨k, rfl⟩ : ∃ k, len = k + 1 := ⟨len - 1, by omega⟩
      show x % 2 = mval (x :: t.take k) % 2
      rw [mval_cons]
      have h2 : W * mval (t.take k) = 2 * (2147483648 * mval (t.take k)) := by
        rw [show W = 2 * 2147483648 from rfl]
        ring
      omega
  · show (pairShift (a.take len) ++ [(a.take len).getLast?.getD 0 >>> 1]).length = len
    rw [List.length_append, pairShift_length, hlt]
    simp
    omega
  · show valid (pairShift (a.take len) ++ [(a.take len).getLast?.getD 0 >>> 1])
    intro w hw
    rcases List.mem_append.mp hw with h | h
    · exact pairShift_valid (a.take len) htv w h
    · have : w = (a.take len).getLast?.getD 0 >>> 1 := by simpa using h
      rw [this, hshift]
      have := getLastD_lt_W (a.take len) htv
      omega

theorem powModAux_eq (m : Nat) :
    ∀ (fuel a e : Nat), e < 2 ^ fuel → powModAux m a fuel e = a ^ e % m := by
  intro fuel
  induction fuel with
  | zero =>
    intro a e he
    have h0 : e = 0 := by
      have : (2 : Nat) ^ 0 = 1 := rfl
      omega
    subst h0
    simp [powModAux]
  | succ fuel ih =>
    intro a e he
    show powModAux m a (fuel + 1) e = a ^ e % m
    rw [powModAux]
    by_cases h0 : e = 0
    · subst h0
      simp
    · rw [if_neg h0]
      have hlt : e / 2 < 2 ^ fuel := by
        rw [pow_succ] at he
        omega
      have hrec := ih ((a * a) % m) (e / 2) hlt
      have hpow : ((a * a) % m) ^ (e / 2) % m = a ^ (2 * (e / 2)) % m := by
        rw [← Nat.pow_mod, pow_mul, pow_two]
      by_cases hpar : e % 2 = 1
      · simp only [if_pos hpar]
        rw [hrec, hpow]
        have he2 : e = 2 * (e / 2) + 1 := by omega
        calc a * (a ^ (2 * (e / 2)) % m) % m
            = (a % m) * (a ^ (2 * (e / 2)) % m % m) % m := by rw [Nat.mul_mod]
          _ = (a % m) * (a ^ (2 * (e / 2)) % m) % m := by
              rw [Nat.mod_mod_of_dvd _ dvd_rfl]
          _ = a * a ^ (2 * (e / 2)) % m := by rw [← Nat.mul_mod]
          _ = a ^ e % m := by rw [← pow_succ', ← he2]
      · simp only [if_neg hpar]
        rw [hrec, hpow]
        have he2 : 2 * (e / 2) = e := by omega
        rw [he2]

theorem powEqOne_iff (p w e : Nat) :
    ((w : ZMod p) ^ e = 1) ↔ w ^ e % p = 1 % p := by
  rw [show (1 : ZMod p) = ((1 : ℕ) : ZMod p) by norm_num, ← Nat.cast_pow,
    ZMod.natCast_eq_natCast_iff']

theorem prattCert (p w : Nat) (qs : List Nat) (hsz : p - 1 < 2 ^ 256)
    (hcov : ∀ r : Nat, r.Prime → r ∣ (p - 1) → r ∈ qs)
    (hferm : powModAux p w 256 (p - 1) = 1 % p)
    (hqs : ∀ q ∈ qs, powModAux p w 256 ((p - 1) / q) ≠ 1 % p) :
    p.Prime := by
  apply lucas_primality p (w : ZMod p)
  · rw [powEqOne_iff, ← powModAux_eq p 256 w (p - 1) hsz]
    exact hferm
  · intro q hq hdvd
    have hlt : (p - 1) / q < 2 ^ 256 := lt_of_le_of_lt (Nat.div_le_self _ _) hsz
    rw [Ne, powEqOne_iff, ← powModAux_eq p 256 w _ hlt]
    exact hqs q (hcov q hq hdvd)

theorem prime_V10 : Nat.Prime 2773320623 := by
  have hp2437 : Nat.Prime 2437 := by norm_num
  have hp569003 : Nat.Prime 569003 := by norm_num
  apply prattCert 2773320623 5 [2, 2437, 569003] (by norm_num)
  · intro r hr hdvd
    have heq : (2773320623 : Nat) - 1 = 2 * (2437 * 569003) := by norm_num
    rw [heq] at hdvd
    rcases (Nat.Prime.dvd_mul hr).mp hdvd with h | hdvd
    · rw [(Nat.prime_dvd_prime_iff_eq hr Nat.prime_two).mp h]
      decide
    rcases (Nat.Prime.dvd_mul hr).mp hdvd with h | hdvd
    · rw [(Nat.prime_dvd_prime_iff_eq hr hp2437).mp h]
      decide
    have h := hdvd
    rw [(Nat.prime_dvd_prime_iff_eq hr hp569003).mp h]
    decide
  · decide
  · decide

theorem prime_U11 : Nat.Prime 72106336199 := by
  have hp13 : Nat.Prime 13 := by norm_num
  apply prattCert 72106336199 7 [2, 13, 2773320623] (by norm_num)
  · intro r hr hdvd
    have heq : (72106336199 : Nat) - 1 = 2 * (13 * 2773320623) := by norm_num
    rw [heq] at hdvd
    rcases (Nat.Prime.dvd_mul hr).mp hdvd with h | hdvd
    · rw [(Nat.prime_dvd_prime_iff_eq hr Nat.prime_two).mp h]
      decide
    rcases (Nat.Prime.dvd_mul hr).mp hdvd with h | hdvd
    · rw [(Nat.prime_dvd_prime_iff_eq hr hp13).mp h]
      decide
    have h := hdvd
    rw [(Nat.prime_dvd_prime_iff_eq hr prime_V10).mp h]
    decide
  · decide
  · decide

theorem prime_T16 : Nat.Prime 1919519569386763 := by
  have hp7 : Nat.Prime 7 := by norm_num
  have hp19 : Nat.Prime 19 := by norm_num
  have hp47 : Nat.Prime 47 := by norm_num
  have hp127 : Nat.Prime 127 := by norm_num
  have hp8574133 : Nat.Prime 8574133 := by norm_num
  apply prattCert 1919519569386763 2 [2, 3, 7, 19, 47, 127, 8574133] (by norm_num)
  · intro r hr hdvd
    have heq : (1919519569386763 : Nat) - 1 = 2 * (3 * (7 * (19 * (47 ^ 2 * (127 * 8574133))))) := by norm_num
    rw [heq] at hdvd
    rcases (Nat.Prime.dvd_mul hr).mp hdvd with h | hdvd
    · rw [(Nat.prime_dvd_prime_iff_eq hr Nat.prime_two).mp h]
      decide
    rcases (Nat.Prime.dvd_mul hr).mp hdvd with h | hdvd
    · rw [(Nat.prime_dvd_prime_iff_eq hr Nat.prime_three).mp h]
      decide
    rcases (Nat.Prime.dvd_mul hr).mp hdvd with h | hdvd
    · rw [(Nat.prime_dvd_prime_iff_eq hr hp7).mp h]
      decide
    rcases (Nat.Prime.dvd_mul hr).mp hdvd with h | hdvd
    · rw [(Nat.prime_dvd_prime_iff_eq hr hp19).mp h]
      decide
    rcases (Nat.Prime.dvd_mul hr).mp hdvd with h | hdvd
    · rw [(Nat.prime_dvd_prime_iff_eq hr hp47).mp (hr.dvd_of_dvd_pow h)]
      decide
    rcases (Nat.Prime.dvd_mul hr).mp hdvd with h | hdvd
    · rw [(Nat.prime_dvd_prime_iff_eq hr hp127).mp h]
      decide
    have h := hdvd
    rw [(Nat.prime_dvd_prime_iff_eq hr hp8574133).mp h]
    decide
  · decide
  · decide

theorem prime_S17 : Nat.Prime 31757755568855353 := by
  have hp31 : Nat.Prime 31 := by norm_num
  have hp107 : Nat.Prime 107 := by norm_num
  have hp223 : Nat.Prime 223 := by norm_num
  have hp4153 : Nat.Prime 4153 := by norm_num
  have hp430751 : Nat.Prime 430751 := by norm_num
  apply prattCert 31757755568855353 10 [2, 3, 31, 107, 223, 4153, 430751] (by norm_num)
  · intro r hr hdvd
    have heq : (31757755568855353 : Nat) - 1 = 2 ^ 3 * (3 * (31 * (107 * (223 * (4153 * 430751))))) := by norm_num
    rw [heq] at hdvd
    rcases (Nat.Prime.dvd_mul hr).mp hdvd with h | hdvd
    · rw [(Nat.prime_dvd_prime_iff_eq hr Nat.prime_two).mp (hr.dvd_of_dvd_pow h)]
      decide
    rcases (Nat.Prime.dvd_mul hr).mp hdvd with h | hdvd
    · rw [(Nat.prime_dvd_prime_iff_eq hr Nat.prime_three).mp h]
      decide
    rcases (Nat.Prime.dvd_mul hr).mp hdvd with h | hdvd
    · rw [(Nat.prime_dvd_prime_iff_eq hr hp31).mp h]
      decide
    rcases (Nat.Prime.dvd_mul hr).mp hdvd with h | hdvd
    · rw [(Nat.prime_dvd_prime_iff_eq hr hp107).mp h]
      decide
    rcases (Nat.Prime.dvd_mul hr).mp hdvd with h | hdvd
    · rw [(Nat.prime_dvd_prime_iff_eq hr hp223).mp h]
      decide
    rcases (Nat.Prime.dvd_mul hr).mp hdvd with h | hdvd
    · rw [(Nat.prime_dvd_prime_iff_eq hr hp4153).mp h]
      decide
    have h := hdvd
    rw [(Nat.prime_dvd_prime_iff_eq hr hp430751).mp h]
    decide
  · decide
  · decide

theorem prime_R35 : Nat.Prime 75445702479781427272750846543864801 := by
  have hp5 : Nat.Prime 5 := by norm_num
  have hp75707 : Nat.Prime 75707 := by norm_num
  apply prattCert 75445702479781427272750846543864801 7 [2, 3, 5, 75707, 72106336199, 1919519569386763] (by norm_num)
  · intro r hr hdvd
    have heq : (75445702479781427272750846543864801 : Nat) - 1 = 2 ^ 5 * (3 ^ 2 * (5 ^ 2 * (75707 * (72106336199 * 1919519569386763)))) := by norm_num
    rw [heq] at hdvd
    rcases (Nat.Prime.dvd_mul hr).mp hdvd with h | hdvd
    · rw [(Nat.prime_dvd_prime_iff_eq hr Nat.prime_two).mp (hr.dvd_of_dvd_pow h)]
      decide
    rcases (Nat.Prime.dvd_mul hr).mp hdvd with h | hdvd
    · rw [(Nat.prime_dvd_prime_iff_eq hr Nat.prime_three).mp (hr.dvd_of_dvd_pow h)]
      decide
    rcases (Nat.Prime.dvd_mul hr).mp hdvd with h | hdvd
    · rw [(Nat.prime_dvd_prime_iff_eq hr hp5).mp (hr.dvd_of_dvd_pow h)]
      decide
    rcases (Nat.Prime.dvd_mul hr).mp hdvd with h | hdvd
    · rw [(Nat.prime_dvd_prime_iff_eq hr hp75707).mp h]
      decide
    rcases (Nat.Prime.dvd_mul hr).mp hdvd with h | hdvd
    · rw [(Nat.prime_dvd_prime_iff_eq hr prime_U11).mp h]
      decide
    have h := hdvd
    rw [(Nat.prime_dvd_prime_iff_eq hr prime_T16).mp h]
    decide
  · decide
  · decide

theorem prime_Q71 : Nat.Prime 74058212732561358302231226437062788676166966415465897661863160754340907 := by
  have hp353 : Nat.Prime 353 := by norm_num
  have hp57467 : Nat.Prime 57467 := by norm_num
  have hp132049 : Nat.Prime 132049 := by norm_num
  have hp1923133 : Nat.Prime 1923133 := by norm_num
  apply prattCert 74058212732561358302231226437062788676166966415465897661863160754340907 2 [2, 3, 353, 57467, 132049, 1923133, 31757755568855353, 75445702479781427272750846543864801] (by norm_num)
  · intro r hr hdvd
    have heq : (74058212732561358302231226437062788676166966415465897661863160754340907 : Nat) - 1 = 2 * (3 * (353 * (57467 * (132049 * (1923133 * (31757755568855353 * 75445702479781427272750846543864801)))))) := by norm_num
    rw [heq] at hdvd
    rcases (Nat.Prime.dvd_mul hr).mp hdvd with h | hdvd
    · rw [(Nat.prime_dvd_prime_iff_eq hr Nat.prime_two).mp h]
      decide
    rcases (Nat.Prime.dvd_mul hr).mp hdvd with h | hdvd
    · rw [(Nat.prime_dvd_prime_iff_eq hr Nat.prime_three).mp h]
      decide
    rcases (Nat.Prime.dvd_mul hr).mp hdvd with h | hdvd
    · rw [(Nat.prime_dvd_prime_iff_eq hr hp353).mp h]
      decide
    rcases (Nat.Prime.dvd_mul hr).mp hdvd with h | hdvd
    · rw [(Nat.prime_dvd_prime_iff_eq hr hp57467).mp h]
      decide
    rcases (Nat.Prime.dvd_mul hr).mp hdvd with h | hdvd
    · rw [(Nat.prime_dvd_prime_iff_eq hr hp132049).mp h]
      decide
    rcases (Nat.Prime.dvd_mul hr).mp hdvd with h | hdvd
    · rw [(Nat.prime_dvd_prime_iff_eq hr hp1923133).mp h]
      decide
    rcases (Nat.Prime.dvd_mul hr).mp hdvd with h | hdvd
    · rw [(Nat.prime_dvd_prime_iff_eq hr prime_S17).mp h]
      decide
    have h := hdvd
    rw [(Nat.prime_dvd_prime_iff_eq hr prime_R35).mp h]
    decide
  · decide
  · decide

theorem prime_PP : Nat.Prime 57896044618658097711785492504343953926634992332820282019728792003956564819949 := by
  have hp65147 : Nat.Prime 65147 := by norm_num
  apply prattCert 57896044618658097711785492504343953926634992332820282019728792003956564819949 2 [2, 3, 65147, 74058212732561358302231226437062788676166966415465897661863160754340907] (by norm_num)
  · intro r hr hdvd
    have heq : (57896044618658097711785492504343953926634992332820282019728792003956564819949 : Nat) - 1 = 2 ^ 2 * (3 * (65147 * 74058212732561358302231226437062788676166966415465897661863160754340907)) := by norm_num
    rw [heq] at hdvd
    rcases (Nat.Prime.dvd_mul hr).mp hdvd with h | hdvd
    · rw [(Nat.prime_dvd_prime_iff_eq hr Nat.prime_two).mp (hr.dvd_of_dvd_pow h)]
      decide
    rcases (Nat.Prime.dvd_mul hr).mp hdvd with h | hdvd
    · rw [(Nat.prime_dvd_prime_iff_eq hr Nat.prime_three).mp h]
      decide
    rcases (Nat.Prime.dvd_mul hr).mp hdvd with h | hdvd
    · rw [(Nat.prime_dvd_prime_iff_eq hr hp65147).mp h]
      decide
    have h := hdvd
    rw [(Nat.prime_dvd_prime_iff_eq hr prime_Q71).mp h]
    decide
  · decide
  · decide

/-- The modulus p = 2^255 - 19 of the field is prime (Pratt/Lucas
certificate chain checked by `powModAux`). -/
theorem P_prime : Nat.Prime P := by
  have h : P = 57896044618658097711785492504343953926634992332820282019728792003956564819949 := by
    norm_num [P]
  rw [h]
  exact prime_PP


theorem mval_take_drop (l : List Nat) (n : Nat) (h : n ≤ l.length) :
    mval l = mval (l.take n) + W ^ n * mval (l.drop n) := by
  conv_lhs => rw [← List.take_append_drop n l]
  rw [mval_append, show (l.take n).length = n by simp [List.length_take]; omega]

theorem mval_mod_two (u : List Nat) (h : 1 ≤ u.length) :
    mval u % 2 = u.getD 0 0 % 2 := by
  cases u with
  | nil => simp at h
  | cons x t =>
    show (x + W * mval t) % 2 = x % 2
    have h2 : W * mval t = 2 * (2147483648 * mval t) := by
      rw [show W = 2 * 2147483648 from rfl]
      ring
    omega

theorem valid_append (a b : List Nat) (ha : valid a) (hb : valid b) :
    valid (a ++ b) := by
  intro w hw
  rcases List.mem_append.mp hw with h | h
  · exact ha w h
  · exact hb w h

theorem P_pos : 0 < P := by norm_num [P]

theorem P_odd : P % 2 = 1 := by decide

/-- `2·hlv(x) = x + (x mod 2)·p` exactly over the naturals. -/
theorem hlv_two_mul (x : List Nat) (hx : valid x) (lx : x.length = 8) :
    2 * mval (gfp_hlv x) = mval x + mval x % 2 * P := by
  have h := (gfp_hlv_correct x hx lx).2.2.1
  rw [h]
  have hodd := P_odd
  have heven : (mval x + mval x % 2 * P) % 2 = 0 := by
    rcases Nat.even_or_odd (mval x) with he | ho
    · have h0 : mval x % 2 = 0 := Nat.even_iff.mp he
      rw [h0]
      omega
    · have h1 : mval x % 2 = 1 := Nat.odd_iff.mp ho
      rw [h1]
      omega
  set N := mval x + mval x % 2 * P with hN
  omega

/-- Additive form of the `gfp_sub` value identity over the naturals:
`r + q·p + b = a + 4p` for the top-word-derived quotient `q`. -/
theorem gfp_sub_nat_eq (a b : List Nat) (ha : valid a) (hb : valid b)
    (la : a.length = 8) (lb : b.length = 8) :
    ∃ q : Nat, mval (gfp_sub a b) + q * P + mval b = mval a + 4 * P := by
  have h := (gfp_sub_eq a b ha hb la lb).1
  have ha7 : a.getD 7 0 < W := valid_getD a 7 ha (by omega)
  have hb7 : b.getD 7 0 < W := valid_getD b 7 hb (by omega)
  set q : Int := (8589934588 + (a.getD 7 0 : Int) - b.getD 7 0) / 2 ^ 31 with hq
  have hqpos : 0 ≤ q := by
    apply Int.ediv_nonneg _ (by norm_num)
    have : (b.getD 7 0 : Int) < 4294967296 := by exact_mod_cast hb7
    omega
  refine ⟨q.toNat, ?_⟩
  have hqt : (q.toNat : Int) = q := Int.toNat_of_nonneg hqpos
  have hPi : (P : Int) = 57896044618658097711785492504343953926634992332820282019728792003956564819949 := by
    norm_num [P]
  have hPn : P = 57896044618658097711785492504343953926634992332820282019728792003956564819949 := by
    norm_num [P]
  rw [hPi] at h
  rw [hPn]
  omega

/-- In `ZMod p`, `gfp_sub` computes the difference. -/
theorem gfp_sub_zmod (a b : List Nat) (ha : valid a) (hb : valid b)
    (la : a.length = 8) (lb : b.length = 8) :
    ((mval (gfp_sub a b) : Nat) : ZMod P)
      = ((mval a : Nat) : ZMod P) - ((mval b : Nat) : ZMod P) := by
  obtain ⟨q, hnq⟩ := gfp_sub_nat_eq a b ha hb la lb
  generalize hgr : mval (gfp_sub a b) = r at hnq ⊢
  generalize hga : mval a = va at hnq ⊢
  generalize hgb : mval b = vb at hnq ⊢
  have hc : ((r + q * P + vb : Nat) : ZMod P) = ((va + 4 * P : Nat) : ZMod P) :=
    congrArg (Nat.cast : ℕ → ZMod P) hnq
  push_cast at hc
  rw [ZMod.natCast_self, mul_zero, add_zero] at hc
  exact eq_sub_iff_add_eq.mpr (by linear_combination hc)

theorem two_ne_zero_zmodP : (2 : ZMod P) ≠ 0 := by
  haveI : NeZero P := ⟨by norm_num [P]⟩
  have h2 : ((2 : ℕ) : ZMod P) ≠ 0 := by
    rw [Ne, ZMod.natCast_zmod_eq_zero_iff_dvd]
    intro hdvd
    have := Nat.le_of_dvd (by norm_num) hdvd
    rw [show P = 2 ^ 255 - 19 from rfl] at this
    omega
  rw [Nat.cast_ofNat] at h2
  exact h2

/-- In `ZMod p`, `gfp_hlv` halves. -/
theorem gfp_hlv_zmod (x : List Nat) (hx : valid x) (lx : x.length = 8) :
    (2 : ZMod P) * ((mval (gfp_hlv x) : Nat) : ZMod P) = ((mval x : Nat) : ZMod P) := by
  have h := hlv_two_mul x hx lx
  generalize hr : mval (gfp_hlv x) = r at h ⊢
  generalize hm : mval x = m at h ⊢
  have hc : ((2 * r : Nat) : ZMod P) = ((m + m % 2 * P : Nat) : ZMod P) :=
    congrArg (Nat.cast : ℕ → ZMod P) h
  rw [Nat.cast_mul, Nat.cast_add, Nat.cast_mul, ZMod.natCast_self, mul_zero, add_zero,
    Nat.cast_ofNat] at hc
  exact hc


/-- The halving loop of `gfp_inv` terminates (with fuel exceeding the value)
on an odd value, preserving shape, the high-zero region, divisibility of the
working value and the extended-Euclid congruence. -/
theorem invShrLoop_spec (A uvlen : Nat) (h1 : 1 ≤ uvlen) (h8 : uvlen ≤ 8) :
    ∀ (fuel : Nat) (u x : List Nat),
    u.length = 8 → valid u → mval (u.drop uvlen) = 0 → 1 ≤ mval u →
    x.length = 8 → valid x →
    ((A * mval x : Nat) : ZMod P) = ((mval u : Nat) : ZMod P) →
    mval u < fuel →
    ∃ u' x', invShrLoop uvlen fuel u x = some (u', x') ∧
      u'.length = 8 ∧ valid u' ∧ mval (u'.drop uvlen) = 0 ∧
      mval u' % 2 = 1 ∧ (∃ k, mval u = 2 ^ k * mval u') ∧
      x'.length = 8 ∧ valid x' ∧
      ((A * mval x' : Nat) : ZMod P) = ((mval u' : Nat) : ZMod P) := by
  intro fuel
  induction fuel with
  | zero =>
    intro u x _ _ _ hu1 _ _ _ hf
    omega
  | succ fuel ih =>
    intro u x hul huv hud hu1 hxl hxv hcong hf
    by_cases hev : u.getD 0 0 &&& 1 = 0
    · have hpar : mval u % 2 = 0 := by
        rw [mval_mod_two u (by omega)]
        rw [Nat.and_one_is_mod] at hev
        exact hev
      have hshr := mpi_shr_spec u uvlen huv h1 (by omega)
      set u1 := (mpi_shr u uvlen).1 ++ u.drop uvlen with hu1def
      have htd := mval_take_drop u uvlen (by omega)
      have hmtake : mval (u.take uvlen) = mval u := by
        rw [hud, Nat.mul_zero, Nat.add_zero] at htd
        omega
      have hval1 : mval u1 = mval u / 2 := by
        rw [hu1def, mval_append, hshr.2.2.1, hshr.1, hud, hmtake, Nat.mul_zero,
          Nat.add_zero]
      have hlen1 : u1.length = 8 := by
        rw [hu1def, List.length_append, hshr.2.2.1, List.length_drop, hul]
        omega
      have hvalid1 : valid u1 := valid_append _ _ hshr.2.2.2 (valid_drop u uvlen huv)
      have hdrop1 : mval (u1.drop uvlen) = 0 := by
        have hdl : u1.drop uvlen = u.drop uvlen := by
          rw [hu1def]
          calc ((mpi_shr u uvlen).1 ++ u.drop uvlen).drop uvlen
              = ((mpi_shr u uvlen).1 ++ u.drop uvlen).drop (mpi_shr u uvlen).1.length := by
                rw [hshr.2.2.1]
            _ = u.drop uvlen := List.drop_left _ _
        rw [hdl, hud]
      have hhlv := gfp_hlv_correct x hxv hxl
      have hz := gfp_hlv_zmod x hxv hxl
      have hcong1 : ((A * mval (gfp_hlv x) : Nat) : ZMod P)
          = ((mval u1 : Nat) : ZMod P) := by
        haveI : Fact (Nat.Prime P) := ⟨P_prime⟩
        have hz' := hz
        have hc' := hcong
        have hv' := hval1
        have hp' := hpar
        have h2 : (2 : ZMod P) * ((A * mval (gfp_hlv x) : Nat) : ZMod P)
            = (2 : ZMod P) * ((mval u1 : Nat) : ZMod P) := by
          generalize hXh : mval (gfp_hlv x) = Xh at hz' ⊢
          generalize hVx : mval x = Vx at hz' hc'
          generalize hVu : mval u = Vu at hc' hv' hp'
          generalize hV1 : mval u1 = V1 at hv' ⊢
          have h2v : 2 * V1 = Vu := by omega
          calc (2 : ZMod P) * ((A * Xh : Nat) : ZMod P)
              = ((A : Nat) : ZMod P) * ((2 : ZMod P) * ((Xh : Nat) : ZMod P)) := by
                push_cast
                ring
            _ = ((A : Nat) : ZMod P) * ((Vx : Nat) : ZMod P) := by rw [hz']
            _ = ((A * Vx : Nat) : ZMod P) := by push_cast; ring
            _ = ((Vu : Nat) : ZMod P) := hc'
            _ = ((2 * V1 : Nat) : ZMod P) := by rw [h2v]
            _ = (2 : ZMod P) * ((V1 : Nat) : ZMod P) := by push_cast; ring
        exact mul_left_cancel₀ two_ne_zero_zmodP h2
      have hstep : invShrLoop uvlen (fuel + 1) u x
          = invShrLoop uvlen fuel u1 (gfp_hlv x) := by
        simp only [invShrLoop]
        rw [if_pos hev]
      obtain ⟨u', x', heq, hl', hv', hd', ho', ⟨k, hk⟩, hxl', hxv', hc'⟩ :=
        ih u1 (gfp_hlv x) hlen1 hvalid1 hdrop1 (by omega) hhlv.1 hhlv.2.1 hcong1
          (by omega)
      refine ⟨u', x', by rw [hstep]; exact heq, hl', hv', hd', ho', ⟨k + 1, ?_⟩,
        hxl', hxv', hc'⟩
      rw [pow_succ]
      have h2 : 2 * mval u1 = mval u := by omega
      calc mval u = 2 * mval u1 := h2.symm
        _ = 2 * (2 ^ k * mval u') := by rw [hk]
        _ = 2 ^ k * 2 * mval u' := by ring
    · refine ⟨u, x, ?_, hul, huv, hud, ?_, ⟨0, by ring⟩, hxl, hxv, hcong⟩
      · simp only [invShrLoop]
        rw [if_neg hev]
      · rw [mval_mod_two u (by omega)]
        rw [Nat.and_one_is_mod] at hev
        omega


/-- One iteration of `gfp_inv`'s main loop preserves the invariant and
strictly decreases the sum of the two working values. -/
theorem invLoop_step (A : Nat) (fuel : Nat) (s : InvState) (hs : InvGood A s)
    (hcond : mpi_cmpw s.ux 1 s.uvlen ≠ 0 ∧ mpi_cmpw s.vx 1 s.uvlen ≠ 0) :
    ∃ s' : InvState, invLoop (fuel + 1) s = invLoop fuel s' ∧ InvGood A s' ∧
      mval s'.ux + mval s'.vx < mval s.ux + mval s.vx := by
  obtain ⟨hul, hvl, hx1l, hx2l, huv, hvv, hx1v, hx2v, hlen1, hlen8, hdu, hdv,
    hu1, hv1, hgcd, hcu, hcv, hlog⟩ := hs
  obtain ⟨u, y1, hequ, hul2, huv2, hud2, hou, ⟨ku, hku⟩, hy1l, hy1v, hcu2⟩ :=
    invShrLoop_spec A s.uvlen hlen1 hlen8 (mval s.ux + 1) s.ux s.x1 hul huv hdu hu1
      hx1l hx1v hcu (by omega)
  obtain ⟨v, y2, heqv, hvl2, hvv2, hvd2, hov, ⟨kv, hkv⟩, hy2l, hy2v, hcv2⟩ :=
    invShrLoop_spec A s.uvlen hlen1 hlen8 (mval s.vx + 1) s.vx s.x2 hvl hvv hdv hv1
      hx2l hx2v hcv (by omega)
  have hu2pos : 1 ≤ mval u := by omega
  have hv2pos : 1 ≤ mval v := by omega
  have hWgt : (1 : Nat) < W := by norm_num [W]
  have hcmpwu := mpi_cmpw_eq_zero_iff s.ux 1 s.uvlen hlen1 (by omega) hWgt
  have hcmpwv := mpi_cmpw_eq_zero_iff s.vx 1 s.uvlen hlen1 (by omega) hWgt
  have htu : mval (s.ux.take s.uvlen) = mval s.ux := by
    have := mval_take_drop s.ux s.uvlen (by omega)
    rw [hdu, Nat.mul_zero, Nat.add_zero] at this
    omega
  have htv : mval (s.vx.take s.uvlen) = mval s.vx := by
    have := mval_take_drop s.vx s.uvlen (by omega)
    rw [hdv, Nat.mul_zero, Nat.add_zero] at this
    omega
  have hux_ne1 : mval s.ux ≠ 1 := by
    intro h
    exact hcond.1 (hcmpwu.mpr (by rw [htu, h]))
  have hvx_ne1 : mval s.vx ≠ 1 := by
    intro h
    exact hcond.2 (hcmpwv.mpr (by rw [htv, h]))
  have hdvdu : mval u ∣ mval s.ux := Dvd.intro_left _ hku.symm
  have hdvdv : mval v ∣ mval s.vx := Dvd.intro_left _ hkv.symm
  have hgcduv : Nat.gcd (mval u) (mval v) = 1 := by
    have hd : Nat.gcd (mval u) (mval v) ∣ Nat.gcd (mval s.ux) (mval s.vx) :=
      Nat.dvd_gcd (dvd_trans (Nat.gcd_dvd_left _ _) hdvdu)
        (dvd_trans (Nat.gcd_dvd_right _ _) hdvdv)
    rw [hgcd] at hd
    exact Nat.dvd_one.mp hd
  have hne : mval u ≠ mval v := by
    intro he
    have hgu : Nat.gcd (mval u) (mval v) = mval u := by rw [he, Nat.gcd_self]
    have hu_eq1 : mval u = 1 := by rw [← hgcduv, hgu]
    have hv_eq1 : mval v = 1 := by omega
    rw [hu_eq1, Nat.mul_one] at hku
    rw [hv_eq1, Nat.mul_one] at hkv
    rcases Nat.eq_zero_or_pos ku with hk0 | hkpos
    · rw [hk0, pow_zero] at hku
      exact hux_ne1 hku
    rcases Nat.eq_zero_or_pos kv with hk0 | hkpos2
    · rw [hk0, pow_zero] at hkv
      exact hvx_ne1 hkv
    have h2u : 2 ∣ mval s.ux := by
      rw [hku]
      exact dvd_pow_self 2 (by omega)
    have h2v : 2 ∣ mval s.vx := by
      rw [hkv]
      exact dvd_pow_self 2 (by omega)
    have h2g : 2 ∣ Nat.gcd (mval s.ux) (mval s.vx) := Nat.dvd_gcd h2u h2v
    rw [hgcd] at h2g
    omega
  have hcmp := mpi_cmp_correct u v s.uvlen huv2 hvv2 (by omega) (by omega) (by omega)
  have htu2 : mval (u.take s.uvlen) = mval u := by
    have := mval_take_drop u s.uvlen (by omega)
    rw [hud2, Nat.mul_zero, Nat.add_zero] at this
    omega
  have htv2 : mval (v.take s.uvlen) = mval v := by
    have := mval_take_drop v s.uvlen (by omega)
    rw [hvd2, Nat.mul_zero, Nat.add_zero] at this
    omega
  rw [htu2, htv2] at hcmp
  have hu0odd : u.getD 0 0 % 2 = 1 := by
    rw [← mval_mod_two u (by omega)]
    exact hou
  have hv0odd : v.getD 0 0 % 2 = 1 := by
    rw [← mval_mod_two v (by omega)]
    exact hov
  have hule : mval u ≤ mval s.ux := by
    rw [hku]
    exact Nat.le_mul_of_pos_left _ (Nat.pos_pow_of_pos _ (by norm_num))
  have hvle : mval v ≤ mval s.vx := by
    rw [hkv]
    exact Nat.le_mul_of_pos_left _ (Nat.pos_pow_of_pos _ (by norm_num))
  by_cases hbr : mpi_cmp u v s.uvlen ≥ 0
  · -- ux-branch: ux := u - v, x1 := x1 - x2
    have hvleu : mval v ≤ mval u := by
      by_contra hlt
      push_neg at hlt
      rw [if_pos hlt] at hcmp
      rw [hcmp] at hbr
      norm_num at hbr
    have hvltu : mval v < mval u := lt_of_le_of_ne hvleu (Ne.symm hne)
    have hlsub : (u.take s.uvlen).length = (v.take s.uvlen).length := by
      simp [List.length_take, hul2, hvl2]
    have hsub := mpi_sub_val (u.take s.uvlen) (v.take s.uvlen) (valid_take _ _ huv2)
      (valid_take _ _ hvv2) hlsub
    rw [htu2, htv2] at hsub
    have hbor : (mpi_sub (u.take s.uvlen) (v.take s.uvlen)).2 = 0 := by
      rw [hsub.2, if_neg (by omega)]
    have hsubval : mval (mpi_sub (u.take s.uvlen) (v.take s.uvlen)).1
        = mval u - mval v := by
      have h := hsub.1
      rw [hbor, Nat.mul_zero, Nat.add_zero] at h
      omega
    have hslen : (mpi_sub (u.take s.uvlen) (v.take s.uvlen)).1.length = s.uvlen := by
      rw [mpi_sub_length _ _ hlsub, List.length_take, hul2]
      omega
    set u2 := (mpi_sub (u.take s.uvlen) (v.take s.uvlen)).1 ++ u.drop s.uvlen with hu2d
    have hu2len : u2.length = 8 := by
      rw [hu2d, List.length_append, hslen, List.length_drop, hul2]
      omega
    have hu2v : valid u2 := valid_append _ _ (mpi_sub_valid _ _) (valid_drop _ _ huv2)
    have hu2drop : mval (u2.drop s.uvlen) = 0 := by
      have hdl : u2.drop s.uvlen = u.drop s.uvlen := by
        calc u2.drop s.uvlen
            = ((mpi_sub (u.take s.uvlen) (v.take s.uvlen)).1 ++ u.drop s.uvlen).drop
                ((mpi_sub (u.take s.uvlen) (v.take s.uvlen)).1.length) := by
              rw [hu2d, hslen]
          _ = u.drop s.uvlen := List.drop_left _ _
      rw [hdl, hud2]
    have hu2val : mval u2 = mval u - mval v := by
      rw [hu2d, mval_append, hslen, hsubval, hud2, Nat.mul_zero, Nat.add_zero]
    have hsubz := gfp_sub_zmod y1 y2 hy1v hy2v hy1l hy2l
    have hsubl := (gfp_sub_eq y1 y2 hy1v hy2v hy1l hy2l).2.1
    have hsubvv := (gfp_sub_eq y1 y2 hy1v hy2v hy1l hy2l).2.2.1
    have hcongnew : ((A * mval (gfp_sub y1 y2) : Nat) : ZMod P)
        = ((mval u2 : Nat) : ZMod P) := by
      have h1 := hcu2
      have h2 := hcv2
      have h3 := hsubz
      have h4 := hu2val
      have h5 := hvleu
      generalize hXs : mval (gfp_sub y1 y2) = Xs at h3 ⊢
      generalize hX1 : mval y1 = X1 at h3 h1
      generalize hX2 : mval y2 = X2 at h3 h2
      generalize hU : mval u = U at h1 h4 h5
      generalize hV : mval v = V at h2 h4 h5
      generalize hU2 : mval u2 = U2 at h4 ⊢
      subst h4
      calc ((A * Xs : Nat) : ZMod P)
          = ((A : Nat) : ZMod P) * ((Xs : Nat) : ZMod P) := by push_cast; ring
        _ = ((A : Nat) : ZMod P) * (((X1 : Nat) : ZMod P) - ((X2 : Nat) : ZMod P)) := by
            rw [h3]
        _ = ((A * X1 : Nat) : ZMod P) - ((A * X2 : Nat) : ZMod P) := by push_cast; ring
        _ = ((U : Nat) : ZMod P) - ((V : Nat) : ZMod P) := by rw [h1, h2]
        _ = ((U - V : Nat) : ZMod P) := by rw [Nat.cast_sub h5]
    have hgcdnew : Nat.gcd (mval u2) (mval v) = 1 := by
      rw [hu2val, Nat.gcd_sub_self_left hvleu]
      exact hgcduv
    refine ⟨⟨u2, v,
      gfp_sub y1 y2, y2,
      if u2.getD (s.uvlen - 1) 0 = 0 ∧ v.getD (s.uvlen - 1) 0 = 0
        then s.uvlen - 1 else s.uvlen,
      s.log ++ [s.uvlen]⟩, ?_, ?_, ?_⟩
    · simp only [invLoop, if_pos hcond, hequ, heqv, ge_iff_le, if_pos hbr]
    · refine ⟨hu2len, hvl2, hsubl, hy2l, hu2v, hvv2, hsubvv, hy2v, ?_, ?_, ?_, ?_,
        show 1 ≤ mval u2 by omega, hv2pos, hgcdnew, hcongnew, hcv2, ?_⟩
      · show 1 ≤ if u2.getD (s.uvlen - 1) 0 = 0 ∧ v.getD (s.uvlen - 1) 0 = 0
            then s.uvlen - 1 else s.uvlen
        split
        next h =>
          rcases Nat.lt_or_ge 1 s.uvlen with h2 | h2
          · omega
          · exfalso
            have he1 : s.uvlen = 1 := by omega
            rw [he1, Nat.sub_self] at h
            have hv0 := h.2
            omega
        next h => omega
      · show (if u2.getD (s.uvlen - 1) 0 = 0 ∧ v.getD (s.uvlen - 1) 0 = 0
            then s.uvlen - 1 else s.uvlen) ≤ 8
        split <;> omega
      · show mval (u2.drop (if u2.getD (s.uvlen - 1) 0 = 0 ∧
            v.getD (s.uvlen - 1) 0 = 0 then s.uvlen - 1 else s.uvlen)) = 0
        split
        next h =>
          have hlt : s.uvlen - 1 < u2.length := by omega
          rw [List.drop_eq_getElem_cons hlt, mval_cons]
          rw [show u2[s.uvlen - 1] = u2.getD (s.uvlen - 1) 0 from
            (List.getD_eq_getElem _ _ hlt).symm, h.1]
          rw [show s.uvlen - 1 + 1 = s.uvlen by omega, hu2drop]
          ring
        next h => exact hu2drop
      · show mval (v.drop (if u2.getD (s.uvlen - 1) 0 = 0 ∧
            v.getD (s.uvlen - 1) 0 = 0 then s.uvlen - 1 else s.uvlen)) = 0
        split
        next h =>
          have hlt : s.uvlen - 1 < v.length := by omega
          rw [List.drop_eq_getElem_cons hlt, mval_cons]
          rw [show v[s.uvlen - 1] = v.getD (s.uvlen - 1) 0 from
            (List.getD_eq_getElem _ _ hlt).symm, h.2]
          rw [show s.uvlen - 1 + 1 = s.uvlen by omega, hvd2]
          ring
        next h => exact hvd2
      · intro m hm
        rcases List.mem_append.mp hm with h | h
        · exact hlog m h
        · have : m = s.uvlen := by simpa using h
          omega
    · show mval u2 + mval v < mval s.ux + mval s.vx
      rw [hu2val]
      omega
  · -- vx-branch: vx := v - u, x2 := x2 - x1
    have hultv : mval u < mval v := by
      by_contra hgeu
      push_neg at hgeu
      have : mpi_cmp u v s.uvlen ≥ 0 := by
        rw [hcmp, if_neg (by omega)]
        split
        · norm_num
        · norm_num
      exact hbr this
    have hlsub : (v.take s.uvlen).length = (u.take s.uvlen).length := by
      simp [List.length_take, hul2, hvl2]
    have hsub := mpi_sub_val (v.take s.uvlen) (u.take s.uvlen) (valid_take _ _ hvv2)
      (valid_take _ _ huv2) hlsub
    rw [htu2, htv2] at hsub
    have hbor : (mpi_sub (v.take s.uvlen) (u.take s.uvlen)).2 = 0 := by
      rw [hsub.2, if_neg (by omega)]
    have hsubval : mval (mpi_sub (v.take s.uvlen) (u.take s.uvlen)).1
        = mval v - mval u := by
      have h := hsub.1
      rw [hbor, Nat.mul_zero, Nat.add_zero] at h
      omega
    have hslen : (mpi_sub (v.take s.uvlen) (u.take s.uvlen)).1.length = s.uvlen := by
      rw [mpi_sub_length _ _ hlsub, List.length_take, hvl2]
      omega
    set v2 := (mpi_sub (v.take s.uvlen) (u.take s.uvlen)).1 ++ v.drop s.uvlen with hv2d
    have hv2len : v2.length = 8 := by
      rw [hv2d, List.length_append, hslen, List.length_drop, hvl2]
      omega
    have hv2v : valid v2 := valid_append _ _ (mpi_sub_valid _ _) (valid_drop _ _ hvv2)
    have hv2drop : mval (v2.drop s.uvlen) = 0 := by
      have hdl : v2.drop s.uvlen = v.drop s.uvlen := by
        calc v2.drop s.uvlen
            = ((mpi_sub (v.take s.uvlen) (u.take s.uvlen)).1 ++ v.drop s.uvlen).drop
                ((mpi_sub (v.take s.uvlen) (u.take s.uvlen)).1.length) := by
              rw [hv2d, hslen]
          _ = v.drop s.uvlen := List.drop_left _ _
      rw [hdl, hvd2]
    have hv2val : mval v2 = mval v - mval u := by
      rw [hv2d, mval_append, hslen, hsubval, hvd2, Nat.mul_zero, Nat.add_zero]
    have hsubz := gfp_sub_zmod y2 y1 hy2v hy1v hy2l hy1l
    have hsubl := (gfp_sub_eq y2 y1 hy2v hy1v hy2l hy1l).2.1
    have hsubvv := (gfp_sub_eq y2 y1 hy2v hy1v hy2l hy1l).2.2.1
    have hcongnew : ((A * mval (gfp_sub y2 y1) : Nat) : ZMod P)
        = ((mval v2 : Nat) : ZMod P) := by
      have h1 := hcu2
      have h2 := hcv2
      have h3 := hsubz
      have h4 := hv2val
      have h5 := le_of_lt hultv
      generalize hXs : mval (gfp_sub y2 y1) = Xs at h3 ⊢
      generalize hX1 : mval y1 = X1 at h3 h1
      generalize hX2 : mval y2 = X2 at h3 h2
      generalize hU : mval u = U at h1 h4 h5
      generalize hV : mval v = V at h2 h4 h5
      generalize hV2 : mval v2 = V2 at h4 ⊢
      subst h4
      calc ((A * Xs : Nat) : ZMod P)
          = ((A : Nat) : ZMod P) * ((Xs : Nat) : ZMod P) := by push_cast; ring
        _ = ((A : Nat) : ZMod P) * (((X2 : Nat) : ZMod P) - ((X1 : Nat) : ZMod P)) := by
            rw [h3]
        _ = ((A * X2 : Nat) : ZMod P) - ((A * X1 : Nat) : ZMod P) := by push_cast; ring
        _ = ((V : Nat) : ZMod P) - ((U : Nat) : ZMod P) := by rw [h1, h2]
        _ = ((V - U : Nat) : ZMod P) := by rw [Nat.cast_sub h5]
    have hgcdnew : Nat.gcd (mval u) (mval v2) = 1 := by
      rw [hv2val, Nat.gcd_sub_self_right (le_of_lt hultv)]
      exact hgcduv
    refine ⟨⟨u, v2,
      y1, gfp_sub y2 y1,
      if u.getD (s.uvlen - 1) 0 = 0 ∧ v2.getD (s.uvlen - 1) 0 = 0
        then s.uvlen - 1 else s.uvlen,
      s.log ++ [s.uvlen]⟩, ?_, ?_, ?_⟩
    · simp only [invLoop, if_pos hcond, hequ, heqv, ge_iff_le, if_neg hbr]
    · refine ⟨hul2, hv2len, hy1l, hsubl, huv2, hv2v, hy1v, hsubvv, ?_, ?_, ?_, ?_,
        hu2pos, show 1 ≤ mval v2 by omega, hgcdnew, hcu2, hcongnew, ?_⟩
      · show 1 ≤ if u.getD (s.uvlen - 1) 0 = 0 ∧ v2.getD (s.uvlen - 1) 0 = 0
            then s.uvlen - 1 else s.uvlen
        split
        next h =>
          rcases Nat.lt_or_ge 1 s.uvlen with h2 | h2
          · omega
          · exfalso
            have he1 : s.uvlen = 1 := by omega
            rw [he1, Nat.sub_self] at h
            have hu0 := h.1
            omega
        next h => omega
      · show (if u.getD (s.uvlen - 1) 0 = 0 ∧ v2.getD (s.uvlen - 1) 0 = 0
            then s.uvlen - 1 else s.uvlen) ≤ 8
        split <;> omega
      · show mval (u.drop (if u.getD (s.uvlen - 1) 0 = 0 ∧
            v2.getD (s.uvlen - 1) 0 = 0 then s.uvlen - 1 else s.uvlen)) = 0
        split
        next h =>
          have hlt : s.uvlen - 1 < u.length := by omega
          rw [List.drop_eq_getElem_cons hlt, mval_cons]
          rw [show u[s.uvlen - 1] = u.getD (s.uvlen - 1) 0 from
            (List.getD_eq_getElem _ _ hlt).symm, h.1]
          rw [show s.uvlen - 1 + 1 = s.uvlen by omega, hud2]
          ring
        next h => exact hud2
      · show mval (v2.drop (if u.getD (s.uvlen - 1) 0 = 0 ∧
            v2.getD (s.uvlen - 1) 0 = 0 then s.uvlen - 1 else s.uvlen)) = 0
        split
        next h =>
          have hlt : s.uvlen - 1 < v2.length := by omega
          rw [List.drop_eq_getElem_cons hlt, mval_cons]
          rw [show v2[s.uvlen - 1] = v2.getD (s.uvlen - 1) 0 from
            (List.getD_eq_getElem _ _ hlt).symm, h.2]
          rw [show s.uvlen - 1 + 1 = s.uvlen by omega, hv2drop]
          ring
        next h => exact hv2drop
      · intro m hm
        rcases List.mem_append.mp hm with h | h
        · exact hlog m h
        · have : m = s.uvlen := by simpa using h
          omega
    · show mval u + mval v2 < mval s.ux + mval s.vx
      rw [hv2val]
      omega


theorem mpi_setw_one_val : mval (mpi_setw 1 8) = 1 := by decide

theorem mpi_setw_zero_val : mval (mpi_setw 0 8) = 0 := by decide

theorem mpi_setw_length (a : Nat) : (mpi_setw a 8).length = 8 := rfl

theorem mpi_setw_valid_one : valid (mpi_setw 1 8) := by decide

theorem mpi_setw_valid_zero : valid (mpi_setw 0 8) := by decide

/-- `gfp_inv`'s main loop, run with fuel exceeding `ux + vx`, reaches a
state satisfying the invariant in which one of the working values is 1. -/
theorem invLoop_spec (A : Nat) :
    ∀ (fuel : Nat) (s : InvState), InvGood A s →
    mval s.ux + mval s.vx < fuel →
    ∃ t : InvState, invLoop fuel s = some t ∧ InvGood A t ∧
      (mval t.ux = 1 ∨ mval t.vx = 1) := by
  intro fuel
  induction fuel with
  | zero =>
    intro s hs hf
    omega
  | succ fuel ih =>
    intro s hs hf
    by_cases hcond : mpi_cmpw s.ux 1 s.uvlen ≠ 0 ∧ mpi_cmpw s.vx 1 s.uvlen ≠ 0
    · obtain ⟨s', hstep, hgood, hdec⟩ := invLoop_step A fuel s hs hcond
      obtain ⟨t, heq, hg, hone⟩ := ih s' hgood (by omega)
      exact ⟨t, by rw [hstep]; exact heq, hg, hone⟩
    · refine ⟨s, ?_, hs, ?_⟩
      · simp only [invLoop, if_neg hcond]
      · obtain ⟨hul, hvl, hx1l, hx2l, huv, hvv, hx1v, hx2v, hlen1, hlen8, hdu, hdv,
          hu1, hv1, hgcd, hcu, hcv, hlog⟩ := hs
        have hWgt : (1 : Nat) < W := by norm_num [W]
        have htu : mval (s.ux.take s.uvlen) = mval s.ux := by
          have := mval_take_drop s.ux s.uvlen (by omega)
          rw [hdu, Nat.mul_zero, Nat.add_zero] at this
          omega
        have htv : mval (s.vx.take s.uvlen) = mval s.vx := by
          have := mval_take_drop s.vx s.uvlen (by omega)
          rw [hdv, Nat.mul_zero, Nat.add_zero] at this
          omega
        rcases not_and_or.mp hcond with h | h
        · left
          have h0 := not_ne_iff.mp h
          have := (mpi_cmpw_eq_zero_iff s.ux 1 s.uvlen hlen1 (by omega) hWgt).mp h0
          rw [htu] at this
          exact this
        · right
          have h0 := not_ne_iff.mp h
          have := (mpi_cmpw_eq_zero_iff s.vx 1 s.uvlen hlen1 (by omega) hWgt).mp h0
          rw [htv] at this
          exact this

/-- `gfp_inv`'s reduction pre-loop computes `ux mod p` (with `vx = p`),
given fuel exceeding `ux / p`. -/
theorem invPre_spec :
    ∀ (fuel : Nat) (ux : List Nat), valid ux → ux.length = 8 →
    mval ux < fuel * P →
    ∃ u, invPre fuel ux gfp_setp = some u ∧ u.length = 8 ∧ valid u ∧
      mval u = mval ux % P := by
  intro fuel
  induction fuel with
  | zero =>
    intro ux _ _ hf
    omega
  | succ fuel ih =>
    intro ux hv hl hf
    have hcmp := mpi_cmp_correct ux gfp_setp 8 hv gfp_setp_valid (by norm_num)
      (by omega) (by rw [gfp_setp_length])
    have htu : ux.take 8 = ux := by
      rw [← hl]
      exact List.take_length ux
    have htp : gfp_setp.take 8 = gfp_setp := rfl
    rw [htu, htp, gfp_setp_val] at hcmp
    by_cases hge : mpi_cmp ux gfp_setp 8 ≥ 0
    · have hgeP : P ≤ mval ux := by
        by_contra hlt
        push_neg at hlt
        rw [if_pos hlt] at hcmp
        rw [hcmp] at hge
        norm_num at hge
      have hsub := mpi_sub_val ux gfp_setp hv gfp_setp_valid (by rw [hl, gfp_setp_length])
      have hbor : (mpi_sub ux gfp_setp).2 = 0 := by
        rw [hsub.2, if_neg (by rw [gfp_setp_val]; omega)]
      have hval : mval (mpi_sub ux gfp_setp).1 = mval ux - P := by
        have h := hsub.1
        rw [hbor, Nat.mul_zero, Nat.add_zero, gfp_setp_val] at h
        omega
      have hlen2 : (mpi_sub ux gfp_setp).1.length = 8 := by
        rw [mpi_sub_length _ _ (by rw [hl, gfp_setp_length]), hl]
      have hstep : invPre (fuel + 1) ux gfp_setp
          = invPre fuel (mpi_sub ux gfp_setp).1 gfp_setp := by
        simp only [invPre, if_pos hge]
      have hm : (fuel + 1) * P = fuel * P + P := by ring
      rw [hm] at hf
      obtain ⟨u, hequ, hul, huv, hmval⟩ := ih (mpi_sub ux gfp_setp).1
        (mpi_sub_valid _ _) hlen2 (by rw [hval]; omega)
      refine ⟨u, by rw [hstep]; exact hequ, hul, huv, ?_⟩
      rw [hmval, hval, ← Nat.mod_eq_sub_mod hgeP]
    · have hltP : mval ux < P := by
        by_contra hge2
        push_neg at hge2
        have : mpi_cmp ux gfp_setp 8 ≥ 0 := by
          rw [hcmp, if_neg (by omega)]
          split
          · norm_num
          · norm_num
        exact hge this
      refine ⟨ux, ?_, hl, hv, ?_⟩
      · simp only [invPre, if_neg hge]
      · rw [Nat.mod_eq_of_lt hltP]


theorem mval_lt_2pow256 (a : List Nat) (ha : valid a) (la : a.length = 8) :
    mval a < 2 ^ 256 := by
  have h := mval_lt a ha
  rw [la] at h
  have h8 : W ^ 8 = 2 ^ 256 := by norm_num [W]
  rw [h8] at h
  exact h

theorem invPre_fuel4 (a : List Nat) (ha : valid a) (la : a.length = 8) :
    mval a < 4 * P := by
  have h := mval_lt_2pow256 a ha la
  have h4 : (2 : Nat) ^ 256 < 4 * P := by norm_num [P]
  omega

theorem mpi_copy_eight (a : List Nat) (la : a.length = 8) : mpi_copy a 8 = a := by
  show a.take 8 = a
  rw [← la]
  exact List.take_length a

/-- A zero input (mod p) makes `gfp_inv` return `M25519_ERR_INVERS` with
the output buffer `r` holding the zeroed `x2` (not its previous content). -/
theorem gfp_inv_zero (r0 a : List Nat) (ha : valid a) (la : a.length = 8)
    (hz : mval a % P = 0) :
    gfp_inv r0 a = some (M25519_ERR_INVERS, mpi_setw 0 8, []) := by
  obtain ⟨u, hequ, hul, huv, hmv⟩ := invPre_spec 4 a ha la (invPre_fuel4 a ha la)
  have hcw := mpi_cmpw_eq_zero_iff u 0 8 (by norm_num) (by omega) (by norm_num [W])
  have htu : u.take 8 = u := by
    rw [← hul]
    exact List.take_length u
  have hc0 : mpi_cmpw u 0 8 = 0 := by
    apply hcw.mpr
    rw [htu, hmv, hz]
  have hsc : invPre 4 (mpi_copy a 8) gfp_setp = some u := by
    rw [mpi_copy_eight a la]
    exact hequ
  show gfp_inv r0 a = _
  show (match invPre 4 (mpi_copy a 8) gfp_setp with
    | none => none
    | some ux1 =>
      if mpi_cmpw ux1 0 8 = 0 then some (M25519_ERR_INVERS, mpi_setw 0 8, [])
      else
        match invLoop (mval ux1 + mval gfp_setp + 1)
            ⟨ux1, gfp_setp, mpi_setw 1 8, mpi_setw 0 8, 8, []⟩ with
        | none => none
        | some s => some (M25519_NO_ERROR,
            if mpi_cmpw s.ux 1 8 = 0 then mpi_copy s.x1 8 else s.x2, s.log))
    = some (M25519_ERR_INVERS, mpi_setw 0 8, [])
  rw [hsc]
  show (if mpi_cmpw u 0 8 = 0 then some (M25519_ERR_INVERS, mpi_setw 0 8, [])
    else match invLoop (mval u + mval gfp_setp + 1)
        ⟨u, gfp_setp, mpi_setw 1 8, mpi_setw 0 8, 8, []⟩ with
      | none => none
      | some s => some (M25519_NO_ERROR,
          if mpi_cmpw s.ux 1 8 = 0 then mpi_copy s.x1 8 else s.x2, s.log))
    = some (M25519_ERR_INVERS, mpi_setw 0 8, [])
  rw [if_pos hc0]

/-- For a nonzero input (mod p), `gfp_inv` succeeds and the returned buffer
is a modular inverse of the input; all logged loop lengths lie in `[1,8]`. -/
theorem gfp_inv_correct (r0 a : List Nat) (ha : valid a) (la : a.length = 8)
    (hnz : mval a % P ≠ 0) :
    ∃ r lg, gfp_inv r0 a = some (M25519_NO_ERROR, r, lg) ∧
      r.length = 8 ∧ valid r ∧
      ((mval a * mval r : Nat) : ZMod P) = ((1 : Nat) : ZMod P) ∧
      (∀ m ∈ lg, 1 ≤ m ∧ m ≤ 8) := by
  obtain ⟨u, hequ, hul, huv, hmv⟩ := invPre_spec 4 a ha la (invPre_fuel4 a ha la)
  have hu_pos : 1 ≤ mval u := by omega
  have hultP : mval u < P := by
    rw [hmv]
    exact Nat.mod_lt _ P_pos
  have htu : u.take 8 = u := by
    rw [← hul]
    exact List.take_length u
  have hcw0 := mpi_cmpw_eq_zero_iff u 0 8 (by norm_num) (by omega) (by norm_num [W])
  have hne0 : ¬ mpi_cmpw u 0 8 = 0 := by
    intro h
    have := hcw0.mp h
    rw [htu] at this
    omega
  -- initial invariant
  have hgcd0 : Nat.gcd (mval u) (mval gfp_setp) = 1 := by
    rw [gfp_setp_val]
    have hcop : Nat.Coprime P (mval u) :=
      (Nat.Prime.coprime_iff_not_dvd P_prime).mpr (fun hdvd => by
        have := Nat.le_of_dvd (by omega) hdvd
        omega)
    exact Nat.Coprime.symm hcop
  have hcong1 : ((mval a * mval (mpi_setw 1 8) : Nat) : ZMod P)
      = ((mval u : Nat) : ZMod P) := by
    rw [mpi_setw_one_val, Nat.mul_one, hmv]
    exact (ZMod.natCast_mod (mval a) P).symm
  have hcong2 : ((mval a * mval (mpi_setw 0 8) : Nat) : ZMod P)
      = ((mval gfp_setp : Nat) : ZMod P) := by
    rw [mpi_setw_zero_val, Nat.mul_zero, gfp_setp_val, Nat.cast_zero, ZMod.natCast_self]
  have hgood : InvGood (mval a) ⟨u, gfp_setp, mpi_setw 1 8, mpi_setw 0 8, 8, []⟩ := by
    refine ⟨hul, gfp_setp_length, mpi_setw_length 1, mpi_setw_length 0,
      huv, gfp_setp_valid, mpi_setw_valid_one, mpi_setw_valid_zero,
      by norm_num, by norm_num, ?_, ?_, hu_pos, ?_, hgcd0, hcong1, hcong2, ?_⟩
    · show mval (u.drop 8) = 0
      rw [List.drop_eq_nil_of_le (by omega)]
      rfl
    · show mval (gfp_setp.drop 8) = 0
      rfl
    · show 1 ≤ mval gfp_setp
      rw [gfp_setp_val]
      have := P_pos
      omega
    · intro m hm
      simp at hm
  obtain ⟨t, heqt, hgt, hone⟩ := invLoop_spec (mval a)
    (mval u + mval gfp_setp + 1) ⟨u, gfp_setp, mpi_setw 1 8, mpi_setw 0 8, 8, []⟩
    hgood (show mval u + mval gfp_setp < mval u + mval gfp_setp + 1 by omega)
  obtain ⟨hul2, hvl2, hx1l2, hx2l2, huv2, hvv2, hx1v2, hx2v2, _, _, _, _,
    _, _, _, hcu2, hcv2, hlog2⟩ := hgt
  have hcwu := mpi_cmpw_eq_zero_iff t.ux 1 8 (by norm_num) (by omega) (by norm_num [W])
  have htut : t.ux.take 8 = t.ux := by
    rw [← hul2]
    exact List.take_length t.ux
  by_cases hfin : mpi_cmpw t.ux 1 8 = 0
  · have hm1 : mval t.ux = 1 := by
      have := hcwu.mp hfin
      rw [htut] at this
      exact this
    refine ⟨t.x1, t.log, ?_, hx1l2, hx1v2, ?_, hlog2⟩
    · have hsc : invPre 4 (mpi_copy a 8) gfp_setp = some u := by
        rw [mpi_copy_eight a la]
        exact hequ
      show gfp_inv r0 a = _
      show (match invPre 4 (mpi_copy a 8) gfp_setp with
        | none => none
        | some ux1 =>
          if mpi_cmpw ux1 0 8 = 0 then some (M25519_ERR_INVERS, mpi_setw 0 8, [])
          else
            match invLoop (mval ux1 + mval gfp_setp + 1)
                ⟨ux1, gfp_setp, mpi_setw 1 8, mpi_setw 0 8, 8, []⟩ with
            | none => none
            | some s => some (M25519_NO_ERROR,
                if mpi_cmpw s.ux 1 8 = 0 then mpi_copy s.x1 8 else s.x2, s.log))
        = some (M25519_NO_ERROR, t.x1, t.log)
      rw [hsc]
      show (if mpi_cmpw u 0 8 = 0 then some (M25519_ERR_INVERS, mpi_setw 0 8, [])
        else match invLoop (mval u + mval gfp_setp + 1)
            ⟨u, gfp_setp, mpi_setw 1 8, mpi_setw 0 8, 8, []⟩ with
          | none => none
          | some s => some (M25519_NO_ERROR,
              if mpi_cmpw s.ux 1 8 = 0 then mpi_copy s.x1 8 else s.x2, s.log))
        = some (M25519_NO_ERROR, t.x1, t.log)
      rw [if_neg hne0]
      conv_lhs => rw [heqt]
      show some (M25519_NO_ERROR,
          if mpi_cmpw t.ux 1 8 = 0 then mpi_copy t.x1 8 else t.x2, t.log)
        = some (M25519_NO_ERROR, t.x1, t.log)
      rw [if_pos hfin, mpi_copy_eight t.x1 hx1l2]
    · rw [hcu2, hm1]
  · have hm1 : mval t.vx = 1 := by
      rcases hone with h | h
      · exfalso
        exact hfin (hcwu.mpr (by rw [htut]; exact h))
      · exact h
    refine ⟨t.x2, t.log, ?_, hx2l2, hx2v2, ?_, hlog2⟩
    · have hsc : invPre 4 (mpi_copy a 8) gfp_setp = some u := by
        rw [mpi_copy_eight a la]
        exact hequ
      show gfp_inv r0 a = _
      show (match invPre 4 (mpi_copy a 8) gfp_setp with
        | none => none
        | some ux1 =>
          if mpi_cmpw ux1 0 8 = 0 then some (M25519_ERR_INVERS, mpi_setw 0 8, [])
          else
            match invLoop (mval ux1 + mval gfp_setp + 1)
                ⟨ux1, gfp_setp, mpi_setw 1 8, mpi_setw 0 8, 8, []⟩ with
            | none => none
            | some s => some (M25519_NO_ERROR,
                if mpi_cmpw s.ux 1 8 = 0 then mpi_copy s.x1 8 else s.x2, s.log))
        = some (M25519_NO_ERROR, t.x2, t.log)
      rw [hsc]
      show (if mpi_cmpw u 0 8 = 0 then some (M25519_ERR_INVERS, mpi_setw 0 8, [])
        else match invLoop (mval u + mval gfp_setp + 1)
            ⟨u, gfp_setp, mpi_setw 1 8, mpi_setw 0 8, 8, []⟩ with
          | none => none
          | some s => some (M25519_NO_ERROR,
              if mpi_cmpw s.ux 1 8 = 0 then mpi_copy s.x1 8 else s.x2, s.log))
        = some (M25519_NO_ERROR, t.x2, t.log)
      rw [if_neg hne0]
      conv_lhs => rw [heqt]
      show some (M25519_NO_ERROR,
          if mpi_cmpw t.ux 1 8 = 0 then mpi_copy t.x1 8 else t.x2, t.log)
        = some (M25519_NO_ERROR, t.x2, t.log)
      rw [if_neg hfin]
    · rw [hcv2, hm1]


/-- Claim C1: for every `a, b` in `[0, 2^256-1]` (i.e. all valid 8-word
inputs), `gfp_mul` writes an 8-word result `r ≡ a·b (mod p)` with
`0 ≤ r ≤ 2p-1`, `p = 2^255-19`. -/
theorem claim_C1 (a b : List Nat) (ha : valid a) (hb : valid b)
    (la : a.length = 8) (lb : b.length = 8) :
    (gfp_mul a b).length = 8 ∧ valid (gfp_mul a b) ∧
    mval (gfp_mul a b) % P = (mval a * mval b) % P ∧
    mval (gfp_mul a b) ≤ 2 * P - 1 := by
  obtain ⟨⟨k, hk⟩, hl, hv, hr⟩ := gfp_mul_correct a b ha hb la lb
  refine ⟨hl, hv, ?_, hr⟩
  rw [← hk, Nat.add_mul_mod_self_right]

theorem claim_C1_witness :
    valid oneFE ∧ oneFE.length = 8 ∧
    ((gfp_mul oneFE oneFE).length = 8 ∧ valid (gfp_mul oneFE oneFE) ∧
     mval (gfp_mul oneFE oneFE) % P = (mval oneFE * mval oneFE) % P ∧
     mval (gfp_mul oneFE oneFE) ≤ 2 * P - 1) :=
  ⟨by decide, rfl, claim_C1 oneFE oneFE (by decide) (by decide) rfl rfl⟩

/-- Claim C2: for every valid 8-word `a, b`, `gfp_add` writes
`r ≡ a + b (mod p)` with `0 ≤ r ≤ 2p-1`; in particular for `a = p - 1`
and `b = 1` the result fully reduces to the zero field-element. -/
theorem claim_C2 (a b : List Nat) (ha : valid a) (hb : valid b)
    (la : a.length = 8) (lb : b.length = 8) :
    mval (gfp_add a b) % P = (mval a + mval b) % P ∧
    (gfp_add a b).length = 8 ∧ valid (gfp_add a b) ∧
    mval (gfp_add a b) ≤ 2 * P - 1 ∧
    gfp_fred (gfp_add [4294967276, 4294967295, 4294967295, 4294967295,
      4294967295, 4294967295, 4294967295, 2147483647] oneFE) = zeroFE := by
  refine ⟨?_, gfp_add_length a b ha hb la lb, gfp_add_valid a b ha hb la lb,
    gfp_add_range a b ha hb la lb, by decide⟩
  have h := gfp_add_eq a b ha hb la lb
  rw [h, Nat.add_mul_mod_self_right]

theorem claim_C2_witness :
    valid oneFE ∧ oneFE.length = 8 ∧
    (mval (gfp_add oneFE oneFE) % P = (mval oneFE + mval oneFE) % P ∧
     (gfp_add oneFE oneFE).length = 8 ∧ valid (gfp_add oneFE oneFE) ∧
     mval (gfp_add oneFE oneFE) ≤ 2 * P - 1 ∧
     gfp_fred (gfp_add [4294967276, 4294967295, 4294967295, 4294967295,
       4294967295, 4294967295, 4294967295, 2147483647] oneFE) = zeroFE) :=
  ⟨by decide, rfl, claim_C2 oneFE oneFE (by decide) (by decide) rfl rfl⟩

/-- Claim C3: for every valid 8-word `a` (including values above `2p`),
`gfp_fred` writes `r ∈ [0, p-1]` with `r ≡ a (mod p)`. -/
theorem claim_C3 (a : List Nat) (ha : valid a) (la : a.length = 8) :
    mval (gfp_fred a) = mval a % P ∧ mval (gfp_fred a) < P ∧
    (gfp_fred a).length = 8 ∧ valid (gfp_fred a) := by
  obtain ⟨hl, hv, hm⟩ := gfp_fred_correct a ha la
  exact ⟨hm, by rw [hm]; exact Nat.mod_lt _ P_pos, hl, hv⟩

theorem claim_C3_witness :
    valid oneFE ∧ oneFE.length = 8 ∧
    (mval (gfp_fred oneFE) = mval oneFE % P ∧ mval (gfp_fred oneFE) < P ∧
     (gfp_fred oneFE).length = 8 ∧ valid (gfp_fred oneFE)) :=
  ⟨by decide, rfl, claim_C3 oneFE (by decide) rfl⟩

/-- Claim C4: `gfp_inv(r, a)` returns `M25519_ERR_INVERS` exactly when the
input is congruent to 0 mod p (writing the zeroed alias buffer, see C7);
for every other valid 8-word input it returns `M25519_NO_ERROR` and writes
an `r` with `fred(gfp_mul(a, r)) = [1, 0, 0, 0, 0, 0, 0, 0]`. -/
theorem claim_C4 (r0 a : List Nat) (ha : valid a) (la : a.length = 8) :
    (mval a % P = 0 → ∃ lg, gfp_inv r0 a = some (M25519_ERR_INVERS, mpi_setw 0 8, lg)) ∧
    (mval a % P ≠ 0 → ∃ r lg, gfp_inv r0 a = some (M25519_NO_ERROR, r, lg) ∧
      gfp_fred (gfp_mul a r) = oneFE) := by
  constructor
  · intro hz
    exact ⟨[], gfp_inv_zero r0 a ha la hz⟩
  · intro hnz
    obtain ⟨r, lg, heq, hrl, hrv, hcong, _⟩ := gfp_inv_correct r0 a ha la hnz
    refine ⟨r, lg, heq, ?_⟩
    obtain ⟨⟨k, hk⟩, hml, hmv, _⟩ := gfp_mul_correct a r ha hrv la hrl
    have hfred := gfp_fred_correct (gfp_mul a r) hmv hml
    have h1 : (mval a * mval r) % P = 1 % P :=
      (ZMod.natCast_eq_natCast_iff' _ _ _).mp hcong
    have hval : mval (gfp_fred (gfp_mul a r)) = 1 := by
      rw [hfred.2.2]
      have h2 : mval (gfp_mul a r) % P = (mval a * mval r) % P := by
        calc mval (gfp_mul a r) % P
            = (mval (gfp_mul a r) + k * P) % P := (Nat.add_mul_mod_self_right _ _ _).symm
          _ = (mval a * mval r) % P := by rw [hk]
      rw [h2, h1, Nat.mod_eq_of_lt (by norm_num [P])]
    apply mval_inj _ _ hfred.2.1 (by decide) (by rw [hfred.1]; rfl)
    rw [hval]
    decide

theorem claim_C4_witness :
    valid oneFE ∧ oneFE.length = 8 ∧
    ((mval oneFE % P = 0 →
        ∃ lg, gfp_inv zeroFE oneFE = some (M25519_ERR_INVERS, mpi_setw 0 8, lg)) ∧
     (mval oneFE % P ≠ 0 →
        ∃ r lg, gfp_inv zeroFE oneFE = some (M25519_NO_ERROR, r, lg) ∧
          gfp_fred (gfp_mul oneFE r) = oneFE)) :=
  ⟨by decide, rfl, claim_C4 zeroFE oneFE (by decide) rfl⟩

/-- Claim C5: for every valid 8-word `a`, `gfp_hlv` writes `r ∈ [0, 2p-1]`
with `r = a/2` for even `a` and `r = (a+p)/2` for odd `a`; consequently
`hlv(add(a, a)) ≡ a (mod p)`. -/
theorem claim_C5 (a : List Nat) (ha : valid a) (la : a.length = 8) :
    (gfp_hlv a).length = 8 ∧ valid (gfp_hlv a) ∧ mval (gfp_hlv a) ≤ 2 * P - 1 ∧
    (mval a % 2 = 0 → mval (gfp_hlv a) = mval a / 2) ∧
    (mval a % 2 = 1 → mval (gfp_hlv a) = (mval a + P) / 2) ∧
    mval (gfp_hlv (gfp_add a a)) % P = mval a % P := by
  obtain ⟨hl, hv, hm, hr⟩ := gfp_hlv_correct a ha la
  refine ⟨hl, hv, hr, ?_, ?_, ?_⟩
  · intro he
    rw [hm, he, Nat.zero_mul, Nat.add_zero]
  · intro ho
    rw [hm, ho, Nat.one_mul]
  · haveI : Fact (Nat.Prime P) := ⟨P_prime⟩
    have haddl := gfp_add_length a a ha ha la la
    have haddv := gfp_add_valid a a ha ha la la
    have hz := gfp_hlv_zmod (gfp_add a a) haddv haddl
    have hcastadd : ((mval (gfp_add a a) : Nat) : ZMod P)
        = 2 * ((mval a : Nat) : ZMod P) := by
      have h := gfp_add_eq a a ha ha la la
      have hc : ((mval a + mval a : Nat) : ZMod P)
          = ((mval (gfp_add a a)
              + (a.getD 7 0 + a.getD 7 0) / 2 ^ 31 * P : Nat) : ZMod P) :=
        congrArg (Nat.cast : ℕ → ZMod P) h
      generalize hA : mval a = A at hc ⊢
      generalize hR : mval (gfp_add a a) = R at hc ⊢
      generalize hQ : (a.getD 7 0 + a.getD 7 0) / 2 ^ 31 = q at hc
      push_cast at hc
      rw [ZMod.natCast_self, mul_zero, add_zero] at hc
      rw [← hc]
      ring
    have h2 : (2 : ZMod P) * ((mval (gfp_hlv (gfp_add a a)) : Nat) : ZMod P)
        = 2 * ((mval a : Nat) : ZMod P) := by rw [hz, hcastadd]
    have h3 := mul_left_cancel₀ two_ne_zero_zmodP h2
    exact (ZMod.natCast_eq_natCast_iff' _ _ _).mp h3

theorem claim_C5_witness :
    valid oneFE ∧ oneFE.length = 8 ∧
    ((gfp_hlv oneFE).length = 8 ∧ valid (gfp_hlv oneFE) ∧
     mval (gfp_hlv oneFE) ≤ 2 * P - 1 ∧
     (mval oneFE % 2 = 0 → mval (gfp_hlv oneFE) = mval oneFE / 2) ∧
     (mval oneFE % 2 = 1 → mval (gfp_hlv oneFE) = (mval oneFE + P) / 2) ∧
     mval (gfp_hlv (gfp_add oneFE oneFE)) % P = mval oneFE % P) :=
  ⟨by decide, rfl, claim_C5 oneFE (by decide) rfl⟩

/-- Claim C6: refuted (code bug).  `mpi_cmpw` is claimed to follow
`mpi_cmp`'s sign convention (+1 when `a` is greater), but its verdict
lines add 1 when `b > a[0]` and subtract 1 when `b < a[0]`: on
`a = [2], b = 1, len = 1` the array is strictly greater, `mpi_cmp`
returns +1, yet `mpi_cmpw` returns -1. -/
theorem claim_C6 :
    mval [2] > mval (mpi_setw 1 1) ∧ mpi_cmp [2] [1] 1 = 1 ∧
    mpi_cmpw [2] 1 1 = -1 := by
  decide

/-- Claim C7: corrected.  On `a = 0`, `gfp_inv` does return
`M25519_ERR_INVERS` before the loops, but the output buffer is not left
unchanged: `x2` is an alias of `r`, and `mpi_setw(x2, 0, LEN)` has
already zeroed all 8 words, whatever `r0` contained before the call. -/
theorem claim_C7 (r0 : List Nat) :
    gfp_inv r0 zeroFE = some (M25519_ERR_INVERS, mpi_setw 0 8, []) ∧
    mpi_setw 0 8 ≠ oneFE := by
  refine ⟨gfp_inv_zero r0 zeroFE (by decide) rfl (by decide), by decide⟩

/-- Counterexample to claim C7 as stated: with prior output-buffer content
`oneFE`, the call `gfp_inv(r, 0)` returns `M25519_ERR_INVERS` but the
buffer now holds the zeroed `x2` (its alias), which differs from the 8
words it held before the call. -/
theorem claim_C7_counterexample :
    gfp_inv oneFE zeroFE = some (M25519_ERR_INVERS, mpi_setw 0 8, []) ∧
    mpi_setw 0 8 ≠ oneFE := by
  refine ⟨gfp_inv_zero oneFE zeroFE (by decide) rfl (by decide), by decide⟩

/-- Claim C8: for every valid 8-word `a, b`, the arithmetic-shift
formulation `gfp_sub` and the unsigned pre-biased formulation
`gfp_sub_v2` produce bit-for-bit identical outputs, both `≡ a - b (mod p)`
and `≤ 2p-1`. -/
theorem claim_C8 (a b : List Nat) (ha : valid a) (hb : valid b)
    (la : a.length = 8) (lb : b.length = 8) :
    gfp_sub a b = gfp_sub_v2 a b ∧
    (mval (gfp_sub a b) + mval b) % P = mval a % P ∧
    mval (gfp_sub a b) ≤ 2 * P - 1 := by
  obtain ⟨h1, hl1, hv1, hr1⟩ := gfp_sub_eq a b ha hb la lb
  obtain ⟨h2, hl2, hv2⟩ := gfp_sub_v2_eq a b ha hb la lb
  have hval : mval (gfp_sub a b) = mval (gfp_sub_v2 a b) := by
    have : (mval (gfp_sub a b) : Int) = mval (gfp_sub_v2 a b) := by omega
    exact_mod_cast this
  refine ⟨mval_inj _ _ hv1 hv2 (by rw [hl1, hl2]) hval, ?_, hr1⟩
  obtain ⟨q, hq⟩ := gfp_sub_nat_eq a b ha hb la lb
  calc (mval (gfp_sub a b) + mval b) % P
      = (mval (gfp_sub a b) + mval b + q * P) % P :=
        (Nat.add_mul_mod_self_right _ _ _).symm
    _ = (mval a + 4 * P) % P := by
        rw [show mval (gfp_sub a b) + mval b + q * P = mval a + 4 * P by omega]
    _ = mval a % P := Nat.add_mul_mod_self_right _ _ _

theorem claim_C8_witness :
    valid oneFE ∧ valid zeroFE ∧ oneFE.length = 8 ∧
    (gfp_sub oneFE zeroFE = gfp_sub_v2 oneFE zeroFE ∧
     (mval (gfp_sub oneFE zeroFE) + mval zeroFE) % P = mval oneFE % P ∧
     mval (gfp_sub oneFE zeroFE) ≤ 2 * P - 1) :=
  ⟨by decide, by decide, rfl, claim_C8 oneFE zeroFE (by decide) (by decide) rfl rfl⟩

/-- Claim C9: under `1 ≤ len ≤ 32`, `mpi_cmp` returns the sign of `a - b`
(so the accumulator words never overflow and the `len ≤ WSIZE` assertion
is honored), and every length that `gfp_inv` passes to `mpi_cmp`/`mpi_cmpw`
in its main loop (the logged `uvlen` values; the other call sites use the
literal `LEN = 8`) lies in `[1, 8] ⊆ [1, 32]`. -/
theorem claim_C9 (a b : List Nat) (len : Nat) (ha : valid a) (hb : valid b)
    (h32 : len ≤ 32) (hla : len ≤ a.length) (hlb : len ≤ b.length)
    (r0 x : List Nat) (hx : valid x) (lx : x.length = 8) :
    (mpi_cmp a b len = if mval (a.take len) < mval (b.take len) then -1
      else if mval (a.take len) = mval (b.take len) then 0 else 1) ∧
    (∀ e r lg, gfp_inv r0 x = some (e, r, lg) → ∀ m ∈ lg, 1 ≤ m ∧ m ≤ 32) := by
  refine ⟨mpi_cmp_correct a b len ha hb h32 hla hlb, ?_⟩
  intro e r lg heq m hm
  by_cases hz : mval x % P = 0
  · rw [gfp_inv_zero r0 x hx lx hz] at heq
    simp only [Option.some.injEq, Prod.mk.injEq] at heq
    rw [← heq.2.2] at hm
    simp at hm
  · obtain ⟨r2, lg2, heq2, _, _, _, hbound⟩ := gfp_inv_correct r0 x hx lx hz
    rw [heq2] at heq
    simp only [Option.some.injEq, Prod.mk.injEq] at heq
    rw [← heq.2.2] at hm
    have := hbound m hm
    omega

theorem claim_C9_witness :
    valid ([2] : List Nat) ∧ valid ([1] : List Nat) ∧ (1 : Nat) ≤ 32 ∧
    valid oneFE ∧ oneFE.length = 8 ∧
    ((mpi_cmp [2] [1] 1 = if mval (([2] : List Nat).take 1) < mval (([1] : List Nat).take 1)
        then -1
      else if mval (([2] : List Nat).take 1) = mval (([1] : List Nat).take 1) then 0 else 1) ∧
     (∀ e r lg, gfp_inv zeroFE oneFE = some (e, r, lg) → ∀ m ∈ lg, 1 ≤ m ∧ m ≤ 32)) :=
  ⟨by decide, by decide, by decide, by decide, rfl,
    claim_C9 [2] [1] 1 (by decide) (by decide) (by decide) (by decide) (by decide)
      zeroFE oneFE (by decide) rfl⟩

/-- Claim C10: the memory-access traces of all L1/L2 operations other than
`mpi_mul` and `gfp_inv` — mpi `add`, `cadd`, `sub`, `shr`, `cmp`, `cmpw`,
`setw`, `copy` and gfp `add`, `sub`, `cneg`, `hlv`, `mul`, `sqr`, `mul32`,
`fred`, `cmp`, `cmpp` — do not depend on any operand word (only on the
length parameter where one exists): no branch, loop bound, or memory index
is data-dependent. -/
theorem claim_C10 (a b a2 b2 : List Nat) (w w2 add add2 neg neg2 len : Nat) :
    mpi_add_acc a b len = mpi_add_acc a2 b2 len ∧
    mpi_cadd_acc a b add len = mpi_cadd_acc a2 b2 add2 len ∧
    mpi_sub_acc a b len = mpi_sub_acc a2 b2 len ∧
    mpi_shr_acc a len = mpi_shr_acc a2 len ∧
    mpi_cmp_acc a b len = mpi_cmp_acc a2 b2 len ∧
    mpi_cmpw_acc a w len = mpi_cmpw_acc a2 w2 len ∧
    mpi_setw_acc w len = mpi_setw_acc w2 len ∧
    mpi_copy_acc a len = mpi_copy_acc a2 len ∧
    gfp_add_acc a b = gfp_add_acc a2 b2 ∧
    gfp_sub_acc a b = gfp_sub_acc a2 b2 ∧
    gfp_cneg_acc a neg = gfp_cneg_acc a2 neg2 ∧
    gfp_hlv_acc a = gfp_hlv_acc a2 ∧
    gfp_mul_acc a b = gfp_mul_acc a2 b2 ∧
    gfp_sqr_acc a = gfp_sqr_acc a2 ∧
    gfp_mul32_acc a b = gfp_mul32_acc a2 b2 ∧
    gfp_fred_acc a = gfp_fred_acc a2 ∧
    gfp_cmp_acc a b = gfp_cmp_acc a2 b2 ∧
    gfp_cmpp_acc a = gfp_cmpp_acc a2 :=
  ⟨rfl, rfl, rfl, rfl, rfl, rfl, rfl, rfl, rfl, rfl, rfl, rfl, rfl, rfl, rfl,
   rfl, rfl, rfl⟩

end Micro25519
